import Mathlib

/-!
The scanner and the parser of ggt-lang

A shallow embedding of `scanner.go`, `token.go` and `parser.go` (package `lang`).

Modelling decisions.

* The input is a sequence of Unicode code points (`List Char`), that is, valid
  UTF-8 text read rune by rune through `bufio.Reader.ReadRune`.
* `Scanner` carries the unread remainder of the input and the rune which
  `bufio.Reader.UnreadRune` is still allowed to put back (`lastRuneSize ≥ 0`).
  `ReadRune` arms it on success and disarms it at end of input; `UnreadRune`
  and `Peek` disarm it.  In particular `UnreadRune` directly after `Peek` is
  rejected by `bufio` and `Scanner.unread` drops that error, so it does nothing.
* `Scanner.read` returns `eof = rune(0)` at end of input, so a NUL rune in the
  input is indistinguishable from end of input for the callers of `read`.
* `Parse` returns the Go pair `(*FunctionStatement, error)`; the error produced
  by `fmt.Errorf("found %q, expected X", lit)` is kept as the pair of the
  literal and the label `X`.
* The `for` loop of `Parse` is unrolled with a fuel argument; `none` means the
  fuel ran out (`Parse_total` shows that it never does).
-/

namespace Lang

/-! ## token.go -/

/-- Token kinds, in the order of the `iota` block of `token.go`. -/
inductive Token
  | ILLEGAL | EOF | WS
  | IDENT | KEY | NUM_VALUE
  | FUNCTION | TEMPLATE
  | PERIOD | OPEN_BRACE | CLOSE_BRACE | OPEN_BRACKET | CLOSE_BRACKET
  | QUOTE | PIPE | COLON | COMMA | SEMICOLON
  deriving DecidableEq, Repr

open Token

/-! ## scanner.go -/

/-- The marker rune for the end of the reader: `var eof = rune(0)`. -/
def eof : Char := Char.ofNat 0

/-- The single quote rune. -/
def quoteCh : Char := Char.ofNat 39

/-- Rune classifier `isWhitespace`: space, tab or newline. -/
def isWhitespace (ch : Char) : Bool := ch == ' ' || ch == '\t' || ch == '\n'

/-- Rune classifier `isLetter`: an ASCII letter. -/
def isLetter (ch : Char) : Bool :=
  ('a'.toNat ≤ ch.toNat && ch.toNat ≤ 'z'.toNat) || ('A'.toNat ≤ ch.toNat && ch.toNat ≤ 'Z'.toNat)

/-- Rune classifier `isDigit`: an ASCII digit. -/
def isDigit (ch : Char) : Bool := '0'.toNat ≤ ch.toNat && ch.toNat ≤ '9'.toNat

def isOpenBracket (ch : Char) : Bool := ch == '('
def isCloseBracket (ch : Char) : Bool := ch == ')'
def isOpenBrace (ch : Char) : Bool := ch == '{'
def isCloseBrace (ch : Char) : Bool := ch == '}'
def isQuote (ch : Char) : Bool := ch == quoteCh
def isColon (ch : Char) : Bool := ch == ':'

/-- First byte of the UTF-8 encoding of a rune, as a rune: what
`rune(ch[0])` is for the bytes `ch` returned by `Peek(1)`. -/
def firstByte (c : Char) : Char :=
  if c.toNat < 0x80 then c
  else if c.toNat < 0x800 then Char.ofNat (0xC0 + c.toNat / 0x40)
  else if c.toNat < 0x10000 then Char.ofNat (0xE0 + c.toNat / 0x1000)
  else Char.ofNat (0xF0 + c.toNat / 0x40000)

/-- The scanner: the buffered reader `r`, reduced to its unread input and to
the rune that `UnreadRune` may still restore. -/
structure Scanner where
  r : List Char
  last : Option Char
  deriving DecidableEq, Repr

/-- Constructor `NewScanner`: a fresh `bufio.Reader` has nothing to unread. -/
def NewScanner (input : List Char) : Scanner := ⟨input, none⟩

/-- Method `read`: next rune, or `eof` when `ReadRune` fails. -/
def Scanner.read (s : Scanner) : Char × Scanner :=
  match s.r with
  | [] => (eof, ⟨[], none⟩)
  | ch :: rest => (ch, ⟨rest, some ch⟩)

/-- Method `unread`: `UnreadRune`, its error dropped. -/
def Scanner.unread (s : Scanner) : Scanner :=
  match s.last with
  | none => s
  | some ch => ⟨ch :: s.r, none⟩

/-- Method `peek`: first byte of the pending input, or `eof` when `Peek(1)` fails. -/
def Scanner.peek (s : Scanner) : Char × Scanner :=
  match s.r with
  | [] => (eof, ⟨[], none⟩)
  | ch :: rest => (firstByte ch, ⟨ch :: rest, none⟩)

/-- The `for` loop of `scanWhitespace`, by recursion on the pending input:
each round starts with `s.read()`. -/
def scanWhitespaceLoop : List Char → List Char → List Char × Scanner
  | [], buf => (buf, ⟨[], none⟩)
  | ch :: rest, buf =>
    if ch == eof then (buf, ⟨rest, some ch⟩)
    else if !isWhitespace ch then (buf, Scanner.unread ⟨rest, some ch⟩)
    else scanWhitespaceLoop rest (buf ++ [ch])

/-- Method `scanWhitespace`. -/
def Scanner.scanWhitespace (s : Scanner) : Token × List Char × Scanner :=
  let (c0, s1) := s.read
  let (buf, s2) := scanWhitespaceLoop s1.r [c0]
  (WS, buf, s2)

/-- The `for` loop of `scanIdent`. -/
def scanIdentLoop : List Char → List Char → List Char × Scanner
  | [], buf => (buf, ⟨[], none⟩)
  | ch :: rest, buf =>
    if ch == eof then (buf, ⟨rest, some ch⟩)
    else if !isLetter ch && !isDigit ch && ch != '_' then (buf, Scanner.unread ⟨rest, some ch⟩)
    else scanIdentLoop rest (buf ++ [ch])

/-- Method `scanIdent`. -/
def Scanner.scanIdent (s : Scanner) : Token × List Char × Scanner :=
  let (c0, s1) := s.read
  let (buf, s2) := scanIdentLoop s1.r [c0]
  (IDENT, buf, s2)

/-- The `for` loop of `scanNumber`. -/
def scanNumberLoop : List Char → List Char → List Char × Scanner
  | [], buf => (buf, ⟨[], none⟩)
  | ch :: rest, buf =>
    if ch == eof then (buf, ⟨rest, some ch⟩)
    else if !isDigit ch then (buf, Scanner.unread ⟨rest, some ch⟩)
    else scanNumberLoop rest (buf ++ [ch])

/-- Method `scanNumber`. -/
def Scanner.scanNumber (s : Scanner) : Token × List Char × Scanner :=
  let (c0, s1) := s.read
  let (buf, s2) := scanNumberLoop s1.r [c0]
  (NUM_VALUE, buf, s2)

/-- The `for` loop of `scanTemplate`: a quote ends the template only when the
peeked rune after it is a comma. -/
def scanTemplateLoop : List Char → List Char → List Char × Scanner
  | [], buf => (buf, ⟨[], none⟩)
  | ch :: rest, buf =>
    if ch == eof then (buf, ⟨rest, some ch⟩)
    else if isQuote ch then
      let (next, s1) := Scanner.peek ⟨rest, some ch⟩
      if next != ',' then scanTemplateLoop rest (buf ++ [ch])
      else (buf ++ [ch], s1)
    else scanTemplateLoop rest (buf ++ [ch])

/-- Method `scanTemplate`. -/
def Scanner.scanTemplate (s : Scanner) : Token × List Char × Scanner :=
  let (quote, s1) := s.read
  if quote != quoteCh then (ILLEGAL, [quote], s1)
  else
    let (buf, s2) := scanTemplateLoop s1.r [quote]
    (TEMPLATE, buf, s2)

/-- Method `Scan`: the next token, its literal, and the scanner afterwards. -/
def Scanner.Scan (s : Scanner) : Token × List Char × Scanner :=
  let (ch, s1) := s.read
  if isWhitespace ch then s1.unread.scanWhitespace
  else if isLetter ch then
    let (next, s2) := s1.peek
    if isOpenBracket next then (FUNCTION, [ch], s2)
    else if isColon next then (IDENT, [ch], s2)
    else
      let (tok, lit, s3) := s2.unread.scanIdent
      (tok, [ch] ++ lit, s3)
  else if isDigit ch then s1.unread.scanNumber
  else if isQuote ch then s1.unread.scanTemplate
  else if ch == eof then (EOF, [], s1)
  else if ch == '(' then (OPEN_BRACKET, [ch], s1)
  else if ch == ')' then (CLOSE_BRACKET, [ch], s1)
  else if ch == '{' then (OPEN_BRACE, [ch], s1)
  else if ch == '}' then (CLOSE_BRACE, [ch], s1)
  else if ch == quoteCh then (QUOTE, [ch], s1)
  else if ch == ':' then (COLON, [ch], s1)
  else if ch == ',' then (COMMA, [ch], s1)
  else if ch == ';' then (SEMICOLON, [ch], s1)
  else (ILLEGAL, [ch], s1)

/-! ## parser.go -/

/-- The Go map `map[string]string`, as an association list with unique keys. -/
abbrev VarMap := List (List Char × List Char)

/-- Map assignment `m[k] = v`. -/
def VarMap.set : VarMap → List Char → List Char → VarMap
  | [], k, v => [(k, v)]
  | (k0, v0) :: m, k, v => if k0 = k then (k, v) :: m else (k0, v0) :: VarMap.set m k v

/-- Map lookup `m[k]`, with `none` for an absent key. -/
def VarMap.get : VarMap → List Char → Option (List Char)
  | [], _ => none
  | (k0, v0) :: m, k => if k0 = k then some v0 else VarMap.get m k

/-- The parse result `FunctionStatement`. -/
structure FunctionStatement where
  Template : List Char
  Vars : VarMap
  deriving DecidableEq, Repr

/-- The error of `fmt.Errorf("found %q, expected X", lit)`: the literal and the label `X`. -/
structure ParseError where
  found : List Char
  expected : String
  deriving DecidableEq, Repr

/-- The error text, for a rendering `q` of the verb `%q`. -/
def ParseError.Error (q : List Char → List Char) (e : ParseError) : List Char :=
  "found ".toList ++ q e.found ++ ", expected ".toList ++ e.expected.toList

/-- The parser: its scanner and the one-token pushback buffer `buf`. -/
structure Parser where
  s : Scanner
  tok : Token
  lit : List Char
  n : Nat
  deriving DecidableEq, Repr

/-- Constructor `NewParser`: zero-valued buffer (`Token(0)` is `ILLEGAL`). -/
def NewParser (input : List Char) : Parser := ⟨NewScanner input, ILLEGAL, [], 0⟩

/-- Method `scan`: the buffered token if one was pushed back, else the next
token of the scanner, which is saved in the buffer. -/
def Parser.scan (p : Parser) : (Token × List Char) × Parser :=
  if p.n != 0 then ((p.tok, p.lit), { p with n := 0 })
  else
    let (tok, lit, s1) := p.s.Scan
    ((tok, lit), { p with s := s1, tok := tok, lit := lit })

/-- Method `scanIgnoreWhitespace`: skips one `WS` token. -/
def Parser.scanIgnoreWhitespace (p : Parser) : (Token × List Char) × Parser :=
  let (tl, p1) := p.scan
  if tl.1 = WS then p1.scan else (tl, p1)

/-- Method `unscan`. -/
def Parser.unscan (p : Parser) : Parser := { p with n := 1 }

/-- How one round of the key/value loop of `Parse` ends: with `return nil, err`,
with `break`, or at the end of its body. -/
inductive Round
  | fail (e : ParseError)
  | brk (p : Parser) (stmt : FunctionStatement)
  | next (p : Parser) (stmt : FunctionStatement)
  deriving DecidableEq, Repr

/-- The body of the key/value `for` loop of `Parse`. -/
def pairRound (p : Parser) (stmt : FunctionStatement) : Round :=
  let ((next, nextLiteral), p1) := p.scanIgnoreWhitespace
  if next = CLOSE_BRACE then .brk p1.unscan stmt
  else if next ≠ IDENT then .fail ⟨nextLiteral, "key IDENT"⟩
  else
    let identLiteral := nextLiteral
    let ((tok, lit), p2) := p1.scanIgnoreWhitespace
    if tok ≠ COLON then .fail ⟨lit, "COLON"⟩
    else
      let ((valToken, valLiteral), p3) := p2.scanIgnoreWhitespace
      if valToken ≠ TEMPLATE ∧ valToken ≠ NUM_VALUE then .fail ⟨valLiteral, "LIT_VALUE"⟩
      else
        let stmt1 : FunctionStatement := { stmt with Vars := stmt.Vars.set identLiteral valLiteral }
        let ((tok4, _), p4) := p3.scanIgnoreWhitespace
        if tok4 ≠ COMMA then .brk p4.unscan stmt1
        else .next p4 stmt1

/-- How the key/value loop of `Parse` is left. -/
inductive LoopExit
  | fail (e : ParseError)
  | brk (p : Parser) (stmt : FunctionStatement)
  deriving DecidableEq, Repr

/-- The key/value `for` loop of `Parse`: its rounds, one after the other;
`none` when the fuel is used up. -/
def pairLoop : Nat → Parser → FunctionStatement → Option LoopExit
  | 0, _, _ => none
  | fuel + 1, p, stmt =>
    match pairRound p stmt with
    | .fail e => some (.fail e)
    | .brk p1 stmt1 => some (.brk p1 stmt1)
    | .next p1 stmt1 => pairLoop fuel p1 stmt1

/-- The result of `Parse`: the Go pair `(*FunctionStatement, error)`. -/
abbrev ParseResult := Option FunctionStatement × Option ParseError

/-- Method `Parse`, with the given fuel for its loop. -/
def Parser.ParseFuel (fuel : Nat) (p : Parser) : Option ParseResult :=
  let stmt : FunctionStatement := ⟨[], []⟩
  let ((tok, lit), p) := p.scanIgnoreWhitespace
  if tok ≠ FUNCTION then some (none, some ⟨lit, "FUNCTION"⟩)
  else
    let ((tok, lit), p) := p.scanIgnoreWhitespace
    if tok ≠ OPEN_BRACKET then some (none, some ⟨lit, "OPEN_BRACKET"⟩)
    else
      let ((templateToken, templateLiteral), p) := p.scanIgnoreWhitespace
      if templateToken ≠ TEMPLATE then some (none, some ⟨templateLiteral, "TEMPLATE"⟩)
      else
        let stmt : FunctionStatement := { stmt with Template := templateLiteral }
        let ((tok, lit), p) := p.scanIgnoreWhitespace
        if tok ≠ COMMA then some (none, some ⟨lit, "COMMA"⟩)
        else
          let ((openBraceToken, openBraceLiteral), p) := p.scanIgnoreWhitespace
          if openBraceToken ≠ OPEN_BRACE then some (none, some ⟨openBraceLiteral, "OPEN_BRACE"⟩)
          else
            match pairLoop fuel p stmt with
            | none => none
            | some (.fail e) => some (none, some e)
            | some (.brk p stmt) =>
              let ((tok, lit), p) := p.scanIgnoreWhitespace
              if tok ≠ CLOSE_BRACE then some (none, some ⟨lit, "CLOSE_BRACE"⟩)
              else
                let ((closeBracketToken, closeBracketLiteral), _) := p.scanIgnoreWhitespace
                if closeBracketToken ≠ CLOSE_BRACKET then
                  some (none, some ⟨closeBracketLiteral, "CLOSE_BRACKET"⟩)
                else some (some stmt, none)

/-- Method `Parse`: every round of the loop reads at least one rune, so the
number of pending runes plus one is enough fuel. -/
def Parser.Parse (p : Parser) : Option ParseResult :=
  p.ParseFuel (p.s.r.length + 1)

/-- Parsing a text: `NewParser(strings.NewReader(input)).Parse()`. -/
def parseText (input : List Char) : Option ParseResult := (NewParser input).Parse

/-- Method `Execute` of `FunctionStatement`: the result string and the error. -/
def FunctionStatement.Execute (_p : FunctionStatement) : List Char × Option ParseError :=
  let result : List Char := []
  (result, none)

/-- The input of `TestHelloWorld`. -/
def helloWorld : List Char :=
  "f('hello \x7b\x7b .foo \x7d\x7d', \x7b\n\t\tbar: 'foo',\n\t\x7d);".toList

/-! ## Reference notions used in the statements -/

/-- A token with its literal. -/
abbrev Tok := Token × List Char

/-- A text that contains no NUL rune. -/
def NulFree (input : List Char) : Prop := ∀ c ∈ input, c ≠ eof

instance (input : List Char) : Decidable (NulFree input) := by
  unfold NulFree; infer_instance

/-- A run of spaces, tabs and newlines (possibly empty). -/
def IsBlank (w : List Char) : Prop := ∀ c ∈ w, isWhitespace c = true

instance (w : List Char) : Decidable (IsBlank w) := by
  unfold IsBlank; infer_instance

/-- A rune allowed after the first letter of an identifier. -/
def isIdentChar (ch : Char) : Bool := isLetter ch || isDigit ch || ch == '_'

/-- A key: a letter followed by letters, digits or underscores. -/
def IsKey (k : List Char) : Prop :=
  ∃ c cs, k = c :: cs ∧ isLetter c = true ∧ ∀ x ∈ cs, isIdentChar x = true

instance (k : List Char) : Decidable (IsKey k) :=
  match k with
  | [] => isFalse (by rintro ⟨c, cs, h, _⟩; cases h)
  | c :: cs =>
    if h : isLetter c = true ∧ ∀ x ∈ cs, isIdentChar x = true then
      isTrue ⟨c, cs, rfl, h.1, h.2⟩
    else isFalse (by rintro ⟨c1, cs1, h1, h2, h3⟩; cases h1; exact h ⟨h2, h3⟩)

/-- A template body that closes at its final quote: no quote and no NUL inside. -/
def IsBody (b : List Char) : Prop := ∀ c ∈ b, c ≠ quoteCh ∧ c ≠ eof

instance (b : List Char) : Decidable (IsBody b) := by
  unfold IsBody; infer_instance

/-- Whether the text has a single quote directly followed by a comma. -/
def quoteComma : List Char → Bool
  | c :: d :: r => (c == quoteCh && d == ',') || quoteComma (d :: r)
  | _ => false

/-- The content of a quoted string that closes at its final quote when a comma
follows it: no NUL inside, and no single quote directly followed by a comma
inside; other single quotes are content. -/
def IsContent (b : List Char) : Prop := NulFree b ∧ quoteComma b = false

instance (b : List Char) : Decidable (IsContent b) := by
  unfold IsContent; infer_instance

/-- A non-empty run of ASCII digits. -/
def IsDigits (d : List Char) : Prop := d ≠ [] ∧ ∀ c ∈ d, isDigit c = true

instance (d : List Char) : Decidable (IsDigits d) := by
  unfold IsDigits; infer_instance

/-- A literal of length at least two that begins and ends with a single quote. -/
def IsQuoted (l : List Char) : Prop :=
  2 ≤ l.length ∧ l.head? = some quoteCh ∧ l.getLast? = some quoteCh

instance (l : List Char) : Decidable (IsQuoted l) := by
  unfold IsQuoted; infer_instance

/-- The quoted text of a body. -/
def quoted (b : List Char) : List Char := [quoteCh] ++ b ++ [quoteCh]

/-- Assigning a list of key/value pairs to a map, in order. -/
def VarMap.setAll (m : VarMap) (kvs : List (List Char × List Char)) : VarMap :=
  kvs.foldl (fun acc kv => acc.set kv.1 kv.2) m

/-- The value of the last occurrence of a key in a list of pairs. -/
def lastValue (kvs : List (List Char × List Char)) (k : List Char) : Option (List Char) :=
  (kvs.reverse.find? (fun kv => kv.1 = k)).map Prod.snd

/-! ## Auxiliary definitions for the proofs -/

/-- The rune that `peek` reports for a pending input. -/
def peekRune : List Char → Char
  | [] => eof
  | c :: _ => firstByte c

/-- The identifier scan after a letter whose lookahead is neither `(` nor `:`:
the pushback after `peek` has no effect, so the rune after the letter is taken as it is. -/
def identTail : List Char → List Char × Scanner
  | [] => ([eof], ⟨[], none⟩)
  | d :: r => scanIdentLoop r [d]

/-- The tokens that successive calls of `Scan` return, up to the first `EOF`. -/
def tokensFuel : Nat → Scanner → List Tok
  | 0, _ => []
  | fuel + 1, s =>
    let (tok, lit, s1) := s.Scan
    if tok = EOF then [] else (tok, lit) :: tokensFuel fuel s1

/-- The tokens of a scanner state: a token other than `EOF` reads at least one rune. -/
def Scanner.tokens (s : Scanner) : List Tok := tokensFuel (s.r.length + 1) s

/-- The tokens of a text. -/
def tokens (input : List Char) : List Tok := (NewScanner input).tokens

/-- The tokens of a text with the `WS` tokens dropped. -/
def sigTokens (input : List Char) : List Tok := (tokens input).filter (fun t => t.1 ≠ WS)

/-- The positions of the grammar
`FUNCTION OPEN_BRACKET TEMPLATE COMMA OPEN_BRACE pairs CLOSE_BRACE CLOSE_BRACKET`. -/
inductive GState
  | function | openBracket | template | comma | openBrace
  | key
  | colon (k : List Char)
  | value (k : List Char)
  | sep
  | closeBrace
  | closeBracket
  deriving DecidableEq, Repr

/-- The label of the token kind required at a position. -/
def GState.label : GState → String
  | .function => "FUNCTION"
  | .openBracket => "OPEN_BRACKET"
  | .template => "TEMPLATE"
  | .comma => "COMMA"
  | .openBrace => "OPEN_BRACE"
  | .key => "key IDENT"
  | .colon _ => "COLON"
  | .value _ => "LIT_VALUE"
  | .sep => "CLOSE_BRACE"
  | .closeBrace => "CLOSE_BRACE"
  | .closeBracket => "CLOSE_BRACKET"

/-- The effect of one token at a position. -/
inductive Step
  | reject
  | goto (st : GState) (stmt : FunctionStatement)
  | accept (stmt : FunctionStatement)

/-- One token at a position of the grammar: a key position takes `IDENT` or
`CLOSE_BRACE`, the position after a value takes `COMMA` or `CLOSE_BRACE`. -/
def GState.step (st : GState) (stmt : FunctionStatement) (t : Tok) : Step :=
  match st with
  | .function => if t.1 = FUNCTION then .goto .openBracket stmt else .reject
  | .openBracket => if t.1 = OPEN_BRACKET then .goto .template stmt else .reject
  | .template => if t.1 = TEMPLATE then .goto .comma { stmt with Template := t.2 } else .reject
  | .comma => if t.1 = COMMA then .goto .openBrace stmt else .reject
  | .openBrace => if t.1 = OPEN_BRACE then .goto .key stmt else .reject
  | .key =>
    if t.1 = CLOSE_BRACE then .goto .closeBracket stmt
    else if t.1 = IDENT then .goto (.colon t.2) stmt
    else .reject
  | .colon k => if t.1 = COLON then .goto (.value k) stmt else .reject
  | .value k =>
    if t.1 = TEMPLATE ∨ t.1 = NUM_VALUE then .goto .sep { stmt with Vars := stmt.Vars.set k t.2 }
    else .reject
  | .sep =>
    if t.1 = COMMA then .goto .key stmt
    else if t.1 = CLOSE_BRACE then .goto .closeBracket stmt
    else .reject
  | .closeBrace => if t.1 = CLOSE_BRACE then .goto .closeBracket stmt else .reject
  | .closeBracket => if t.1 = CLOSE_BRACKET then .accept stmt else .reject

/-- Walking a token list through the grammar: the first token that is not
allowed at its position is reported with the label of that position; the end of
the list stands for the `EOF` token, whose literal is empty. -/
def run : GState → FunctionStatement → List Tok → ParseResult
  | st, _, [] => (none, some ⟨[], st.label⟩)
  | st, stmt, t :: ts =>
    match st.step stmt t with
    | .reject => (none, some ⟨t.2, st.label⟩)
    | .goto st1 stmt1 => run st1 stmt1 ts
    | .accept stmt1 => (some stmt1, none)

/-- The grammar applied to a token list, from its first position. -/
def grammar (ts : List Tok) : ParseResult := run .function ⟨[], []⟩ ts

/-- The tokens of one pair, `IDENT COLON v`, with the literal of a `COMMA` after it. -/
structure PairToks where
  key : List Char
  colonLit : List Char
  vtok : Token
  vlit : List Char
  commaLit : List Char
  deriving DecidableEq, Repr

/-- The tokens `IDENT COLON v`. -/
def PairToks.toks (p : PairToks) : List Tok :=
  [(IDENT, p.key), (COLON, p.colonLit), (p.vtok, p.vlit)]

/-- The token list `(IDENT COLON v COMMA)* (IDENT COLON v)?`. -/
def pairsToks (ps : List PairToks) (last : Option PairToks) : List Tok :=
  (ps.flatMap fun p => p.toks ++ [(COMMA, p.commaLit)]) ++ (last.toList.flatMap PairToks.toks)

/-- The key/value pairs of a pair list, in order. -/
def pairsKVs (ps : List PairToks) (last : Option PairToks) : List (List Char × List Char) :=
  (ps ++ last.toList).map fun p => (p.key, p.vlit)

/-- A value of a pair in the text. -/
inductive Value
  | template (body : List Char)
  | number (digits : List Char)
  deriving DecidableEq, Repr

/-- The text of a value: quotes kept for a template, bare digits for a number. -/
def Value.text : Value → List Char
  | .template b => quoted b
  | .number d => d

/-- A pair in the text, with the blanks before the key, between key and colon,
between colon and value, and after the value. -/
structure Pair where
  pre : List Char
  key : List Char
  mid : List Char
  gap : List Char
  val : Value
  post : List Char
  deriving DecidableEq, Repr

/-- The text of a pair. -/
def Pair.text (p : Pair) : List Char :=
  p.pre ++ p.key ++ p.mid ++ [':'] ++ p.gap ++ p.val.text ++ p.post

/-- The text of a pair list: a comma after every pair, after the last one only
when `trailing` is set. -/
def pairsText (trailing : Bool) : List Pair → List Char
  | [] => []
  | p :: ps => p.text ++ (if ps.isEmpty && !trailing then [] else [',']) ++ pairsText trailing ps

/-- A value that the scanner reads back as written: a quoted content or a digit
run; a quoted value is directly followed by a comma. -/
def Value.WellFormed (trailing isLast : Bool) (post : List Char) : Value → Prop
  | .template b => IsContent b ∧ post = [] ∧ (isLast = true → trailing = true)
  | .number d => IsDigits d

instance (trailing isLast : Bool) (post : List Char) (v : Value) :
    Decidable (v.WellFormed trailing isLast post) := by
  cases v <;> (unfold Value.WellFormed; infer_instance)

/-- A pair that the scanner reads back as written: blanks where blanks are,
a key, a well-formed value; a one-letter key is directly followed by its colon. -/
def Pair.WellFormed (trailing : Bool) (isLast : Bool) (p : Pair) : Prop :=
  IsBlank p.pre ∧ IsKey p.key ∧ IsBlank p.mid ∧ (p.key.length = 1 → p.mid = []) ∧
  IsBlank p.gap ∧ IsBlank p.post ∧ p.val.WellFormed trailing isLast p.post

instance (trailing isLast : Bool) (p : Pair) : Decidable (p.WellFormed trailing isLast) := by
  unfold Pair.WellFormed; infer_instance

/-- Well-formedness of every pair of a list. -/
def pairsWellFormed (trailing : Bool) : List Pair → Prop
  | [] => True
  | p :: ps => p.WellFormed trailing ps.isEmpty ∧ pairsWellFormed trailing ps

/-- Deciding `pairsWellFormed`, pair by pair. -/
def pairsWellFormed.dec (trailing : Bool) :
    (ps : List Pair) → Decidable (pairsWellFormed trailing ps)
  | [] => isTrue trivial
  | p :: ps =>
    match (inferInstance : Decidable (p.WellFormed trailing ps.isEmpty)),
      pairsWellFormed.dec trailing ps with
    | isTrue h1, isTrue h2 => isTrue ⟨h1, h2⟩
    | isFalse h1, _ => isFalse (fun h => h1 h.1)
    | _, isFalse h2 => isFalse (fun h => h2 h.2)

instance (trailing : Bool) (ps : List Pair) : Decidable (pairsWellFormed trailing ps) :=
  pairsWellFormed.dec trailing ps

/-- A statement in the text. -/
structure Statement where
  w1 : List Char
  body : List Char
  w2 : List Char
  pairs : List Pair
  trailing : Bool
  w3 : List Char
  w4 : List Char
  deriving DecidableEq, Repr

/-- The text of a statement. -/
def Statement.text (x : Statement) : List Char :=
  ['f', '('] ++ x.w1 ++ quoted x.body ++ [','] ++ x.w2 ++ ['{'] ++
    pairsText x.trailing x.pairs ++ x.w3 ++ ['}'] ++ x.w4 ++ [')']

/-- The well-formed statements. -/
def Statement.WellFormed (x : Statement) : Prop :=
  IsBlank x.w1 ∧ IsContent x.body ∧ IsBlank x.w2 ∧ pairsWellFormed x.trailing x.pairs ∧
  IsBlank x.w3 ∧ IsBlank x.w4

instance (x : Statement) : Decidable x.WellFormed := by
  unfold Statement.WellFormed; infer_instance

/-- The key/value pairs that a statement declares. -/
def Statement.kvs (x : Statement) : List (List Char × List Char) :=
  x.pairs.map fun p => (p.key, p.val.text)

/-! ## Auxiliary definitions for the simulation of `Parse` by the grammar -/

/-- The tokens of a scanner state with the `WS` tokens dropped. -/
def Scanner.sig (s : Scanner) : List Tok := s.tokens.filter (fun t => t.1 ≠ WS)

/-- The tokens that a parser state still has to read: the token pushed back, if
any, and then the tokens of its scanner. -/
def Parser.stream (p : Parser) : List Tok :=
  if p.n = 0 then p.s.sig
  else if p.tok = EOF then []
  else (p.tok, p.lit) :: p.s.sig

/-- The parser states met on a NUL-free input: a token pushed back is not `WS`,
and if it is `EOF` the input is used up. -/
def Parser.Good (p : Parser) : Prop :=
  NulFree p.s.r ∧ (p.n ≠ 0 → p.tok ≠ WS ∧ (p.tok = EOF → p.lit = [] ∧ p.s.r = []))

/-- The walk of `run` after its first token. -/
def runStep (st : GState) (stmt : FunctionStatement) (t : Tok) (ts : List Tok) : ParseResult :=
  match st.step stmt t with
  | .reject => (none, some ⟨t.2, st.label⟩)
  | .goto st1 stmt1 => run st1 stmt1 ts
  | .accept stmt1 => (some stmt1, none)

/-- The result of one round of the loop in terms of the walk on the token stream. -/
def RoundSim (p : Parser) (stmt : FunctionStatement) : Round → Prop
  | .fail e => run .key stmt p.stream = (none, some e)
  | .brk p1 stmt1 => p1.Good ∧ run .key stmt p.stream = run .closeBrace stmt1 p1.stream
  | .next p1 stmt1 => p1.Good ∧ run .key stmt p.stream = run .key stmt1 p1.stream

/-- The result of the key/value loop in terms of the walk on the token stream. -/
def LoopSim (p : Parser) (stmt : FunctionStatement) : LoopExit → Prop
  | .fail e => run .key stmt p.stream = (none, some e)
  | .brk p1 stmt1 => p1.Good ∧ run .key stmt p.stream = run .closeBrace stmt1 p1.stream

/-- The end of `Parse`, after its loop: `CLOSE_BRACE`, then `CLOSE_BRACKET`. -/
def closeTail (p : Parser) (stmt : FunctionStatement) : ParseResult :=
  if (p.scanIgnoreWhitespace).1.1 ≠ CLOSE_BRACE then
    (none, some ⟨(p.scanIgnoreWhitespace).1.2, "CLOSE_BRACE"⟩)
  else if ((p.scanIgnoreWhitespace).2.scanIgnoreWhitespace).1.1 ≠ CLOSE_BRACKET then
    (none, some ⟨((p.scanIgnoreWhitespace).2.scanIgnoreWhitespace).1.2, "CLOSE_BRACKET"⟩)
  else (some stmt, none)

/-- The part of `Parse` from its loop on. -/
def loopTail (fuel : Nat) (p : Parser) (stmt : FunctionStatement) : Option ParseResult :=
  match pairLoop fuel p stmt with
  | none => none
  | some (.fail e) => some (none, some e)
  | some (.brk p1 stmt1) => some (closeTail p1 stmt1)

/-- Token lists in which a `TEMPLATE` literal is quoted unless it is the last
token, and a `NUM_VALUE` literal is a digit run. -/
def TokOK : List Tok → Prop
  | [] => True
  | t :: ts =>
    (t.1 = TEMPLATE → IsQuoted t.2 ∨ ts = []) ∧ (t.1 = NUM_VALUE → IsDigits t.2) ∧ TokOK ts

/-- The literals that `Parse` stores as values. -/
def IsValueLit (l : List Char) : Prop := IsDigits l ∨ IsQuoted l

/-- The token list
`FUNCTION OPEN_BRACKET TEMPLATE COMMA OPEN_BRACE (IDENT COLON v COMMA)* (IDENT COLON v)? CLOSE_BRACE CLOSE_BRACKET`
with the given literals. -/
def sentence (fl ol tl cl bl : List Char) (ps : List PairToks) (last : Option PairToks)
    (el gl : List Char) : List Tok :=
  [(FUNCTION, fl), (OPEN_BRACKET, ol), (TEMPLATE, tl), (COMMA, cl), (OPEN_BRACE, bl)] ++
    pairsToks ps last ++ [(CLOSE_BRACE, el), (CLOSE_BRACKET, gl)]

/-- Every value token of a pair list is a `TEMPLATE` or a `NUM_VALUE`. -/
def valuesOK (ps : List PairToks) (last : Option PairToks) : Prop :=
  ∀ p ∈ ps ++ last.toList, p.vtok = TEMPLATE ∨ p.vtok = NUM_VALUE

/-- The positions of the grammar after the template. -/
def GState.afterTemplate : GState → Bool
  | .function | .openBracket | .template => false
  | _ => true

/-- The statements built so far from a token list satisfying `TokOK`. -/
def StmtOK (st : GState) (stmt : FunctionStatement) : Prop :=
  (st.afterTemplate = true → IsQuoted stmt.Template) ∧ ∀ kv ∈ stmt.Vars, IsValueLit kv.2

/-- The text after a number does not start with a digit. -/
def NoDigitStart (r : List Char) : Prop := ∀ c r1, r = c :: r1 → isDigit c = false

/-- The token kind of a value in the text. -/
def Value.tok : Value → Token
  | .template _ => TEMPLATE
  | .number _ => NUM_VALUE

/-- The tokens of a pair list in the text. -/
def textToks (trailing : Bool) : List Pair → List Tok
  | [] => []
  | p :: ps =>
    [(IDENT, p.key), (COLON, [':']), (p.val.tok, p.val.text)] ++
      (if ps.isEmpty && !trailing then [] else [(COMMA, [','])]) ++ textToks trailing ps

/-- The position reached after a token list of which every token is allowed at
its position; `none` when one is not, or when the statement is already complete. -/
def reach : GState → FunctionStatement → List Tok → Option (GState × FunctionStatement)
  | st, stmt, [] => some (st, stmt)
  | st, stmt, t :: ts =>
    match st.step stmt t with
    | .goto st1 stmt1 => reach st1 stmt1 ts
    | _ => none

/-- The labels that an error of `Parse` can carry. -/
def errorLabels : List String :=
  ["FUNCTION", "OPEN_BRACKET", "TEMPLATE", "COMMA", "OPEN_BRACE", "key IDENT", "COLON",
    "LIT_VALUE", "CLOSE_BRACE", "CLOSE_BRACKET"]

/-- The text `k_1: d_1, ..., k_n: d_n` of pairs with numeric values. -/
def numberPairs : List (List Char × List Char) → List Char
  | [] => []
  | [p] => p.1 ++ ": ".toList ++ p.2
  | p :: q :: ps => p.1 ++ ": ".toList ++ p.2 ++ ", ".toList ++ numberPairs (q :: ps)

/-- The pair `k: d` as it stands in the text `f('x', \x7b k_1: d_1, ..., k_n: d_n \x7d);`. -/
def numberPair (p : List Char × List Char) : Pair :=
  ⟨[' '], p.1, [], [' '], .number p.2, []⟩

/-- The two shapes of a result of `Parse`. -/
def ResultShape (res : ParseResult) : Prop :=
  (∃ stmt, res = (some stmt, none)) ∨ (∃ e, res = (none, some e) ∧ e.expected ∈ errorLabels)

/-- The statement of `TestHelloWorld`, piece by piece. -/
def helloStatement : Statement :=
  { w1 := [], body := "hello \x7b\x7b .foo \x7d\x7d".toList, w2 := [' '],
    pairs := [⟨['\n', '\t', '\t'], "bar".toList, [], [' '], .template "foo".toList, []⟩],
    trailing := true, w3 := ['\n', '\t'], w4 := [] }

/-- A statement with a one-letter key, a key followed by blanks, and a numeric last value. -/
def sampleStatement : Statement :=
  { w1 := [' '], body := "x".toList, w2 := [' '],
    pairs := [⟨[' '], "a".toList, [], [' '], .template "one".toList, []⟩,
      ⟨['\n'], "b_2".toList, [' '], [], .number "42".toList, [' ']⟩],
    trailing := true, w3 := [' '], w4 := [' '] }

/-- A statement with single quotes inside its template and inside a value:
`f('it's', \x7ba: 'b'c', d: 12\x7d)`. -/
def quoteStatement : Statement :=
  { w1 := [], body := ['i', 't', quoteCh, 's'], w2 := [' '],
    pairs := [⟨[], "a".toList, [], [' '], .template ['b', quoteCh, 'c'], []⟩,
      ⟨[' '], "d".toList, [], [' '], .number "12".toList, []⟩],
    trailing := false, w3 := [], w4 := [] }

/-! ## Auxiliary definitions for the later statements -/

/-- The parser state with the text `t` added at the end of its input. -/
def Parser.ext (p : Parser) (t : List Char) : Parser :=
  ⟨⟨p.s.r ++ t, p.s.last⟩, p.tok, p.lit, p.n⟩

/-! ## `Parse` with a record of its calls of `scan` and `unscan` -/

/-- A call of `scan` or of `unscan`, with the count `buf.n` before and after it. -/
inductive Call
  | scan (before after : Nat)
  | unscan (before after : Nat)
  deriving DecidableEq, Repr

/-- The count `buf.n` when the call is made. -/
def Call.before : Call → Nat
  | .scan b _ => b
  | .unscan b _ => b

/-- The count `buf.n` when the call returns. -/
def Call.after : Call → Nat
  | .scan _ a => a
  | .unscan _ a => a

/-- Whether the call is a call of `unscan`. -/
def Call.isUnscan : Call → Bool
  | .scan _ _ => false
  | .unscan _ _ => true

/-- A parser together with the calls made on it so far, in order. -/
structure Traced where
  p : Parser
  log : List Call
  deriving DecidableEq, Repr

/-- Method `scan`, recorded. -/
def Traced.scan (x : Traced) : (Token × List Char) × Traced :=
  ((x.p.scan).1, ⟨(x.p.scan).2, x.log ++ [.scan x.p.n (x.p.scan).2.n]⟩)

/-- Method `scanIgnoreWhitespace`, with its calls of `scan` recorded. -/
def Traced.scanIgnoreWhitespace (x : Traced) : (Token × List Char) × Traced :=
  let (tl, x1) := x.scan
  if tl.1 = WS then x1.scan else (tl, x1)

/-- Method `unscan`, recorded. -/
def Traced.unscan (x : Traced) : Traced :=
  ⟨x.p.unscan, x.log ++ [.unscan x.p.n x.p.unscan.n]⟩

/-- How one round of the loop of the recorded `Parse` ends. -/
inductive TracedRound
  | fail (e : ParseError) (log : List Call)
  | brk (x : Traced) (stmt : FunctionStatement)
  | next (x : Traced) (stmt : FunctionStatement)
  deriving DecidableEq, Repr

/-- The body of the key/value `for` loop of `Parse`, recorded. -/
def tracedRound (x : Traced) (stmt : FunctionStatement) : TracedRound :=
  let ((next, nextLiteral), x1) := x.scanIgnoreWhitespace
  if next = CLOSE_BRACE then .brk x1.unscan stmt
  else if next ≠ IDENT then .fail ⟨nextLiteral, "key IDENT"⟩ x1.log
  else
    let identLiteral := nextLiteral
    let ((tok, lit), x2) := x1.scanIgnoreWhitespace
    if tok ≠ COLON then .fail ⟨lit, "COLON"⟩ x2.log
    else
      let ((valToken, valLiteral), x3) := x2.scanIgnoreWhitespace
      if valToken ≠ TEMPLATE ∧ valToken ≠ NUM_VALUE then .fail ⟨valLiteral, "LIT_VALUE"⟩ x3.log
      else
        let stmt1 : FunctionStatement := { stmt with Vars := stmt.Vars.set identLiteral valLiteral }
        let ((tok4, _), x4) := x3.scanIgnoreWhitespace
        if tok4 ≠ COMMA then .brk x4.unscan stmt1
        else .next x4 stmt1

/-- How the loop of the recorded `Parse` is left. -/
inductive TracedExit
  | fail (e : ParseError) (log : List Call)
  | brk (x : Traced) (stmt : FunctionStatement)
  deriving DecidableEq, Repr

/-- The key/value `for` loop of `Parse`, recorded; `none` when the fuel is used up. -/
def tracedLoop : Nat → Traced → FunctionStatement → Option TracedExit
  | 0, _, _ => none
  | fuel + 1, x, stmt =>
    match tracedRound x stmt with
    | .fail e log => some (.fail e log)
    | .brk x1 stmt1 => some (.brk x1 stmt1)
    | .next x1 stmt1 => tracedLoop fuel x1 stmt1

/-- The end of the recorded `Parse`, after its loop. -/
def tracedClose (x : Traced) (stmt : FunctionStatement) : ParseResult × List Call :=
  let ((tok, lit), x) := x.scanIgnoreWhitespace
  if tok ≠ CLOSE_BRACE then ((none, some ⟨lit, "CLOSE_BRACE"⟩), x.log)
  else
    let ((closeBracketToken, closeBracketLiteral), x) := x.scanIgnoreWhitespace
    if closeBracketToken ≠ CLOSE_BRACKET then
      ((none, some ⟨closeBracketLiteral, "CLOSE_BRACKET"⟩), x.log)
    else ((some stmt, none), x.log)

/-- Method `Parse`, recorded, with the given fuel for its loop: the result and
the calls of `scan` and `unscan` made until it returns. -/
def Traced.ParseFuel (fuel : Nat) (x : Traced) : Option (ParseResult × List Call) :=
  let stmt : FunctionStatement := ⟨[], []⟩
  let ((tok, lit), x) := x.scanIgnoreWhitespace
  if tok ≠ FUNCTION then some ((none, some ⟨lit, "FUNCTION"⟩), x.log)
  else
    let ((tok, lit), x) := x.scanIgnoreWhitespace
    if tok ≠ OPEN_BRACKET then some ((none, some ⟨lit, "OPEN_BRACKET"⟩), x.log)
    else
      let ((templateToken, templateLiteral), x) := x.scanIgnoreWhitespace
      if templateToken ≠ TEMPLATE then some ((none, some ⟨templateLiteral, "TEMPLATE"⟩), x.log)
      else
        let stmt : FunctionStatement := { stmt with Template := templateLiteral }
        let ((tok, lit), x) := x.scanIgnoreWhitespace
        if tok ≠ COMMA then some ((none, some ⟨lit, "COMMA"⟩), x.log)
        else
          let ((openBraceToken, openBraceLiteral), x) := x.scanIgnoreWhitespace
          if openBraceToken ≠ OPEN_BRACE then
            some ((none, some ⟨openBraceLiteral, "OPEN_BRACE"⟩), x.log)
          else
            match tracedLoop fuel x stmt with
            | none => none
            | some (.fail e log) => some ((none, some e), log)
            | some (.brk x stmt) => some (tracedClose x stmt)

/-- Method `Parse`, recorded, with the fuel of `Parse`. -/
def Traced.Parse (x : Traced) : Option (ParseResult × List Call) :=
  x.ParseFuel (x.p.s.r.length + 1)

/-- Parsing a text with a new parser, its calls of `scan` and `unscan` recorded. -/
def parseTextTraced (input : List Char) : Option (ParseResult × List Call) :=
  (Traced.mk (NewParser input) []).Parse

/-- The round of `pairRound` that a recorded round stands for. -/
def TracedRound.erase : TracedRound → Round
  | .fail e _ => .fail e
  | .brk x stmt => .brk x.p stmt
  | .next x stmt => .next x.p stmt

/-- The exit of `pairLoop` that a recorded exit stands for. -/
def TracedExit.erase : TracedExit → LoopExit
  | .fail e _ => .fail e
  | .brk x stmt => .brk x.p stmt

/-- The pushback discipline of a run, on the record of its calls: the count is 0
or 1 before and after every call; `unscan` is called at most once; a call of
`unscan` is made with the count 0, directly after a call of `scan`, and is
directly followed by a call of `scan`. -/
def Disciplined (log : List Call) : Prop :=
  (∀ c ∈ log, (c.before = 0 ∨ c.before = 1) ∧ (c.after = 0 ∨ c.after = 1)) ∧
  (log.filter Call.isUnscan).length ≤ 1 ∧
  (∀ a b m n, log = a ++ Call.unscan m n :: b →
    m = 0 ∧ (∃ a1 k j, a = a1 ++ [Call.scan k j]) ∧ (∃ k j b1, b = Call.scan k j :: b1))

/-- The records of a run of `Parse`: calls of `scan` with the count 0, or such
calls, one `unscan`, a `scan` that takes the token pushed back, and calls of
`scan` with the count 0. -/
def LogShape (log : List Call) : Prop :=
  (log ≠ [] ∧ ∀ c ∈ log, c = Call.scan 0 0) ∨
  (∃ a b, log = a ++ [Call.unscan 0 1, Call.scan 1 0] ++ b ∧ a ≠ [] ∧
    (∀ c ∈ a, c = Call.scan 0 0) ∧ ∀ c ∈ b, c = Call.scan 0 0)

/-- A recorded parser on which `unscan` has not been called: the count is 0 and
every call so far is a `scan` with the count 0. -/
def Traced.Fresh (x : Traced) : Prop :=
  x.p.n = 0 ∧ ∀ c ∈ x.log, c = Call.scan 0 0

/-- A recorded parser directly after its call of `unscan`. -/
def Traced.Pushed (x : Traced) : Prop :=
  x.p.n = 1 ∧ ∃ a, x.log = a ++ [Call.unscan 0 1] ∧ a ≠ [] ∧ ∀ c ∈ a, c = Call.scan 0 0

/-- A recorded parser after the `scan` that follows its call of `unscan`. -/
def Traced.Resumed (x : Traced) : Prop :=
  x.p.n = 0 ∧ ∃ a b, x.log = a ++ [Call.unscan 0 1, Call.scan 1 0] ++ b ∧ a ≠ [] ∧
    (∀ c ∈ a, c = Call.scan 0 0) ∧ ∀ c ∈ b, c = Call.scan 0 0

/-- What holds when a round of the recorded loop ends. -/
def TracedRound.Inv : TracedRound → Prop
  | .fail _ log => log ≠ [] ∧ ∀ c ∈ log, c = Call.scan 0 0
  | .brk x _ => x.Pushed
  | .next x _ => x.Fresh

/-- What holds when the recorded loop is left. -/
def TracedExit.Inv : TracedExit → Prop
  | .fail _ log => log ≠ [] ∧ ∀ c ∈ log, c = Call.scan 0 0
  | .brk x _ => x.Pushed

/-! ## Runes -/

theorem isWhitespace_iff (c : Char) :
    isWhitespace c = true ↔ c = ' ' ∨ c = '\t' ∨ c = '\n' := by
  simp [isWhitespace, or_assoc]

theorem eof_not_whitespace : isWhitespace eof = false := by decide
theorem eof_not_letter : isLetter eof = false := by decide
theorem eof_not_digit : isDigit eof = false := by decide
theorem eof_not_quote : isQuote eof = false := by decide

theorem whitespace_ne_eof {c : Char} (h : isWhitespace c = true) : c ≠ eof := by
  rintro rfl; simp [eof_not_whitespace] at h

theorem whitespace_not_letter {c : Char} (h : isWhitespace c = true) : isLetter c = false := by
  rcases (isWhitespace_iff c).1 h with rfl | rfl | rfl <;> decide

theorem letter_not_whitespace {c : Char} (h : isLetter c = true) : isWhitespace c = false := by
  cases hw : isWhitespace c
  · rfl
  · rw [whitespace_not_letter hw] at h; cases h

theorem letter_ne_eof {c : Char} (h : isLetter c = true) : c ≠ eof := by
  rintro rfl; simp [eof_not_letter] at h

theorem digit_ne_eof {c : Char} (h : isDigit c = true) : c ≠ eof := by
  rintro rfl; simp [eof_not_digit] at h

theorem digit_not_whitespace {c : Char} (h : isDigit c = true) : isWhitespace c = false := by
  cases hw : isWhitespace c
  · rfl
  · rcases (isWhitespace_iff c).1 hw with rfl | rfl | rfl <;> revert h <;> decide

theorem digit_not_letter {c : Char} (h : isDigit c = true) : isLetter c = false := by
  simp only [isDigit, isLetter, Bool.and_eq_true, decide_eq_true_eq, Bool.or_eq_false_iff,
    Bool.and_eq_false_imp] at *
  have h0 : '0'.toNat = 48 := by decide
  have h9 : '9'.toNat = 57 := by decide
  have ha : 'a'.toNat = 97 := by decide
  have hA : 'A'.toNat = 65 := by decide
  have hZ : 'Z'.toNat = 90 := by decide
  rw [h0, h9] at h
  rw [ha, hA, hZ]
  omega

theorem quote_not_whitespace : isWhitespace quoteCh = false := by decide
theorem quote_not_letter : isLetter quoteCh = false := by decide
theorem quote_not_digit : isDigit quoteCh = false := by decide

theorem isQuote_iff (c : Char) : isQuote c = true ↔ c = quoteCh := by
  simp [isQuote]

/-! ## The reader -/

@[simp] theorem read_nil (l : Option Char) : Scanner.read ⟨[], l⟩ = (eof, ⟨[], none⟩) := rfl

@[simp] theorem read_cons (c : Char) (r : List Char) (l : Option Char) :
    Scanner.read ⟨c :: r, l⟩ = (c, ⟨r, some c⟩) := rfl

@[simp] theorem unread_some (c : Char) (r : List Char) :
    Scanner.unread ⟨r, some c⟩ = ⟨c :: r, none⟩ := rfl

@[simp] theorem unread_none (r : List Char) : Scanner.unread ⟨r, none⟩ = ⟨r, none⟩ := rfl

@[simp] theorem peek_nil (l : Option Char) : Scanner.peek ⟨[], l⟩ = (eof, ⟨[], none⟩) := rfl

@[simp] theorem peek_cons (c : Char) (r : List Char) (l : Option Char) :
    Scanner.peek ⟨c :: r, l⟩ = (firstByte c, ⟨c :: r, none⟩) := rfl

/-- The scan does not depend on what could be unread before it. -/
theorem Scan_last (r : List Char) (l : Option Char) :
    Scanner.Scan ⟨r, l⟩ = Scanner.Scan ⟨r, none⟩ := by
  cases r <;> rfl

theorem Scan_nil (l : Option Char) : Scanner.Scan ⟨[], l⟩ = (EOF, [], ⟨[], none⟩) := rfl

/-! ## The loops leave a final part of their input -/

theorem scanWhitespaceLoop_rest (r buf : List Char) :
    ∃ pre, r = pre ++ (scanWhitespaceLoop r buf).2.r := by
  induction r generalizing buf with
  | nil => exact ⟨[], rfl⟩
  | cons c r ih =>
    unfold scanWhitespaceLoop
    split
    · exact ⟨[c], rfl⟩
    · split
      · exact ⟨[], rfl⟩
      · obtain ⟨pre, h⟩ := ih (buf ++ [c])
        exact ⟨c :: pre, by rw [List.cons_append, ← h]⟩

theorem scanIdentLoop_rest (r buf : List Char) :
    ∃ pre, r = pre ++ (scanIdentLoop r buf).2.r := by
  induction r generalizing buf with
  | nil => exact ⟨[], rfl⟩
  | cons c r ih =>
    unfold scanIdentLoop
    split
    · exact ⟨[c], rfl⟩
    · split
      · exact ⟨[], rfl⟩
      · obtain ⟨pre, h⟩ := ih (buf ++ [c])
        exact ⟨c :: pre, by rw [List.cons_append, ← h]⟩

theorem scanNumberLoop_rest (r buf : List Char) :
    ∃ pre, r = pre ++ (scanNumberLoop r buf).2.r := by
  induction r generalizing buf with
  | nil => exact ⟨[], rfl⟩
  | cons c r ih =>
    unfold scanNumberLoop
    split
    · exact ⟨[c], rfl⟩
    · split
      · exact ⟨[], rfl⟩
      · obtain ⟨pre, h⟩ := ih (buf ++ [c])
        exact ⟨c :: pre, by rw [List.cons_append, ← h]⟩

theorem scanTemplateLoop_cons (c : Char) (r buf : List Char) :
    scanTemplateLoop (c :: r) buf =
      if c == eof then (buf, ⟨r, some c⟩)
      else if isQuote c then
        if (Scanner.peek ⟨r, some c⟩).1 != ',' then scanTemplateLoop r (buf ++ [c])
        else (buf ++ [c], (Scanner.peek ⟨r, some c⟩).2)
      else scanTemplateLoop r (buf ++ [c]) := rfl

theorem peek_rest (r : List Char) (l : Option Char) : (Scanner.peek ⟨r, l⟩).2.r = r := by
  cases r <;> rfl

theorem scanTemplateLoop_rest (r buf : List Char) :
    ∃ pre, r = pre ++ (scanTemplateLoop r buf).2.r := by
  induction r generalizing buf with
  | nil => exact ⟨[], rfl⟩
  | cons c r ih =>
    rw [scanTemplateLoop_cons]
    obtain ⟨pre, h⟩ := ih (buf ++ [c])
    split
    · exact ⟨[c], rfl⟩
    · split
      · split
        · exact ⟨c :: pre, by rw [List.cons_append, ← h]⟩
        · exact ⟨[c], by simp [peek_rest]⟩
      · exact ⟨c :: pre, by rw [List.cons_append, ← h]⟩

/-! ## One call of `Scan` -/

theorem peek_eq (r : List Char) (l : Option Char) :
    Scanner.peek ⟨r, l⟩ = (peekRune r, ⟨r, none⟩) := by
  cases r <;> rfl

theorem scanIdent_eq (r : List Char) :
    Scanner.scanIdent ⟨r, none⟩ = (IDENT, (identTail r).1, (identTail r).2) := by
  cases r <;> rfl

theorem Scan_cons (c : Char) (r : List Char) (l : Option Char) :
    Scanner.Scan ⟨c :: r, l⟩ =
      if isWhitespace c then (WS, (scanWhitespaceLoop r [c]).1, (scanWhitespaceLoop r [c]).2)
      else if isLetter c then
        if isOpenBracket (peekRune r) then (FUNCTION, [c], ⟨r, none⟩)
        else if isColon (peekRune r) then (IDENT, [c], ⟨r, none⟩)
        else (IDENT, [c] ++ (identTail r).1, (identTail r).2)
      else if isDigit c then (NUM_VALUE, (scanNumberLoop r [c]).1, (scanNumberLoop r [c]).2)
      else if isQuote c then (TEMPLATE, (scanTemplateLoop r [c]).1, (scanTemplateLoop r [c]).2)
      else if c == eof then (EOF, [], ⟨r, some c⟩)
      else if c == '(' then (OPEN_BRACKET, [c], ⟨r, some c⟩)
      else if c == ')' then (CLOSE_BRACKET, [c], ⟨r, some c⟩)
      else if c == '{' then (OPEN_BRACE, [c], ⟨r, some c⟩)
      else if c == '}' then (CLOSE_BRACE, [c], ⟨r, some c⟩)
      else if c == quoteCh then (QUOTE, [c], ⟨r, some c⟩)
      else if c == ':' then (COLON, [c], ⟨r, some c⟩)
      else if c == ',' then (COMMA, [c], ⟨r, some c⟩)
      else if c == ';' then (SEMICOLON, [c], ⟨r, some c⟩)
      else (ILLEGAL, [c], ⟨r, some c⟩) := by
  unfold Scanner.Scan
  simp only [read_cons, unread_some, peek_eq, unread_none, scanIdent_eq]
  by_cases hw : isWhitespace c = true
  · simp only [hw, if_true]; rfl
  · simp only [hw]
    by_cases hl : isLetter c = true
    · simp only [hl, if_true]; rfl
    · simp only [hl]
      by_cases hd : isDigit c = true
      · simp only [hd, if_true]; rfl
      · simp only [hd]
        by_cases hq : isQuote c = true
        · simp only [hq, if_true]
          have : c = quoteCh := (isQuote_iff c).1 hq
          subst this
          rfl
        · simp only [hq]; rfl

theorem identTail_rest (r : List Char) : ∃ pre, r = pre ++ (identTail r).2.r := by
  cases r with
  | nil => exact ⟨[], rfl⟩
  | cons d r =>
    obtain ⟨pre, h⟩ := scanIdentLoop_rest r [d]
    exact ⟨d :: pre, by rw [List.cons_append]; exact congrArg _ h⟩

/-- Case analysis on one call of `Scan` on a non-empty input. -/
theorem Scan_cons_elim (P : Token × List Char × Scanner → Prop) (c : Char) (r : List Char)
    (l : Option Char)
    (hws : isWhitespace c = true →
      P (WS, (scanWhitespaceLoop r [c]).1, (scanWhitespaceLoop r [c]).2))
    (hfun : isLetter c = true → isOpenBracket (peekRune r) = true →
      P (FUNCTION, [c], ⟨r, none⟩))
    (hone : isLetter c = true → isOpenBracket (peekRune r) = false →
      isColon (peekRune r) = true → P (IDENT, [c], ⟨r, none⟩))
    (hid : isLetter c = true → isOpenBracket (peekRune r) = false →
      isColon (peekRune r) = false → P (IDENT, [c] ++ (identTail r).1, (identTail r).2))
    (hnum : isDigit c = true → P (NUM_VALUE, (scanNumberLoop r [c]).1, (scanNumberLoop r [c]).2))
    (htpl : c = quoteCh → P (TEMPLATE, (scanTemplateLoop r [c]).1, (scanTemplateLoop r [c]).2))
    (heof : c = eof → P (EOF, [], ⟨r, some c⟩))
    (hpun : ∀ t, (t ≠ WS ∧ t ≠ EOF ∧ t ≠ IDENT ∧ t ≠ FUNCTION ∧ t ≠ NUM_VALUE ∧ t ≠ TEMPLATE) →
      c ≠ eof → isWhitespace c = false → P (t, [c], ⟨r, some c⟩)) :
    P (Scanner.Scan ⟨c :: r, l⟩) := by
  rw [Scan_cons]
  by_cases hw : isWhitespace c = true
  · rw [if_pos hw]; exact hws hw
  rw [if_neg hw]
  by_cases hl : isLetter c = true
  · rw [if_pos hl]
    by_cases h1 : isOpenBracket (peekRune r) = true
    · rw [if_pos h1]; exact hfun hl h1
    rw [if_neg h1]
    by_cases h2 : isColon (peekRune r) = true
    · rw [if_pos h2]; exact hone hl (by simpa using h1) h2
    rw [if_neg h2]; exact hid hl (by simpa using h1) (by simpa using h2)
  rw [if_neg hl]
  by_cases hd : isDigit c = true
  · rw [if_pos hd]; exact hnum hd
  rw [if_neg hd]
  by_cases hq : isQuote c = true
  · rw [if_pos hq]; exact htpl ((isQuote_iff c).1 hq)
  rw [if_neg hq]
  by_cases he : (c == eof) = true
  · rw [if_pos he]; exact heof (by simpa using he)
  rw [if_neg he]
  have hce : c ≠ eof := by simpa using he
  have hwf : isWhitespace c = false := by simpa using hw
  split_ifs <;> exact hpun _ (by simp) hce hwf

/-- A call of `Scan` leaves a final part of the pending input, and a proper one
unless it returns `EOF`. -/
theorem Scan_rest (s : Scanner) :
    ∃ pre, s.r = pre ++ (s.Scan).2.2.r ∧ ((s.Scan).1 ≠ EOF → pre ≠ []) := by
  obtain ⟨r, l⟩ := s
  cases r with
  | nil => exact ⟨[], rfl, fun h => absurd rfl h⟩
  | cons c r =>
    apply Scan_cons_elim (fun x => ∃ pre, c :: r = pre ++ x.2.2.r ∧ (x.1 ≠ EOF → pre ≠ []))
    · intro _
      obtain ⟨pre, h⟩ := scanWhitespaceLoop_rest r [c]
      exact ⟨c :: pre, by rw [List.cons_append]; exact congrArg _ h, fun _ => by simp⟩
    · intro _ _; exact ⟨[c], rfl, fun _ => by simp⟩
    · intro _ _ _; exact ⟨[c], rfl, fun _ => by simp⟩
    · intro _ _ _
      obtain ⟨pre, h⟩ := identTail_rest r
      exact ⟨c :: pre, by rw [List.cons_append]; exact congrArg _ h, fun _ => by simp⟩
    · intro _
      obtain ⟨pre, h⟩ := scanNumberLoop_rest r [c]
      exact ⟨c :: pre, by rw [List.cons_append]; exact congrArg _ h, fun _ => by simp⟩
    · intro _
      obtain ⟨pre, h⟩ := scanTemplateLoop_rest r [c]
      exact ⟨c :: pre, by rw [List.cons_append]; exact congrArg _ h, fun _ => by simp⟩
    · intro _; exact ⟨[c], rfl, fun _ => by simp⟩
    · intro t _ _ _; exact ⟨[c], rfl, fun _ => by simp⟩

theorem Scan_length_le (s : Scanner) : (s.Scan).2.2.r.length ≤ s.r.length := by
  obtain ⟨pre, h, _⟩ := Scan_rest s
  have := congrArg List.length h
  simp only [List.length_append] at this
  omega

theorem Scan_length_lt (s : Scanner) (h : (s.Scan).1 ≠ EOF) :
    (s.Scan).2.2.r.length < s.r.length := by
  obtain ⟨pre, h1, h2⟩ := Scan_rest s
  have hp : 0 < pre.length := List.length_pos.2 (h2 h)
  have := congrArg List.length h1
  simp only [List.length_append] at this
  omega

/-- A scan that does not start on a blank does not return `WS`. -/
theorem Scan_ne_WS (c : Char) (r : List Char) (l : Option Char) (h : isWhitespace c = false) :
    (Scanner.Scan ⟨c :: r, l⟩).1 ≠ WS := by
  apply Scan_cons_elim (fun x => x.1 ≠ WS)
  · intro hw; rw [h] at hw; cases hw
  · intro _ _; simp
  · intro _ _ _; simp
  · intro _ _ _; simp
  · intro _; simp
  · intro _; simp
  · intro _; simp
  · intro t ht _ _; exact ht.1

/-! ## The token list -/

theorem tokensFuel_stable (n m : Nat) (s : Scanner) (hn : s.r.length < n) (hm : s.r.length < m) :
    tokensFuel n s = tokensFuel m s := by
  induction n generalizing m s with
  | zero => omega
  | succ n ih =>
    cases m with
    | zero => omega
    | succ m =>
      simp only [tokensFuel]
      by_cases h : (s.Scan).1 = EOF
      · simp [h]
      · simp only [h, if_false]
        have := Scan_length_lt s h
        rw [ih m (s.Scan).2.2 (by omega) (by omega)]

theorem tokens_unfold (s : Scanner) :
    s.tokens =
      if (s.Scan).1 = EOF then [] else ((s.Scan).1, (s.Scan).2.1) :: (s.Scan).2.2.tokens := by
  show tokensFuel (s.r.length + 1) s =
    if (s.Scan).1 = EOF then []
    else ((s.Scan).1, (s.Scan).2.1) :: tokensFuel ((s.Scan).2.2.r.length + 1) (s.Scan).2.2
  rw [tokensFuel]
  by_cases h : (s.Scan).1 = EOF
  · simp [h]
  · simp only [h, if_false]
    have := Scan_length_lt s h
    exact congrArg _ (tokensFuel_stable _ _ _ this (Nat.lt_succ_self _))

theorem tokens_nil (l : Option Char) : Scanner.tokens ⟨[], l⟩ = [] := rfl

theorem tokens_length_le (s : Scanner) : s.tokens.length ≤ s.r.length := by
  suffices h : ∀ n (s : Scanner), s.r.length = n → s.tokens.length ≤ n from h _ s rfl
  intro n
  induction n using Nat.strong_induction_on with
  | _ n ih =>
    intro s hs
    rw [tokens_unfold]
    by_cases he : (s.Scan).1 = EOF
    · simp [he]
    · simp only [he, if_false, List.length_cons]
      have hlt := Scan_length_lt s he
      have := ih _ (by rw [← hs]; exact hlt) (s.Scan).2.2 rfl
      omega

/-! ## Scanning a NUL-free input -/

theorem NulFree.of_append {pre r : List Char} (h : NulFree (pre ++ r)) : NulFree r :=
  fun c hc => h c (List.mem_append_right _ hc)

theorem NulFree.tail {c : Char} {r : List Char} (h : NulFree (c :: r)) : NulFree r :=
  fun x hx => h x (List.mem_cons_of_mem _ hx)

theorem NulFree.head {c : Char} {r : List Char} (h : NulFree (c :: r)) : c ≠ eof :=
  h c (List.mem_cons_self _ _)

theorem Scan_nulFree (s : Scanner) (h : NulFree s.r) : NulFree (s.Scan).2.2.r := by
  obtain ⟨pre, h1, _⟩ := Scan_rest s
  rw [h1] at h
  exact h.of_append

theorem beq_eof_false {c : Char} (h : c ≠ eof) : (c == eof) = false := by
  simpa using h

/-- After the blanks of a `WS` token comes no blank. -/
theorem scanWhitespaceLoop_next (r buf : List Char) (h : NulFree r) :
    ∀ c r1, (scanWhitespaceLoop r buf).2.r = c :: r1 → isWhitespace c = false := by
  induction r generalizing buf with
  | nil => intro c r1 hc; cases hc
  | cons d r ih =>
    unfold scanWhitespaceLoop
    rw [beq_eof_false h.head]
    by_cases hw : isWhitespace d = true
    · simp only [hw, Bool.not_true]
      exact ih _ h.tail
    · simp only [hw]
      intro c r1 hc
      simp only [Bool.false_eq_true, if_false, Bool.not_false, if_true, unread_some,
        List.cons.injEq] at hc
      rw [← hc.1]; simpa using hw

/-- A template scan either stops at a quote or uses up the input. -/
theorem scanTemplateLoop_quoted (r buf : List Char) (h : NulFree r) :
    (∃ mid, (scanTemplateLoop r buf).1 = buf ++ mid ++ [quoteCh]) ∨
      (scanTemplateLoop r buf).2.r = [] := by
  induction r generalizing buf with
  | nil => exact Or.inr rfl
  | cons d r ih =>
    rw [scanTemplateLoop_cons, beq_eof_false h.head]
    simp only [Bool.false_eq_true, if_false]
    have step : (∃ mid, (scanTemplateLoop r (buf ++ [d])).1 = buf ++ mid ++ [quoteCh]) ∨
        (scanTemplateLoop r (buf ++ [d])).2.r = [] := by
      rcases ih (buf ++ [d]) h.tail with ⟨mid, hm⟩ | he
      · exact Or.inl ⟨d :: mid, by rw [hm]; simp⟩
      · exact Or.inr he
    by_cases hq : isQuote d = true
    · simp only [hq, if_true]
      split
      · exact step
      · refine Or.inl ⟨[], ?_⟩
        rw [(isQuote_iff d).1 hq]; simp
    · simp only [hq]
      exact step

/-- A number scan collects digits. -/
theorem scanNumberLoop_digits (r buf : List Char) :
    ∃ mid, (scanNumberLoop r buf).1 = buf ++ mid ∧ ∀ c ∈ mid, isDigit c = true := by
  induction r generalizing buf with
  | nil => exact ⟨[], by simp [scanNumberLoop], by simp⟩
  | cons d r ih =>
    unfold scanNumberLoop
    split
    · exact ⟨[], by simp, by simp⟩
    · split
      · exact ⟨[], by simp, by simp⟩
      · rename_i _ hd
        obtain ⟨mid, h1, h2⟩ := ih (buf ++ [d])
        refine ⟨d :: mid, by rw [h1]; simp, ?_⟩
        intro c hc
        rcases List.mem_cons.1 hc with rfl | hc
        · simpa using hd
        · exact h2 c hc

theorem isQuoted_wrap (mid : List Char) : IsQuoted ([quoteCh] ++ mid ++ [quoteCh]) := by
  refine ⟨by simp, by simp, ?_⟩
  rw [List.getLast?_append]
  simp

/-- What one call of `Scan` returns on a NUL-free input. -/
theorem Scan_facts (s : Scanner) (h : NulFree s.r) :
    ((s.Scan).1 = EOF → s.r = []) ∧
    ((s.Scan).1 = WS → ∀ c r1, (s.Scan).2.2.r = c :: r1 → isWhitespace c = false) ∧
    ((s.Scan).1 = TEMPLATE → IsQuoted (s.Scan).2.1 ∨ (s.Scan).2.2.r = []) ∧
    ((s.Scan).1 = NUM_VALUE → IsDigits (s.Scan).2.1) := by
  obtain ⟨r, l⟩ := s
  cases r with
  | nil => rw [Scan_nil]; simp
  | cons c r =>
    have hr : NulFree r := h.tail
    apply Scan_cons_elim (fun x => (x.1 = EOF → c :: r = []) ∧
      (x.1 = WS → ∀ c r1, x.2.2.r = c :: r1 → isWhitespace c = false) ∧
      (x.1 = TEMPLATE → IsQuoted x.2.1 ∨ x.2.2.r = []) ∧ (x.1 = NUM_VALUE → IsDigits x.2.1))
    · intro _
      refine ⟨by simp, fun _ => scanWhitespaceLoop_next r [c] hr, by simp, by simp⟩
    · intro _ _; simp
    · intro _ _ _; simp
    · intro _ _ _; simp
    · intro hd
      refine ⟨by simp, by simp, by simp, fun _ => ?_⟩
      obtain ⟨mid, h1, h2⟩ := scanNumberLoop_digits r [c]
      refine ⟨by simp only [h1]; simp, ?_⟩
      simp only [h1]
      intro x hx
      rcases List.mem_append.1 hx with hx | hx
      · rw [List.mem_singleton.1 hx]; exact hd
      · exact h2 x hx
    · intro hq
      refine ⟨by simp, by simp, fun _ => ?_, by simp⟩
      rcases scanTemplateLoop_quoted r [c] hr with ⟨mid, hm⟩ | he
      · left
        subst hq
        show IsQuoted (scanTemplateLoop r [quoteCh]).1
        rw [hm]
        exact isQuoted_wrap mid
      · exact Or.inr he
    · intro he; exact absurd he h.head
    · intro t ht _ _
      exact ⟨fun e => absurd e ht.2.1, fun e => absurd e ht.1, fun e => absurd e ht.2.2.2.2.2,
        fun e => absurd e ht.2.2.2.2.1⟩

/-! ## The parser reads the token list -/

theorem scan_zero (p : Parser) (h : p.n = 0) :
    p.scan = (((p.s.Scan).1, (p.s.Scan).2.1),
      ⟨(p.s.Scan).2.2, (p.s.Scan).1, (p.s.Scan).2.1, p.n⟩) := by
  unfold Parser.scan
  simp [h]

theorem scan_pushed (p : Parser) (h : p.n ≠ 0) :
    p.scan = ((p.tok, p.lit), ⟨p.s, p.tok, p.lit, 0⟩) := by
  unfold Parser.scan
  simp [h]

theorem scanIgnoreWhitespace_eq (p : Parser) :
    p.scanIgnoreWhitespace = if p.scan.1.1 = WS then p.scan.2.scan else p.scan := rfl

theorem sig_unfold (s : Scanner) :
    s.sig = if (s.Scan).1 = EOF then []
      else if (s.Scan).1 = WS then (s.Scan).2.2.sig
      else ((s.Scan).1, (s.Scan).2.1) :: (s.Scan).2.2.sig := by
  unfold Scanner.sig
  rw [tokens_unfold]
  by_cases h : (s.Scan).1 = EOF
  · simp [h]
  · by_cases hw : (s.Scan).1 = WS
    · simp [h, hw]
    · simp [h, hw]

theorem sig_nil (l : Option Char) : Scanner.sig ⟨[], l⟩ = [] := rfl

theorem sig_of_nil (s : Scanner) (h : s.r = []) : s.sig = [] := by
  obtain ⟨r, l⟩ := s
  simp only at h
  subst h
  rfl

theorem Scan_of_nil (s : Scanner) (h : s.r = []) : s.Scan = (EOF, [], ⟨[], none⟩) := by
  obtain ⟨r, l⟩ := s
  simp only at h
  subst h
  rfl

/-- After a `WS` token of a NUL-free input the scanner returns no `WS` token. -/
theorem Scan_after_WS (s : Scanner) (h : NulFree s.r) (hw : (s.Scan).1 = WS) :
    ((s.Scan).2.2.Scan).1 ≠ WS := by
  have hf := (Scan_facts s h).2.1 hw
  generalize (s.Scan).2.2 = s1 at hf
  obtain ⟨r1, l1⟩ := s1
  cases r1 with
  | nil => rw [Scan_nil]; simp
  | cons c r1 => exact Scan_ne_WS c r1 l1 (hf c r1 rfl)

/-- The step of the parser on the token stream, for the states met on a NUL-free input. -/
theorem scanIW_good (p : Parser) (h : p.Good) :
    (p.scanIgnoreWhitespace).2.Good ∧ (p.scanIgnoreWhitespace).2.n = 0 ∧
    (p.scanIgnoreWhitespace).2.tok = (p.scanIgnoreWhitespace).1.1 ∧
    (p.scanIgnoreWhitespace).2.lit = (p.scanIgnoreWhitespace).1.2 ∧
    (p.scanIgnoreWhitespace).1.1 ≠ WS ∧
    (((p.scanIgnoreWhitespace).1.1 = EOF ∧ (p.scanIgnoreWhitespace).1.2 = [] ∧
        (p.scanIgnoreWhitespace).2.s.r = [] ∧ p.stream = []) ∨
      ((p.scanIgnoreWhitespace).1.1 ≠ EOF ∧
        p.stream = (p.scanIgnoreWhitespace).1 :: (p.scanIgnoreWhitespace).2.s.sig)) := by
  obtain ⟨hnf, hb⟩ := h
  by_cases hn : p.n = 0
  · -- nothing pushed back
    have hs := scan_zero p hn
    by_cases hw : (p.s.Scan).1 = WS
    · have hnf1 := Scan_nulFree p.s hnf
      have h2 := Scan_after_WS p.s hnf hw
      have hx : p.scanIgnoreWhitespace =
          ((((p.s.Scan).2.2.Scan).1, ((p.s.Scan).2.2.Scan).2.1),
            ⟨((p.s.Scan).2.2.Scan).2.2, ((p.s.Scan).2.2.Scan).1,
              ((p.s.Scan).2.2.Scan).2.1, p.n⟩) := by
        rw [scanIgnoreWhitespace_eq, hs]
        simp only [hw, if_true]
        exact scan_zero ⟨(p.s.Scan).2.2, WS, (p.s.Scan).2.1, p.n⟩ hn
      rw [hx]
      have hstream : p.stream = (p.s.Scan).2.2.sig := by
        unfold Parser.stream
        rw [if_pos hn, sig_unfold, hw]
        simp
      refine ⟨⟨Scan_nulFree _ hnf1, fun h0 => absurd hn h0⟩, hn, rfl, rfl, h2, ?_⟩
      by_cases he : ((p.s.Scan).2.2.Scan).1 = EOF
      · left
        have hr := (Scan_facts _ hnf1).1 he
        have hsc := Scan_of_nil _ hr
        refine ⟨he, by rw [hsc], by rw [hsc], ?_⟩
        rw [hstream, sig_of_nil _ hr]
      · right
        refine ⟨he, ?_⟩
        rw [hstream, sig_unfold (p.s.Scan).2.2, if_neg he, if_neg h2]
    · have hx : p.scanIgnoreWhitespace =
          (((p.s.Scan).1, (p.s.Scan).2.1), ⟨(p.s.Scan).2.2, (p.s.Scan).1, (p.s.Scan).2.1, p.n⟩) := by
        rw [scanIgnoreWhitespace_eq, hs]
        simp only [hw, if_false]
      rw [hx]
      have hstream : p.stream = p.s.sig := by
        unfold Parser.stream
        rw [if_pos hn]
      refine ⟨⟨Scan_nulFree _ hnf, fun h0 => absurd hn h0⟩, hn, rfl, rfl, hw, ?_⟩
      by_cases he : (p.s.Scan).1 = EOF
      · left
        have hr := (Scan_facts _ hnf).1 he
        have hsc := Scan_of_nil _ hr
        refine ⟨he, by rw [hsc], by rw [hsc], ?_⟩
        rw [hstream, sig_of_nil _ hr]
      · right
        refine ⟨he, ?_⟩
        rw [hstream, sig_unfold p.s, if_neg he, if_neg hw]
  · -- a token was pushed back
    obtain ⟨hws, heof⟩ := hb hn
    have hx : p.scanIgnoreWhitespace = ((p.tok, p.lit), ⟨p.s, p.tok, p.lit, 0⟩) := by
      rw [scanIgnoreWhitespace_eq, scan_pushed p hn]
      simp only [hws, if_false]
    rw [hx]
    refine ⟨⟨hnf, fun h0 => absurd rfl h0⟩, rfl, rfl, rfl, hws, ?_⟩
    by_cases he : p.tok = EOF
    · left
      refine ⟨he, (heof he).1, (heof he).2, ?_⟩
      unfold Parser.stream
      rw [if_neg hn, if_pos he]
    · right
      refine ⟨he, ?_⟩
      unfold Parser.stream
      rw [if_neg hn, if_neg he]

theorem step_EOF (st : GState) (stmt : FunctionStatement) (l : List Char) :
    st.step stmt (EOF, l) = .reject := by
  cases st <;> simp [GState.step]

theorem run_cons (st : GState) (stmt : FunctionStatement) (t : Tok) (ts : List Tok) :
    run st stmt (t :: ts) = runStep st stmt t ts := rfl

theorem stream_zero (p : Parser) (h : p.n = 0) : p.stream = p.s.sig := by
  unfold Parser.stream
  rw [if_pos h]

/-- Reading the next token is one step of the walk on the token stream. -/
theorem run_scanIW (p : Parser) (h : p.Good) (st : GState) (stmt : FunctionStatement) :
    run st stmt p.stream =
      runStep st stmt (p.scanIgnoreWhitespace).1 (p.scanIgnoreWhitespace).2.stream := by
  obtain ⟨_, hn, _, _, _, hc⟩ := scanIW_good p h
  rw [stream_zero _ hn]
  rcases hc with ⟨he, hl, _, hs⟩ | ⟨_, hs⟩
  · rw [hs]
    have : (p.scanIgnoreWhitespace).1 = (EOF, []) := Prod.ext he hl
    rw [this]
    simp [run, runStep, step_EOF]
  · rw [hs, run_cons]

/-- Pushing the token back restores the token stream. -/
theorem unscan_scanIW (p : Parser) (h : p.Good) :
    (p.scanIgnoreWhitespace).2.unscan.Good ∧
      (p.scanIgnoreWhitespace).2.unscan.stream = p.stream := by
  obtain ⟨hg, hn, ht, hl, hw, hc⟩ := scanIW_good p h
  refine ⟨⟨hg.1, fun _ => ⟨by show (p.scanIgnoreWhitespace).2.tok ≠ WS; rw [ht]; exact hw, ?_⟩⟩, ?_⟩
  · show (p.scanIgnoreWhitespace).2.tok = EOF →
      (p.scanIgnoreWhitespace).2.lit = [] ∧ (p.scanIgnoreWhitespace).2.s.r = []
    rw [ht, hl]
    intro he
    rcases hc with ⟨_, h1, h2, _⟩ | ⟨h1, _⟩
    · exact ⟨h1, h2⟩
    · exact absurd he h1
  · show (if (1 : Nat) = 0 then (p.scanIgnoreWhitespace).2.s.sig
      else if (p.scanIgnoreWhitespace).2.tok = EOF then []
      else ((p.scanIgnoreWhitespace).2.tok, (p.scanIgnoreWhitespace).2.lit) ::
        (p.scanIgnoreWhitespace).2.s.sig) = p.stream
    rw [ht, hl]
    rcases hc with ⟨h1, _, _, h4⟩ | ⟨h1, h2⟩
    · simp [h1, h4]
    · simp [h1, h2]

theorem pairLoop_fail (fuel : Nat) (p : Parser) (stmt : FunctionStatement) (e : ParseError)
    (h : pairRound p stmt = .fail e) : pairLoop (fuel + 1) p stmt = some (.fail e) := by
  rw [pairLoop, h]

theorem pairLoop_brk (fuel : Nat) (p : Parser) (stmt : FunctionStatement) (p1 : Parser)
    (stmt1 : FunctionStatement) (h : pairRound p stmt = .brk p1 stmt1) :
    pairLoop (fuel + 1) p stmt = some (.brk p1 stmt1) := by
  rw [pairLoop, h]

theorem pairLoop_next (fuel : Nat) (p : Parser) (stmt : FunctionStatement) (p1 : Parser)
    (stmt1 : FunctionStatement) (h : pairRound p stmt = .next p1 stmt1) :
    pairLoop (fuel + 1) p stmt = pairLoop fuel p1 stmt1 := by
  rw [pairLoop, h]

theorem runStep_key_close (stmt : FunctionStatement) (l : List Char) (ts : List Tok) :
    runStep .key stmt (CLOSE_BRACE, l) ts = run .closeBracket stmt ts := rfl

theorem runStep_closeBrace_close (stmt : FunctionStatement) (l : List Char) (ts : List Tok) :
    runStep .closeBrace stmt (CLOSE_BRACE, l) ts = run .closeBracket stmt ts := rfl

theorem runStep_key_ident (stmt : FunctionStatement) (l : List Char) (ts : List Tok) :
    runStep .key stmt (IDENT, l) ts = run (.colon l) stmt ts := rfl

theorem runStep_key_other (stmt : FunctionStatement) (t : Token) (l : List Char) (ts : List Tok)
    (h1 : t ≠ CLOSE_BRACE) (h2 : t ≠ IDENT) :
    runStep .key stmt (t, l) ts = (none, some ⟨l, "key IDENT"⟩) := by
  simp [runStep, GState.step, h1, h2, GState.label]

theorem runStep_colon (stmt : FunctionStatement) (k l : List Char) (ts : List Tok) :
    runStep (.colon k) stmt (COLON, l) ts = run (.value k) stmt ts := rfl

theorem runStep_colon_other (stmt : FunctionStatement) (t : Token) (k l : List Char)
    (ts : List Tok) (h : t ≠ COLON) :
    runStep (.colon k) stmt (t, l) ts = (none, some ⟨l, "COLON"⟩) := by
  simp [runStep, GState.step, h, GState.label]

theorem runStep_value (stmt : FunctionStatement) (t : Token) (k l : List Char) (ts : List Tok)
    (h : t = TEMPLATE ∨ t = NUM_VALUE) :
    runStep (.value k) stmt (t, l) ts = run .sep ⟨stmt.Template, VarMap.set stmt.Vars k l⟩ ts := by
  simp [runStep, GState.step, h]

theorem runStep_value_other (stmt : FunctionStatement) (t : Token) (k l : List Char)
    (ts : List Tok) (h : t ≠ TEMPLATE ∧ t ≠ NUM_VALUE) :
    runStep (.value k) stmt (t, l) ts = (none, some ⟨l, "LIT_VALUE"⟩) := by
  simp [runStep, GState.step, h.1, h.2, GState.label]

theorem runStep_sep_comma (stmt : FunctionStatement) (l : List Char) (ts : List Tok) :
    runStep .sep stmt (COMMA, l) ts = run .key stmt ts := rfl

theorem runStep_sep_other (stmt : FunctionStatement) (t : Token) (l : List Char) (ts : List Tok)
    (h : t ≠ COMMA) :
    runStep .sep stmt (t, l) ts = runStep .closeBrace stmt (t, l) ts := by
  simp [runStep, GState.step, h, GState.label]

theorem pairRound_sim (p : Parser) (stmt : FunctionStatement) (h : p.Good) :
    RoundSim p stmt (pairRound p stmt) := by
  unfold pairRound
  have g1 := scanIW_good p h
  have r1 := run_scanIW p h
  have u1 := unscan_scanIW p h
  generalize p.scanIgnoreWhitespace = x1 at g1 r1 u1
  obtain ⟨⟨t1, l1⟩, p1⟩ := x1
  dsimp only at g1 r1 u1 ⊢
  by_cases c1 : t1 = CLOSE_BRACE
  · rw [if_pos c1]
    subst c1
    refine ⟨u1.1, ?_⟩
    rw [u1.2, r1, r1, runStep_key_close, runStep_closeBrace_close]
  rw [if_neg c1]
  by_cases c2 : t1 = IDENT
  swap
  · rw [if_pos c2]
    show run .key stmt p.stream = _
    rw [r1, runStep_key_other _ _ _ _ c1 c2]
  rw [if_neg (not_not.2 c2)]
  subst c2
  have g2 := scanIW_good p1 g1.1
  have r2 := run_scanIW p1 g1.1
  generalize p1.scanIgnoreWhitespace = x2 at g2 r2
  obtain ⟨⟨t2, l2⟩, p2⟩ := x2
  dsimp only at g2 r2 ⊢
  by_cases c3 : t2 = COLON
  swap
  · rw [if_pos c3]
    show run .key stmt p.stream = _
    rw [r1, runStep_key_ident, r2, runStep_colon_other _ _ _ _ _ c3]
  rw [if_neg (not_not.2 c3)]
  subst c3
  have g3 := scanIW_good p2 g2.1
  have r3 := run_scanIW p2 g2.1
  generalize p2.scanIgnoreWhitespace = x3 at g3 r3
  obtain ⟨⟨t3, l3⟩, p3⟩ := x3
  dsimp only at g3 r3 ⊢
  have key : run .key stmt p.stream = runStep (.value l1) stmt (t3, l3) p3.stream := by
    rw [r1, runStep_key_ident, r2, runStep_colon, r3]
  by_cases c4 : t3 ≠ TEMPLATE ∧ t3 ≠ NUM_VALUE
  · rw [if_pos c4]
    show run .key stmt p.stream = _
    rw [key, runStep_value_other _ _ _ _ _ c4]
  rw [if_neg c4]
  have c4' : t3 = TEMPLATE ∨ t3 = NUM_VALUE := by
    by_contra hcon
    exact c4 ⟨fun e => hcon (Or.inl e), fun e => hcon (Or.inr e)⟩
  have g4 := scanIW_good p3 g3.1
  have r4 := run_scanIW p3 g3.1
  have u4 := unscan_scanIW p3 g3.1
  generalize p3.scanIgnoreWhitespace = x4 at g4 r4 u4
  obtain ⟨⟨t4, l4⟩, p4⟩ := x4
  dsimp only at g4 r4 u4 ⊢
  have key2 : run .key stmt p.stream =
      run .sep ⟨stmt.Template, VarMap.set stmt.Vars l1 l3⟩ p3.stream := by
    rw [key, runStep_value _ _ _ _ _ c4']
  by_cases c5 : t4 = COMMA
  swap
  · rw [if_pos c5]
    refine ⟨u4.1, ?_⟩
    rw [key2, u4.2, r4, r4, runStep_sep_other _ _ _ _ c5]
  rw [if_neg (not_not.2 c5)]
  subst c5
  refine ⟨g4.1, ?_⟩
  rw [key2, r4, runStep_sep_comma]

theorem pairLoop_sim (fuel : Nat) (p : Parser) (stmt : FunctionStatement) (res : LoopExit)
    (h : p.Good) (hres : pairLoop fuel p stmt = some res) : LoopSim p stmt res := by
  induction fuel generalizing p stmt with
  | zero => cases hres
  | succ fuel ih =>
    have hr := pairRound_sim p stmt h
    cases hrd : pairRound p stmt with
    | fail e =>
      rw [pairLoop_fail _ _ _ _ hrd] at hres
      rw [hrd] at hr
      cases hres
      exact hr
    | brk p1 stmt1 =>
      rw [pairLoop_brk _ _ _ _ _ hrd] at hres
      rw [hrd] at hr
      cases hres
      exact hr
    | next p1 stmt1 =>
      rw [pairLoop_next _ _ _ _ _ hrd] at hres
      rw [hrd] at hr
      have := ih p1 stmt1 hr.1 hres
      cases res with
      | fail e => exact hr.2.trans this
      | brk q s => exact ⟨this.1, hr.2.trans this.2⟩

theorem ParseFuel_eq (fuel : Nat) (p : Parser) :
    p.ParseFuel fuel =
      if (p.scanIgnoreWhitespace).1.1 ≠ FUNCTION then
        some (none, some ⟨(p.scanIgnoreWhitespace).1.2, "FUNCTION"⟩)
      else if ((p.scanIgnoreWhitespace).2.scanIgnoreWhitespace).1.1 ≠ OPEN_BRACKET then
        some (none, some ⟨((p.scanIgnoreWhitespace).2.scanIgnoreWhitespace).1.2, "OPEN_BRACKET"⟩)
      else if (((p.scanIgnoreWhitespace).2.scanIgnoreWhitespace).2.scanIgnoreWhitespace).1.1
          ≠ TEMPLATE then
        some (none, some
          ⟨(((p.scanIgnoreWhitespace).2.scanIgnoreWhitespace).2.scanIgnoreWhitespace).1.2,
            "TEMPLATE"⟩)
      else if ((((p.scanIgnoreWhitespace).2.scanIgnoreWhitespace).2.scanIgnoreWhitespace).2.scanIgnoreWhitespace).1.1
          ≠ COMMA then
        some (none, some
          ⟨((((p.scanIgnoreWhitespace).2.scanIgnoreWhitespace).2.scanIgnoreWhitespace).2.scanIgnoreWhitespace).1.2,
            "COMMA"⟩)
      else if (((((p.scanIgnoreWhitespace).2.scanIgnoreWhitespace).2.scanIgnoreWhitespace).2.scanIgnoreWhitespace).2.scanIgnoreWhitespace).1.1
          ≠ OPEN_BRACE then
        some (none, some
          ⟨(((((p.scanIgnoreWhitespace).2.scanIgnoreWhitespace).2.scanIgnoreWhitespace).2.scanIgnoreWhitespace).2.scanIgnoreWhitespace).1.2,
            "OPEN_BRACE"⟩)
      else loopTail fuel
        (((((p.scanIgnoreWhitespace).2.scanIgnoreWhitespace).2.scanIgnoreWhitespace).2.scanIgnoreWhitespace).2.scanIgnoreWhitespace).2
        ⟨(((p.scanIgnoreWhitespace).2.scanIgnoreWhitespace).2.scanIgnoreWhitespace).1.2, []⟩ := by
  unfold Parser.ParseFuel loopTail closeTail
  generalize p.scanIgnoreWhitespace = x1
  obtain ⟨⟨t1, l1⟩, p1⟩ := x1
  dsimp only
  generalize p1.scanIgnoreWhitespace = x2
  obtain ⟨⟨t2, l2⟩, p2⟩ := x2
  dsimp only
  generalize p2.scanIgnoreWhitespace = x3
  obtain ⟨⟨t3, l3⟩, p3⟩ := x3
  dsimp only
  generalize p3.scanIgnoreWhitespace = x4
  obtain ⟨⟨t4, l4⟩, p4⟩ := x4
  dsimp only
  generalize p4.scanIgnoreWhitespace = x5
  obtain ⟨⟨t5, l5⟩, p5⟩ := x5
  dsimp only
  generalize pairLoop fuel p5 _ = r
  rcases r with _ | (e | ⟨q, s⟩)
  · rfl
  · rfl
  · dsimp only
    generalize q.scanIgnoreWhitespace = x6
    obtain ⟨⟨t6, l6⟩, p6⟩ := x6
    dsimp only
    generalize p6.scanIgnoreWhitespace = x7
    obtain ⟨⟨t7, l7⟩, p7⟩ := x7
    dsimp only
    split_ifs <;> rfl

/-! ## `Parse` walks the token list through the grammar -/

theorem runStep_function (stmt : FunctionStatement) (t : Token) (l : List Char) (ts : List Tok) :
    runStep .function stmt (t, l) ts =
      if t ≠ FUNCTION then (none, some ⟨l, "FUNCTION"⟩) else run .openBracket stmt ts := by
  unfold runStep
  by_cases h : t = FUNCTION <;> simp [h, GState.step, GState.label]

theorem runStep_openBracket (stmt : FunctionStatement) (t : Token) (l : List Char)
    (ts : List Tok) :
    runStep .openBracket stmt (t, l) ts =
      if t ≠ OPEN_BRACKET then (none, some ⟨l, "OPEN_BRACKET"⟩) else run .template stmt ts := by
  unfold runStep
  by_cases h : t = OPEN_BRACKET <;> simp [h, GState.step, GState.label]

theorem runStep_template (stmt : FunctionStatement) (t : Token) (l : List Char) (ts : List Tok) :
    runStep .template stmt (t, l) ts =
      if t ≠ TEMPLATE then (none, some ⟨l, "TEMPLATE"⟩)
      else run .comma ⟨l, stmt.Vars⟩ ts := by
  unfold runStep
  by_cases h : t = TEMPLATE <;> simp [h, GState.step, GState.label]

theorem runStep_comma (stmt : FunctionStatement) (t : Token) (l : List Char) (ts : List Tok) :
    runStep .comma stmt (t, l) ts =
      if t ≠ COMMA then (none, some ⟨l, "COMMA"⟩) else run .openBrace stmt ts := by
  unfold runStep
  by_cases h : t = COMMA <;> simp [h, GState.step, GState.label]

theorem runStep_openBrace (stmt : FunctionStatement) (t : Token) (l : List Char) (ts : List Tok) :
    runStep .openBrace stmt (t, l) ts =
      if t ≠ OPEN_BRACE then (none, some ⟨l, "OPEN_BRACE"⟩) else run .key stmt ts := by
  unfold runStep
  by_cases h : t = OPEN_BRACE <;> simp [h, GState.step, GState.label]

theorem runStep_closeBrace (stmt : FunctionStatement) (t : Token) (l : List Char) (ts : List Tok) :
    runStep .closeBrace stmt (t, l) ts =
      if t ≠ CLOSE_BRACE then (none, some ⟨l, "CLOSE_BRACE"⟩) else run .closeBracket stmt ts := by
  unfold runStep
  by_cases h : t = CLOSE_BRACE <;> simp [h, GState.step, GState.label]

theorem runStep_closeBracket (stmt : FunctionStatement) (t : Token) (l : List Char)
    (ts : List Tok) :
    runStep .closeBracket stmt (t, l) ts =
      if t ≠ CLOSE_BRACKET then (none, some ⟨l, "CLOSE_BRACKET"⟩) else (some stmt, none) := by
  unfold runStep
  by_cases h : t = CLOSE_BRACKET <;> simp [h, GState.step, GState.label]

theorem closeTail_sim (p : Parser) (stmt : FunctionStatement) (h : p.Good) :
    closeTail p stmt = run .closeBrace stmt p.stream := by
  unfold closeTail
  have g1 := scanIW_good p h
  rw [run_scanIW p h]
  generalize p.scanIgnoreWhitespace = x1 at g1
  obtain ⟨⟨t1, l1⟩, p1⟩ := x1
  dsimp only at g1 ⊢
  rw [runStep_closeBrace, run_scanIW p1 g1.1]
  generalize p1.scanIgnoreWhitespace = x2
  obtain ⟨⟨t2, l2⟩, p2⟩ := x2
  dsimp only
  rw [runStep_closeBracket]

theorem loopTail_sim (fuel : Nat) (p : Parser) (stmt : FunctionStatement) (h : p.Good)
    (res : ParseResult) (hres : loopTail fuel p stmt = some res) :
    res = run .key stmt p.stream := by
  unfold loopTail at hres
  have hs := pairLoop_sim fuel p stmt
  generalize pairLoop fuel p stmt = r at hres hs
  rcases r with _ | (e | ⟨q, s⟩)
  · cases hres
  · cases hres
    exact (hs _ h rfl).symm
  · cases hres
    obtain ⟨hg, he⟩ := hs _ h rfl
    rw [he, closeTail_sim q s hg]

theorem ParseFuel_sim (fuel : Nat) (p : Parser) (h : p.Good) (res : ParseResult)
    (hres : p.ParseFuel fuel = some res) : res = run .function ⟨[], []⟩ p.stream := by
  rw [ParseFuel_eq] at hres
  have g1 := scanIW_good p h
  rw [run_scanIW p h]
  generalize p.scanIgnoreWhitespace = x1 at g1 hres
  obtain ⟨⟨t1, l1⟩, p1⟩ := x1
  dsimp only at g1 hres ⊢
  rw [runStep_function]
  by_cases c1 : t1 ≠ FUNCTION
  · rw [if_pos c1] at hres ⊢
    cases hres; rfl
  rw [if_neg c1] at hres ⊢
  have g2 := scanIW_good p1 g1.1
  rw [run_scanIW p1 g1.1]
  generalize p1.scanIgnoreWhitespace = x2 at g2 hres
  obtain ⟨⟨t2, l2⟩, p2⟩ := x2
  dsimp only at g2 hres ⊢
  rw [runStep_openBracket]
  by_cases c2 : t2 ≠ OPEN_BRACKET
  · rw [if_pos c2] at hres ⊢
    cases hres; rfl
  rw [if_neg c2] at hres ⊢
  have g3 := scanIW_good p2 g2.1
  rw [run_scanIW p2 g2.1]
  generalize p2.scanIgnoreWhitespace = x3 at g3 hres
  obtain ⟨⟨t3, l3⟩, p3⟩ := x3
  dsimp only at g3 hres ⊢
  rw [runStep_template]
  by_cases c3 : t3 ≠ TEMPLATE
  · rw [if_pos c3] at hres ⊢
    cases hres; rfl
  rw [if_neg c3] at hres ⊢
  have g4 := scanIW_good p3 g3.1
  rw [run_scanIW p3 g3.1]
  generalize p3.scanIgnoreWhitespace = x4 at g4 hres
  obtain ⟨⟨t4, l4⟩, p4⟩ := x4
  dsimp only at g4 hres ⊢
  rw [runStep_comma]
  by_cases c4 : t4 ≠ COMMA
  · rw [if_pos c4] at hres ⊢
    cases hres; rfl
  rw [if_neg c4] at hres ⊢
  have g5 := scanIW_good p4 g4.1
  rw [run_scanIW p4 g4.1]
  generalize p4.scanIgnoreWhitespace = x5 at g5 hres
  obtain ⟨⟨t5, l5⟩, p5⟩ := x5
  dsimp only at g5 hres ⊢
  rw [runStep_openBrace]
  by_cases c5 : t5 ≠ OPEN_BRACE
  · rw [if_pos c5] at hres ⊢
    cases hres; rfl
  rw [if_neg c5] at hres ⊢
  exact loopTail_sim fuel p5 _ g5.1 res hres

/-! ## `Parse` returns -/

theorem scan_n (p : Parser) : (p.scan).2.n = 0 := by
  by_cases h : p.n = 0
  · rw [scan_zero p h]; exact h
  · rw [scan_pushed p h]

theorem scan_length_le (p : Parser) : (p.scan).2.s.r.length ≤ p.s.r.length := by
  by_cases h : p.n = 0
  · rw [scan_zero p h]; exact Scan_length_le p.s
  · rw [scan_pushed p h]

theorem scan_length_lt (p : Parser) (h : p.n = 0) (he : (p.scan).1.1 ≠ EOF) :
    (p.scan).2.s.r.length < p.s.r.length := by
  rw [scan_zero p h] at he ⊢
  exact Scan_length_lt p.s he

theorem scanIW_n (p : Parser) : (p.scanIgnoreWhitespace).2.n = 0 := by
  rw [scanIgnoreWhitespace_eq]
  split
  · exact scan_n _
  · exact scan_n _

theorem scanIW_length_le (p : Parser) :
    (p.scanIgnoreWhitespace).2.s.r.length ≤ p.s.r.length := by
  rw [scanIgnoreWhitespace_eq]
  split
  · exact le_trans (scan_length_le _) (scan_length_le _)
  · exact scan_length_le _

theorem scanIW_length_lt (p : Parser) (h : p.n = 0) (he : (p.scanIgnoreWhitespace).1.1 ≠ EOF) :
    (p.scanIgnoreWhitespace).2.s.r.length < p.s.r.length := by
  rw [scanIgnoreWhitespace_eq] at he ⊢
  by_cases hw : (p.scan).1.1 = WS
  · rw [if_pos hw] at he ⊢
    exact lt_of_lt_of_le (scan_length_lt _ (scan_n _) he) (scan_length_le _)
  · rw [if_neg hw] at he ⊢
    exact scan_length_lt _ h he

/-- A round that goes on has read at least one rune. -/
theorem pairRound_next (p : Parser) (stmt : FunctionStatement) (p1 : Parser)
    (stmt1 : FunctionStatement) (h : pairRound p stmt = .next p1 stmt1) (hn : p.n = 0) :
    p1.n = 0 ∧ p1.s.r.length < p.s.r.length := by
  unfold pairRound at h
  have a1 := scanIW_length_lt p hn
  have n1 := scanIW_n p
  generalize p.scanIgnoreWhitespace = x1 at h a1 n1
  obtain ⟨⟨t1, l1⟩, q1⟩ := x1
  dsimp only at h a1 n1
  have a2 := scanIW_length_le q1
  generalize q1.scanIgnoreWhitespace = x2 at h a2
  obtain ⟨⟨t2, l2⟩, q2⟩ := x2
  dsimp only at h a2
  have a3 := scanIW_length_le q2
  generalize q2.scanIgnoreWhitespace = x3 at h a3
  obtain ⟨⟨t3, l3⟩, q3⟩ := x3
  dsimp only at h a3
  have a4 := scanIW_length_le q3
  have n4 := scanIW_n q3
  generalize q3.scanIgnoreWhitespace = x4 at h a4 n4
  obtain ⟨⟨t4, l4⟩, q4⟩ := x4
  dsimp only at h a4 n4
  split_ifs at h with c1 c2 c3 c4 c5
  cases h
  have : t1 = IDENT := not_not.1 c2
  subst this
  have := a1 (by simp)
  exact ⟨n4, by omega⟩

theorem pairLoop_total (fuel : Nat) (p : Parser) (stmt : FunctionStatement) (hn : p.n = 0)
    (hf : p.s.r.length < fuel) : ∃ res, pairLoop fuel p stmt = some res := by
  induction fuel generalizing p stmt with
  | zero => omega
  | succ fuel ih =>
    cases hrd : pairRound p stmt with
    | fail e => exact ⟨_, pairLoop_fail _ _ _ _ hrd⟩
    | brk p1 stmt1 => exact ⟨_, pairLoop_brk _ _ _ _ _ hrd⟩
    | next p1 stmt1 =>
      rw [pairLoop_next _ _ _ _ _ hrd]
      obtain ⟨h1, h2⟩ := pairRound_next p stmt p1 stmt1 hrd hn
      exact ih p1 stmt1 h1 (by omega)

theorem loopTail_total (fuel : Nat) (p : Parser) (stmt : FunctionStatement) (hn : p.n = 0)
    (hf : p.s.r.length < fuel) : ∃ res, loopTail fuel p stmt = some res := by
  unfold loopTail
  obtain ⟨r, hr⟩ := pairLoop_total fuel p stmt hn hf
  rw [hr]
  cases r with
  | fail e => exact ⟨_, rfl⟩
  | brk p1 stmt1 => exact ⟨_, rfl⟩

theorem ParseFuel_total (fuel : Nat) (p : Parser) (hf : p.s.r.length < fuel) :
    ∃ res, p.ParseFuel fuel = some res := by
  rw [ParseFuel_eq]
  have a1 := scanIW_length_le p
  generalize p.scanIgnoreWhitespace = x1 at a1
  obtain ⟨⟨t1, l1⟩, p1⟩ := x1
  have a2 := scanIW_length_le p1
  generalize p1.scanIgnoreWhitespace = x2 at a2
  obtain ⟨⟨t2, l2⟩, p2⟩ := x2
  have a3 := scanIW_length_le p2
  generalize p2.scanIgnoreWhitespace = x3 at a3
  obtain ⟨⟨t3, l3⟩, p3⟩ := x3
  have a4 := scanIW_length_le p3
  generalize p3.scanIgnoreWhitespace = x4 at a4
  obtain ⟨⟨t4, l4⟩, p4⟩ := x4
  have a5 := scanIW_length_le p4
  have n5 := scanIW_n p4
  generalize p4.scanIgnoreWhitespace = x5 at a5 n5
  obtain ⟨⟨t5, l5⟩, p5⟩ := x5
  dsimp only at a1 a2 a3 a4 a5 n5 ⊢
  split_ifs
  · exact ⟨_, rfl⟩
  · exact ⟨_, rfl⟩
  · exact ⟨_, rfl⟩
  · exact ⟨_, rfl⟩
  · exact ⟨_, rfl⟩
  · exact loopTail_total fuel p5 _ n5 (by omega)

/-- `Parse` returns on every text: its loop never uses up the fuel. -/
theorem Parse_total (input : List Char) : ∃ res, parseText input = some res := by
  unfold parseText Parser.Parse
  exact ParseFuel_total _ _ (Nat.lt_succ_self _)

theorem NewParser_good (input : List Char) (h : NulFree input) : (NewParser input).Good :=
  ⟨h, fun h0 => absurd rfl h0⟩

theorem stream_new (input : List Char) : (NewParser input).stream = sigTokens input := by
  unfold Parser.stream sigTokens tokens Scanner.sig
  dsimp only [NewParser]
  rw [if_pos rfl]

/-- On a NUL-free text `Parse` returns what the grammar yields on the tokens of
the text, `WS` tokens dropped. -/
theorem parseText_grammar (input : List Char) (h : NulFree input) :
    parseText input = some (grammar (sigTokens input)) := by
  obtain ⟨res, hres⟩ := Parse_total input
  rw [hres]
  unfold parseText Parser.Parse at hres
  have := ParseFuel_sim _ (NewParser input) (NewParser_good input h) res hres
  rw [stream_new] at this
  rw [this, grammar]

/-! ## The grammar accepts the sentences -/

theorem run_nil (st : GState) (stmt : FunctionStatement) :
    run st stmt [] = (none, some ⟨[], st.label⟩) := by
  cases st <;> rfl

theorem setAll_cons (m : VarMap) (kv : List Char × List Char) (kvs : List (List Char × List Char)) :
    VarMap.setAll m (kv :: kvs) = VarMap.setAll (m.set kv.1 kv.2) kvs := rfl

theorem setAll_nil (m : VarMap) : VarMap.setAll m [] = m := rfl

theorem pairsToks_cons (p : PairToks) (ps : List PairToks) (last : Option PairToks) :
    pairsToks (p :: ps) last =
      (IDENT, p.key) :: (COLON, p.colonLit) :: (p.vtok, p.vlit) :: (COMMA, p.commaLit) ::
        pairsToks ps last := by
  simp [pairsToks, PairToks.toks]

theorem pairsToks_nil_none : pairsToks [] none = [] := rfl

theorem pairsToks_nil_some (p : PairToks) :
    pairsToks [] (some p) = [(IDENT, p.key), (COLON, p.colonLit), (p.vtok, p.vlit)] := by
  simp [pairsToks, PairToks.toks]

theorem pairsKVs_cons (p : PairToks) (ps : List PairToks) (last : Option PairToks) :
    pairsKVs (p :: ps) last = (p.key, p.vlit) :: pairsKVs ps last := rfl

theorem run_closing (stmt : FunctionStatement) (el gl : List Char) (rest : List Tok) :
    run .key stmt ((CLOSE_BRACE, el) :: (CLOSE_BRACKET, gl) :: rest) = (some stmt, none) := rfl

/-- The pair list of a sentence, followed by the closing tokens, is accepted. -/
theorem run_key_pairs (ps : List PairToks) (last : Option PairToks) (stmt : FunctionStatement)
    (el gl : List Char) (rest : List Tok) (hv : valuesOK ps last) :
    run .key stmt (pairsToks ps last ++ [(CLOSE_BRACE, el), (CLOSE_BRACKET, gl)] ++ rest) =
      (some ⟨stmt.Template, VarMap.setAll stmt.Vars (pairsKVs ps last)⟩, none) := by
  induction ps generalizing stmt with
  | nil =>
    cases last with
    | none => rfl
    | some p =>
      have hp : p.vtok = TEMPLATE ∨ p.vtok = NUM_VALUE := hv p (by simp)
      rw [pairsToks_nil_some]
      simp only [List.cons_append, List.nil_append, run_cons, runStep_key_ident, runStep_colon,
        runStep_value _ _ _ _ _ hp]
      rfl
  | cons p ps ih =>
    have hp : p.vtok = TEMPLATE ∨ p.vtok = NUM_VALUE := hv p (by simp)
    rw [pairsToks_cons, pairsKVs_cons, setAll_cons]
    simp only [List.cons_append, run_cons, runStep_key_ident, runStep_colon,
      runStep_value _ _ _ _ _ hp, runStep_sep_comma]
    exact ih _ (fun q hq => hv q (by
      rcases List.mem_append.1 hq with h | h
      · exact List.mem_append_left _ (List.mem_cons_of_mem _ h)
      · exact List.mem_append_right _ h))

/-- A sentence, followed by any tokens, is accepted. -/
theorem grammar_sentence (fl ol tl cl bl : List Char) (ps : List PairToks)
    (last : Option PairToks) (el gl : List Char) (rest : List Tok) (hv : valuesOK ps last) :
    grammar (sentence fl ol tl cl bl ps last el gl ++ rest) =
      (some ⟨tl, VarMap.setAll [] (pairsKVs ps last)⟩, none) := by
  unfold grammar sentence
  simp only [List.cons_append, List.nil_append, List.append_assoc, run_cons, runStep_function,
    runStep_openBracket, runStep_template, runStep_comma, runStep_openBrace, ne_eq,
    not_true_eq_false, if_false]
  have := run_key_pairs ps last ⟨tl, []⟩ el gl rest hv
  simpa only [List.cons_append, List.nil_append, List.append_assoc] using this

/-! ## What the grammar accepts is a sentence -/

theorem run_closeBracket_inv (stmt res : FunctionStatement) (ts : List Tok)
    (h : run .closeBracket stmt ts = (some res, none)) :
    ∃ gl rest, ts = (CLOSE_BRACKET, gl) :: rest ∧ res = stmt := by
  cases ts with
  | nil => rw [run_nil] at h; cases h
  | cons t ts =>
    obtain ⟨t, l⟩ := t
    rw [run_cons, runStep_closeBracket] at h
    by_cases c : t = CLOSE_BRACKET
    · subst c
      simp only [ne_eq, not_true_eq_false, if_false, Prod.mk.injEq, Option.some.injEq,
        and_true] at h
      exact ⟨l, ts, rfl, h.symm⟩
    · rw [if_pos c] at h; cases h

theorem run_key_inv (n : Nat) (ts : List Tok) (hn : ts.length ≤ n) (stmt res : FunctionStatement)
    (h : run .key stmt ts = (some res, none)) :
    ∃ ps last el gl rest, valuesOK ps last ∧
      ts = pairsToks ps last ++ [(CLOSE_BRACE, el), (CLOSE_BRACKET, gl)] ++ rest ∧
      res = ⟨stmt.Template, VarMap.setAll stmt.Vars (pairsKVs ps last)⟩ := by
  induction n generalizing ts stmt with
  | zero =>
    have : ts = [] := List.length_eq_zero.1 (Nat.le_zero.1 hn)
    subst this
    rw [run_nil] at h; cases h
  | succ n ih =>
    cases ts with
    | nil => rw [run_nil] at h; cases h
    | cons t1 ts1 =>
      obtain ⟨t1, l1⟩ := t1
      rw [run_cons] at h
      by_cases c1 : t1 = CLOSE_BRACE
      · subst c1
        rw [runStep_key_close] at h
        obtain ⟨gl, rest, h1, h2⟩ := run_closeBracket_inv _ _ _ h
        subst h1 h2
        exact ⟨[], none, l1, gl, rest, by intro p hp; simp at hp, rfl, rfl⟩
      by_cases c2 : t1 = IDENT
      swap
      · rw [runStep_key_other _ _ _ _ c1 c2] at h; cases h
      subst c2
      rw [runStep_key_ident] at h
      cases ts1 with
      | nil => rw [run_nil] at h; cases h
      | cons t2 ts2 =>
        obtain ⟨t2, l2⟩ := t2
        rw [run_cons] at h
        by_cases c3 : t2 = COLON
        swap
        · rw [runStep_colon_other _ _ _ _ _ c3] at h; cases h
        subst c3
        rw [runStep_colon] at h
        cases ts2 with
        | nil => rw [run_nil] at h; cases h
        | cons t3 ts3 =>
          obtain ⟨t3, l3⟩ := t3
          rw [run_cons] at h
          by_cases c4 : t3 = TEMPLATE ∨ t3 = NUM_VALUE
          swap
          · rw [runStep_value_other _ _ _ _ _ ⟨fun e => c4 (Or.inl e), fun e => c4 (Or.inr e)⟩] at h
            cases h
          rw [runStep_value _ _ _ _ _ c4] at h
          cases ts3 with
          | nil => rw [run_nil] at h; cases h
          | cons t4 ts4 =>
            obtain ⟨t4, l4⟩ := t4
            rw [run_cons] at h
            by_cases c5 : t4 = COMMA
            · subst c5
              rw [runStep_sep_comma] at h
              have hlen : ts4.length ≤ n := by
                simp only [List.length_cons] at hn; omega
              obtain ⟨ps, last, el, gl, rest, hv, hts, hres⟩ := ih ts4 hlen _ h
              refine ⟨⟨l1, l2, t3, l3, l4⟩ :: ps, last, el, gl, rest, ?_, ?_, ?_⟩
              · intro p hp
                rcases List.mem_append.1 hp with hp | hp
                · rcases List.mem_cons.1 hp with rfl | hp
                  · exact c4
                  · exact hv p (List.mem_append_left _ hp)
                · exact hv p (List.mem_append_right _ hp)
              · rw [pairsToks_cons, hts]; rfl
              · rw [hres]; rfl
            · rw [runStep_sep_other _ _ _ _ c5, runStep_closeBrace] at h
              by_cases c6 : t4 = CLOSE_BRACE
              swap
              · rw [if_pos c6] at h; cases h
              subst c6
              simp only [ne_eq, not_true_eq_false, if_false] at h
              obtain ⟨gl, rest, h1, h2⟩ := run_closeBracket_inv _ _ _ h
              subst h1 h2
              refine ⟨[], some ⟨l1, l2, t3, l3, []⟩, l4, gl, rest, ?_, ?_, rfl⟩
              · intro p hp
                simp only [List.nil_append, Option.toList, List.mem_singleton] at hp
                subst hp
                exact c4
              · rw [pairsToks_nil_some]; rfl

/-- What the grammar accepts starts with a sentence. -/
theorem grammar_inv (ts : List Tok) (res : FunctionStatement)
    (h : grammar ts = (some res, none)) :
    ∃ fl ol tl cl bl ps last el gl rest, valuesOK ps last ∧
      ts = sentence fl ol tl cl bl ps last el gl ++ rest ∧
      res = ⟨tl, VarMap.setAll [] (pairsKVs ps last)⟩ := by
  unfold grammar at h
  cases ts with
  | nil => rw [run_nil] at h; cases h
  | cons t1 ts =>
    obtain ⟨t1, l1⟩ := t1
    rw [run_cons, runStep_function] at h
    by_cases c1 : t1 = FUNCTION
    swap
    · rw [if_pos c1] at h; cases h
    subst c1
    simp only [ne_eq, not_true_eq_false, if_false] at h
    cases ts with
    | nil => rw [run_nil] at h; cases h
    | cons t2 ts =>
      obtain ⟨t2, l2⟩ := t2
      rw [run_cons, runStep_openBracket] at h
      by_cases c2 : t2 = OPEN_BRACKET
      swap
      · rw [if_pos c2] at h; cases h
      subst c2
      simp only [ne_eq, not_true_eq_false, if_false] at h
      cases ts with
      | nil => rw [run_nil] at h; cases h
      | cons t3 ts =>
        obtain ⟨t3, l3⟩ := t3
        rw [run_cons, runStep_template] at h
        by_cases c3 : t3 = TEMPLATE
        swap
        · rw [if_pos c3] at h; cases h
        subst c3
        simp only [ne_eq, not_true_eq_false, if_false] at h
        cases ts with
        | nil => rw [run_nil] at h; cases h
        | cons t4 ts =>
          obtain ⟨t4, l4⟩ := t4
          rw [run_cons, runStep_comma] at h
          by_cases c4 : t4 = COMMA
          swap
          · rw [if_pos c4] at h; cases h
          subst c4
          simp only [ne_eq, not_true_eq_false, if_false] at h
          cases ts with
          | nil => rw [run_nil] at h; cases h
          | cons t5 ts =>
            obtain ⟨t5, l5⟩ := t5
            rw [run_cons, runStep_openBrace] at h
            by_cases c5 : t5 = OPEN_BRACE
            swap
            · rw [if_pos c5] at h; cases h
            subst c5
            simp only [ne_eq, not_true_eq_false, if_false] at h
            obtain ⟨ps, last, el, gl, rest, hv, hts, hres⟩ := run_key_inv _ ts le_rfl _ _ h
            refine ⟨l1, l2, l3, l4, l5, ps, last, el, gl, rest, hv, ?_, hres⟩
            rw [hts]
            simp [sentence]

/-! ## Literals of the tokens of a NUL-free input -/

theorem tokens_of_nil (s : Scanner) (h : s.r = []) : s.tokens = [] := by
  obtain ⟨r, l⟩ := s
  simp only at h
  subst h
  rfl

theorem tokens_ok (s : Scanner) (h : NulFree s.r) : TokOK s.tokens := by
  suffices hs : ∀ n (s : Scanner), s.r.length = n → NulFree s.r → TokOK s.tokens from
    hs _ s rfl h
  intro n
  induction n using Nat.strong_induction_on with
  | _ n ih =>
    intro s hn hnf
    rw [tokens_unfold]
    by_cases he : (s.Scan).1 = EOF
    · rw [if_pos he]; trivial
    · rw [if_neg he]
      have hf := Scan_facts s hnf
      have hlt := Scan_length_lt s he
      refine ⟨?_, hf.2.2.2, ih _ (by rw [← hn]; exact hlt) _ rfl (Scan_nulFree s hnf)⟩
      intro ht
      rcases hf.2.2.1 ht with hq | hr
      · exact Or.inl hq
      · exact Or.inr (tokens_of_nil _ hr)

theorem TokOK_filter (ts : List Tok) (h : TokOK ts) :
    TokOK (ts.filter (fun t => t.1 ≠ WS)) := by
  induction ts with
  | nil => trivial
  | cons t ts ih =>
    obtain ⟨h1, h2, h3⟩ := h
    by_cases hw : t.1 = WS
    · rw [List.filter_cons_of_neg (by simpa using hw)]
      exact ih h3
    · rw [List.filter_cons_of_pos (by simpa using hw)]
      refine ⟨fun ht => ?_, h2, ih h3⟩
      rcases h1 ht with hq | hr
      · exact Or.inl hq
      · right; rw [hr]; rfl

theorem sigTokens_ok (input : List Char) (h : NulFree input) : TokOK (sigTokens input) :=
  TokOK_filter _ (tokens_ok (NewScanner input) h)

theorem mem_set (m : VarMap) (k v : List Char) (kv : List Char × List Char)
    (h : kv ∈ m.set k v) : kv = (k, v) ∨ kv ∈ m := by
  induction m with
  | nil =>
    simp only [VarMap.set, List.mem_singleton] at h
    exact Or.inl h
  | cons e m ih =>
    obtain ⟨k0, v0⟩ := e
    simp only [VarMap.set] at h
    split at h
    · rcases List.mem_cons.1 h with h | h
      · exact Or.inl h
      · exact Or.inr (List.mem_cons_of_mem _ h)
    · rcases List.mem_cons.1 h with h | h
      · exact Or.inr (by rw [h]; exact List.mem_cons_self _ _)
      · rcases ih h with h | h
        · exact Or.inl h
        · exact Or.inr (List.mem_cons_of_mem _ h)

theorem get_mem (m : VarMap) (k v : List Char) (h : m.get k = some v) : (k, v) ∈ m := by
  induction m with
  | nil => cases h
  | cons e m ih =>
    obtain ⟨k0, v0⟩ := e
    simp only [VarMap.get] at h
    split at h
    · rename_i hk
      cases h
      rw [hk]
      exact List.mem_cons_self _ _
    · exact List.mem_cons_of_mem _ (ih h)

/-- The statement that the grammar builds from well-scanned tokens has a quoted
template and digit runs or quoted literals as values. -/
theorem run_ok (ts : List Tok) (st : GState) (stmt res : FunctionStatement) (hts : TokOK ts)
    (hst : StmtOK st stmt) (h : run st stmt ts = (some res, none)) :
    IsQuoted res.Template ∧ ∀ kv ∈ res.Vars, IsValueLit kv.2 := by
  induction ts generalizing st stmt with
  | nil => rw [run_nil] at h; cases h
  | cons t ts ih =>
    obtain ⟨h1, h2, h3⟩ := hts
    obtain ⟨t, l⟩ := t
    have hnil : ∀ st1 stmt1, run st1 stmt1 ts = (some res, none) → ts ≠ [] := by
      intro st1 stmt1 hr hnil
      rw [hnil, run_nil] at hr
      cases hr
    rw [run_cons] at h
    cases st with
    | function =>
      rw [runStep_function] at h
      split at h
      · cases h
      · exact ih _ _ h3 ⟨fun hf => (by cases hf), hst.2⟩ h
    | openBracket =>
      rw [runStep_openBracket] at h
      split at h
      · cases h
      · exact ih _ _ h3 ⟨fun hf => (by cases hf), hst.2⟩ h
    | template =>
      rw [runStep_template] at h
      split at h
      · cases h
      · rename_i hc
        have ht : t = TEMPLATE := not_not.1 hc
        refine ih _ _ h3 ?_ h
        refine ⟨fun _ => ?_, hst.2⟩
        rcases h1 ht with hq | hr
        · exact hq
        · exact absurd hr (hnil _ _ h)
    | comma =>
      rw [runStep_comma] at h
      split at h
      · cases h
      · exact ih _ _ h3 ⟨fun _ => hst.1 rfl, hst.2⟩ h
    | openBrace =>
      rw [runStep_openBrace] at h
      split at h
      · cases h
      · exact ih _ _ h3 ⟨fun _ => hst.1 rfl, hst.2⟩ h
    | key =>
      by_cases c1 : t = CLOSE_BRACE
      · subst c1
        rw [runStep_key_close] at h
        exact ih _ _ h3 ⟨fun _ => hst.1 rfl, hst.2⟩ h
      by_cases c2 : t = IDENT
      · subst c2
        rw [runStep_key_ident] at h
        exact ih _ _ h3 ⟨fun _ => hst.1 rfl, hst.2⟩ h
      · rw [runStep_key_other _ _ _ _ c1 c2] at h; cases h
    | colon k =>
      by_cases c : t = COLON
      · subst c
        rw [runStep_colon] at h
        exact ih _ _ h3 ⟨fun _ => hst.1 rfl, hst.2⟩ h
      · rw [runStep_colon_other _ _ _ _ _ c] at h; cases h
    | value k =>
      by_cases c : t = TEMPLATE ∨ t = NUM_VALUE
      · rw [runStep_value _ _ _ _ _ c] at h
        refine ih _ _ h3 ?_ h
        refine ⟨fun _ => hst.1 rfl, ?_⟩
        intro kv hkv
        rcases mem_set _ _ _ _ hkv with hkv | hkv
        · rw [hkv]
          rcases c with c | c
          · rcases h1 c with hq | hr
            · exact Or.inr hq
            · exact absurd hr (hnil _ _ h)
          · exact Or.inl (h2 c)
        · exact hst.2 kv hkv
      · rw [runStep_value_other _ _ _ _ _ ⟨fun e => c (Or.inl e), fun e => c (Or.inr e)⟩] at h
        cases h
    | sep =>
      by_cases c : t = COMMA
      · subst c
        rw [runStep_sep_comma] at h
        exact ih _ _ h3 ⟨fun _ => hst.1 rfl, hst.2⟩ h
      · rw [runStep_sep_other _ _ _ _ c, runStep_closeBrace] at h
        split at h
        · cases h
        · exact ih _ _ h3 ⟨fun _ => hst.1 rfl, hst.2⟩ h
    | closeBrace =>
      rw [runStep_closeBrace] at h
      split at h
      · cases h
      · exact ih _ _ h3 ⟨fun _ => hst.1 rfl, hst.2⟩ h
    | closeBracket =>
      rw [runStep_closeBracket] at h
      split at h
      · cases h
      · cases h
        exact ⟨hst.1 rfl, hst.2⟩

/-! ## The tokens of a text, piece by piece -/

theorem sig_last (r : List Char) (l : Option Char) : Scanner.sig ⟨r, l⟩ = sigTokens r := by
  show Scanner.sig ⟨r, l⟩ = Scanner.sig ⟨r, none⟩
  rw [sig_unfold, sig_unfold ⟨r, none⟩, Scan_last r l]

theorem sigTokens_nil : sigTokens [] = [] := rfl

theorem sigTokens_cons (c : Char) (r : List Char) :
    sigTokens (c :: r) =
      if (Scanner.Scan ⟨c :: r, none⟩).1 = EOF then []
      else if (Scanner.Scan ⟨c :: r, none⟩).1 = WS then (Scanner.Scan ⟨c :: r, none⟩).2.2.sig
      else ((Scanner.Scan ⟨c :: r, none⟩).1, (Scanner.Scan ⟨c :: r, none⟩).2.1) ::
        (Scanner.Scan ⟨c :: r, none⟩).2.2.sig :=
  sig_unfold ⟨c :: r, none⟩

/-- The blanks that a `WS` token collects do not change the other tokens. -/
theorem sig_scanWhitespaceLoop (r buf : List Char) (h : NulFree r) :
    (scanWhitespaceLoop r buf).2.sig = sigTokens r := by
  induction r generalizing buf with
  | nil => rfl
  | cons d r ih =>
    by_cases hw : isWhitespace d = true
    · have h1 : scanWhitespaceLoop (d :: r) buf = scanWhitespaceLoop r (buf ++ [d]) := by
        rw [scanWhitespaceLoop, beq_eof_false h.head]
        simp [hw]
      rw [h1, ih _ h.tail, sigTokens_cons, Scan_cons]
      simp only [hw, if_true, reduceCtorEq, if_false]
      exact (ih _ h.tail).symm
    · have h1 : scanWhitespaceLoop (d :: r) buf = (buf, ⟨d :: r, none⟩) := by
        rw [scanWhitespaceLoop, beq_eof_false h.head]
        simp [hw]
      rw [h1]
      rfl

theorem sigTokens_blank_cons (c : Char) (r : List Char) (hc : isWhitespace c = true)
    (h : NulFree r) : sigTokens (c :: r) = sigTokens r := by
  rw [sigTokens_cons, Scan_cons]
  simp only [hc, if_true, reduceCtorEq, if_false]
  exact sig_scanWhitespaceLoop r [c] h

/-- Blanks in front of a text do not change its tokens. -/
theorem sigTokens_blank (w r : List Char) (hw : IsBlank w) (h : NulFree r) :
    sigTokens (w ++ r) = sigTokens r := by
  induction w with
  | nil => rfl
  | cons c w ih =>
    have hw1 : IsBlank w := fun x hx => hw x (List.mem_cons_of_mem _ hx)
    have hnf : NulFree (w ++ r) := by
      intro x hx
      rcases List.mem_append.1 hx with hx | hx
      · exact whitespace_ne_eof (hw1 x hx)
      · exact h x hx
    rw [List.cons_append, sigTokens_blank_cons c _ (hw c (List.mem_cons_self _ _)) hnf, ih hw1]

theorem firstByte_ascii (c : Char) (h : c.toNat < 128) : firstByte c = c := by
  unfold firstByte
  rw [if_pos h]

/-- A single rune that is a token of its own. -/
theorem sigTokens_single (c : Char) (t : Token) (r : List Char)
    (hs : ∀ r1, Scanner.Scan ⟨c :: r1, none⟩ = (t, [c], ⟨r1, some c⟩))
    (h1 : t ≠ EOF) (h2 : t ≠ WS) :
    sigTokens (c :: r) = (t, [c]) :: sigTokens r := by
  rw [sigTokens_cons, hs r]
  simp only [h1, h2, if_false]
  rw [sig_last]

theorem Scan_openBracket (r : List Char) :
    Scanner.Scan ⟨'(' :: r, none⟩ = (OPEN_BRACKET, ['('], ⟨r, some '('⟩) := by
  rw [Scan_cons]; rfl

theorem Scan_closeBracket (r : List Char) :
    Scanner.Scan ⟨')' :: r, none⟩ = (CLOSE_BRACKET, [')'], ⟨r, some ')'⟩) := by
  rw [Scan_cons]; rfl

theorem Scan_openBrace (r : List Char) :
    Scanner.Scan ⟨'{' :: r, none⟩ = (OPEN_BRACE, ['{'], ⟨r, some '{'⟩) := by
  rw [Scan_cons]; rfl

theorem Scan_closeBrace (r : List Char) :
    Scanner.Scan ⟨'}' :: r, none⟩ = (CLOSE_BRACE, ['}'], ⟨r, some '}'⟩) := by
  rw [Scan_cons]; rfl

theorem Scan_colon (r : List Char) :
    Scanner.Scan ⟨':' :: r, none⟩ = (COLON, [':'], ⟨r, some ':'⟩) := by
  rw [Scan_cons]; rfl

theorem Scan_comma (r : List Char) :
    Scanner.Scan ⟨',' :: r, none⟩ = (COMMA, [','], ⟨r, some ','⟩) := by
  rw [Scan_cons]; rfl

theorem sigTokens_openBracket (r : List Char) :
    sigTokens ('(' :: r) = (OPEN_BRACKET, ['(']) :: sigTokens r :=
  sigTokens_single _ _ r Scan_openBracket (by simp) (by simp)

theorem sigTokens_closeBracket (r : List Char) :
    sigTokens (')' :: r) = (CLOSE_BRACKET, [')']) :: sigTokens r :=
  sigTokens_single _ _ r Scan_closeBracket (by simp) (by simp)

theorem sigTokens_openBrace (r : List Char) :
    sigTokens ('{' :: r) = (OPEN_BRACE, ['{']) :: sigTokens r :=
  sigTokens_single _ _ r Scan_openBrace (by simp) (by simp)

theorem sigTokens_closeBrace (r : List Char) :
    sigTokens ('}' :: r) = (CLOSE_BRACE, ['}']) :: sigTokens r :=
  sigTokens_single _ _ r Scan_closeBrace (by simp) (by simp)

theorem sigTokens_colon (r : List Char) :
    sigTokens (':' :: r) = (COLON, [':']) :: sigTokens r :=
  sigTokens_single _ _ r Scan_colon (by simp) (by simp)

theorem sigTokens_comma (r : List Char) :
    sigTokens (',' :: r) = (COMMA, [',']) :: sigTokens r :=
  sigTokens_single _ _ r Scan_comma (by simp) (by simp)

/-- The function keyword: a letter directly in front of `(`. -/
theorem sigTokens_function (c : Char) (r : List Char) (hc : isLetter c = true) :
    sigTokens (c :: '(' :: r) = (FUNCTION, [c]) :: (OPEN_BRACKET, ['(']) :: sigTokens r := by
  rw [sigTokens_cons, Scan_cons]
  have h1 : isOpenBracket (peekRune ('(' :: r)) = true := rfl
  simp only [letter_not_whitespace hc, hc, h1, if_true, Bool.false_eq_true, if_false,
    reduceCtorEq]
  rw [sig_last, sigTokens_openBracket]

theorem scanTemplateLoop_body (b rest buf : List Char) (hb : IsBody b) :
    scanTemplateLoop (b ++ quoteCh :: ',' :: rest) buf =
      (buf ++ b ++ [quoteCh], ⟨',' :: rest, none⟩) := by
  induction b generalizing buf with
  | nil =>
    rw [List.nil_append, scanTemplateLoop_cons]
    simp only [List.append_nil]
    rfl
  | cons c b ih =>
    have hc := hb c (List.mem_cons_self _ _)
    have hq : isQuote c = false := by
      cases h : isQuote c
      · rfl
      · exact absurd ((isQuote_iff c).1 h) hc.1
    rw [List.cons_append, scanTemplateLoop_cons, beq_eof_false hc.2]
    simp only [hq, Bool.false_eq_true, if_false]
    rw [ih _ (fun x hx => hb x (List.mem_cons_of_mem _ hx))]
    simp

/-! ## The lookahead byte -/

theorem toNat_ofNat_small (n : Nat) (h : n < 0xd800) : (Char.ofNat n).toNat = n := by
  have hv : n.isValidChar := Or.inl h
  unfold Char.ofNat
  rw [dif_pos hv]
  simp only [Char.ofNatAux, Char.toNat]
  show (UInt32.ofNat' n _).toNat = n
  simp [UInt32.ofNat', UInt32.toNat]

theorem firstByte_ge (c : Char) (h : ¬ c.toNat < 128) : 128 ≤ (firstByte c).toNat := by
  have hmax : c.toNat < 0x110000 := by
    have := c.valid
    rcases this with h1 | ⟨_, h2⟩
    · exact Nat.lt_trans h1 (by decide)
    · exact h2
  unfold firstByte
  rw [if_neg h]
  split_ifs with h1 h2
  · rw [toNat_ofNat_small _ (by omega)]; omega
  · rw [toNat_ofNat_small _ (by omega)]; omega
  · rw [toNat_ofNat_small _ (by omega)]; omega

/-- The lookahead byte is an ASCII rune only for that rune itself. -/
theorem firstByte_eq_ascii (c d : Char) (hd : d.toNat < 128) : firstByte c = d ↔ c = d := by
  by_cases h : c.toNat < 128
  · rw [firstByte_ascii c h]
  · constructor
    · intro e
      have := firstByte_ge c h
      rw [e] at this
      omega
    · intro e
      rw [e] at h
      exact absurd hd h

theorem firstByte_eq_comma (c : Char) : firstByte c = ',' ↔ c = ',' :=
  firstByte_eq_ascii c ',' (by decide)

/-! ## Templates with quotes inside -/

theorem scanTemplateLoop_inner (b r buf : List Char) (hn : NulFree b)
    (hq : ∀ pre post, b ≠ pre ++ quoteCh :: ',' :: post) :
    scanTemplateLoop (b ++ quoteCh :: ',' :: r) buf =
      (buf ++ b ++ [quoteCh], ⟨',' :: r, none⟩) := by
  induction b generalizing buf with
  | nil =>
    rw [List.nil_append, scanTemplateLoop_cons]
    simp only [List.append_nil]
    rfl
  | cons c b ih =>
    have hb : ∀ pre post, b ≠ pre ++ quoteCh :: ',' :: post := by
      intro pre post e
      exact hq (c :: pre) post (by rw [e, List.cons_append])
    have step : scanTemplateLoop (b ++ quoteCh :: ',' :: r) (buf ++ [c]) =
        (buf ++ c :: b ++ [quoteCh], ⟨',' :: r, none⟩) := by
      rw [ih _ hn.tail hb]
      simp
    rw [List.cons_append, scanTemplateLoop_cons, beq_eof_false hn.head]
    simp only [Bool.false_eq_true, if_false]
    by_cases hc : isQuote c = true
    · have hpk : ((Scanner.peek ⟨b ++ quoteCh :: ',' :: r, some c⟩).1 != ',') = true := by
        rw [peek_eq]
        cases b with
        | nil =>
          show (firstByte quoteCh != ',') = true
          decide
        | cons d b1 =>
          have hd : d ≠ ',' := by
            intro e
            exact hq [] b1 (by rw [(isQuote_iff c).1 hc, e]; rfl)
          show (firstByte d != ',') = true
          simpa [firstByte_eq_comma] using hd
      rw [if_pos hc, if_pos hpk]
      exact step
    · rw [if_neg hc]
      exact step

theorem quoteComma_cons (c d : Char) (r : List Char) :
    quoteComma (c :: d :: r) = ((c == quoteCh && d == ',') || quoteComma (d :: r)) := rfl

/-- A text without a quote directly in front of a comma cannot be split there. -/
theorem quoteComma_split (b : List Char) (h : quoteComma b = false) :
    ∀ pre post, b ≠ pre ++ quoteCh :: ',' :: post := by
  intro pre post e
  subst e
  induction pre with
  | nil => exact absurd h (by simp [quoteComma])
  | cons p pre ih =>
    apply ih
    obtain ⟨d, r, hd⟩ : ∃ d r, pre ++ quoteCh :: ',' :: post = d :: r := by
      cases pre with
      | nil => exact ⟨_, _, rfl⟩
      | cons d r => exact ⟨_, _, rfl⟩
    rw [List.cons_append, hd, quoteComma_cons] at h
    rw [hd]
    exact (Bool.or_eq_false_iff.1 h).2

/-- The contents are the NUL-free texts in which no single quote is directly
followed by a comma. -/
theorem isContent_iff (b : List Char) :
    IsContent b ↔ NulFree b ∧ ∀ pre post, b ≠ pre ++ quoteCh :: ',' :: post := by
  constructor
  · exact fun h => ⟨h.1, quoteComma_split b h.2⟩
  · rintro ⟨h1, h2⟩
    refine ⟨h1, ?_⟩
    cases hq : quoteComma b
    · rfl
    · exfalso
      clear h1
      induction b with
      | nil => cases hq
      | cons c b ih =>
        cases b with
        | nil => cases hq
        | cons d r =>
          rw [quoteComma_cons] at hq
          rcases Bool.or_eq_true_iff.1 hq with h3 | h3
          · have h4 : c = quoteCh ∧ d = ',' := by simpa using h3
            exact h2 [] r (by rw [h4.1, h4.2]; rfl)
          · exact ih (fun pre post e => h2 (c :: pre) post (by rw [e]; rfl)) h3

/-- A body without a quote is a content. -/
theorem IsBody.content {b : List Char} (h : IsBody b) : IsContent b := by
  refine ⟨fun c hc => (h c hc).2, ?_⟩
  induction b with
  | nil => rfl
  | cons c b ih =>
    cases b with
    | nil => rfl
    | cons d b1 =>
      have hc : (c == quoteCh) = false := by
        have := (h c (List.mem_cons_self _ _)).1
        simpa using this
      rw [quoteComma_cons, hc, Bool.false_and, Bool.false_or]
      exact ih (fun x hx => h x (List.mem_cons_of_mem _ hx))

/-- A quoted content directly in front of a comma is one `TEMPLATE` token. -/
theorem sigTokens_template (b rest : List Char) (hb : IsContent b) :
    sigTokens (quoted b ++ ',' :: rest) =
      (TEMPLATE, quoted b) :: (COMMA, [',']) :: sigTokens rest := by
  have h0 : quoted b ++ ',' :: rest = quoteCh :: (b ++ quoteCh :: ',' :: rest) := by
    simp [quoted]
  rw [h0, sigTokens_cons, Scan_cons]
  have hq : isQuote quoteCh = true := rfl
  simp only [quote_not_whitespace, quote_not_letter, quote_not_digit, hq, if_true,
    Bool.false_eq_true, if_false, reduceCtorEq,
    scanTemplateLoop_inner b rest [quoteCh] hb.1 (quoteComma_split b hb.2)]
  rw [sig_last, sigTokens_comma]
  simp [quoted]

theorem identChar_ne_eof {c : Char} (h : isIdentChar c = true) : c ≠ eof := by
  rintro rfl; revert h; decide

theorem identChar_stop (c : Char) :
    (!isLetter c && !isDigit c && c != '_') = !isIdentChar c := by
  unfold isIdentChar
  show (!isLetter c && !isDigit c && !(c == '_')) = !(isLetter c || isDigit c || c == '_')
  generalize isLetter c = a
  generalize isDigit c = b
  generalize (c == '_') = e
  cases a <;> cases b <;> cases e <;> rfl

theorem scanIdentLoop_run (cs : List Char) (c : Char) (rest buf : List Char)
    (hcs : ∀ x ∈ cs, isIdentChar x = true) (hc : isIdentChar c = false) (he : c ≠ eof) :
    scanIdentLoop (cs ++ c :: rest) buf = (buf ++ cs, ⟨c :: rest, none⟩) := by
  induction cs generalizing buf with
  | nil =>
    rw [List.nil_append, scanIdentLoop, beq_eof_false he, identChar_stop, hc]
    simp
  | cons d cs ih =>
    have hd := hcs d (List.mem_cons_self _ _)
    rw [List.cons_append, scanIdentLoop, beq_eof_false (identChar_ne_eof hd), identChar_stop, hd]
    simp only [Bool.false_eq_true, if_false, Bool.not_true]
    rw [ih _ (fun x hx => hcs x (List.mem_cons_of_mem _ hx))]
    simp

theorem identChar_ascii {c : Char} (h : isIdentChar c = true) : c.toNat < 128 := by
  unfold isIdentChar isLetter isDigit at h
  simp only [Bool.or_eq_true, Bool.and_eq_true, decide_eq_true_eq, beq_iff_eq] at h
  have ha : 'a'.toNat = 97 := by decide
  have hz : 'z'.toNat = 122 := by decide
  have hA : 'A'.toNat = 65 := by decide
  have hZ : 'Z'.toNat = 90 := by decide
  have h0 : '0'.toNat = 48 := by decide
  have h9 : '9'.toNat = 57 := by decide
  rw [ha, hz, hA, hZ, h0, h9] at h
  rcases h with (h | h) | h
  · omega
  · omega
  · subst h; decide

theorem identChar_not_openBracket {c : Char} (h : isIdentChar c = true) :
    isOpenBracket c = false := by
  cases hb : isOpenBracket c
  · rfl
  · have : c = '(' := by simpa [isOpenBracket] using hb
    subst this
    revert h; decide

theorem identChar_not_colon {c : Char} (h : isIdentChar c = true) : isColon c = false := by
  cases hb : isColon c
  · rfl
  · have : c = ':' := by simpa [isColon] using hb
    subst this
    revert h; decide

theorem blank_not_identChar {c : Char} (h : isWhitespace c = true) : isIdentChar c = false := by
  rcases (isWhitespace_iff c).1 h with rfl | rfl | rfl <;> decide

/-- A key, blanks, and a colon: the tokens `IDENT` and `COLON`.  A one-letter
key has to be directly in front of the colon. -/
theorem sigTokens_key (k mid rest : List Char) (hk : IsKey k) (hm : IsBlank mid)
    (h1 : k.length = 1 → mid = []) (hr : NulFree rest) :
    sigTokens (k ++ (mid ++ ':' :: rest)) = (IDENT, k) :: (COLON, [':']) :: sigTokens rest := by
  obtain ⟨c, cs, rfl, hc, hcs⟩ := hk
  have hcolon : NulFree (':' :: rest) := by
    intro x hx
    rcases List.mem_cons.1 hx with rfl | hx
    · decide
    · exact hr x hx
  have hafter : sigTokens (mid ++ ':' :: rest) = (COLON, [':']) :: sigTokens rest := by
    rw [sigTokens_blank mid _ hm hcolon, sigTokens_colon]
  cases cs with
  | nil =>
    have : mid = [] := h1 rfl
    subst this
    rw [List.nil_append, List.singleton_append, sigTokens_cons, Scan_cons]
    have hp1 : isOpenBracket (peekRune (':' :: rest)) = false := rfl
    have hp2 : isColon (peekRune (':' :: rest)) = true := rfl
    simp only [letter_not_whitespace hc, hc, hp1, hp2, if_true, Bool.false_eq_true, if_false,
      reduceCtorEq]
    rw [sig_last, sigTokens_colon]
  | cons d ds =>
    have hd := hcs d (List.mem_cons_self _ _)
    have hds : ∀ x ∈ ds, isIdentChar x = true := fun x hx => hcs x (List.mem_cons_of_mem _ hx)
    obtain ⟨c1, r1, hR, hc1, he1⟩ : ∃ c1 r1, mid ++ ':' :: rest = c1 :: r1 ∧
        isIdentChar c1 = false ∧ c1 ≠ eof := by
      cases mid with
      | nil => exact ⟨':', rest, rfl, by decide, by decide⟩
      | cons m ms =>
        have hmw := hm m (List.mem_cons_self _ _)
        exact ⟨m, ms ++ ':' :: rest, rfl, blank_not_identChar hmw, whitespace_ne_eof hmw⟩
    have hpk : peekRune (d :: (ds ++ (mid ++ ':' :: rest))) = d :=
      firstByte_ascii d (identChar_ascii hd)
    have htail : identTail (d :: (ds ++ (mid ++ ':' :: rest))) =
        ([d] ++ ds, ⟨mid ++ ':' :: rest, none⟩) := by
      show scanIdentLoop (ds ++ (mid ++ ':' :: rest)) [d] = _
      rw [hR, scanIdentLoop_run ds c1 r1 [d] hds hc1 he1]
    rw [List.cons_append, List.cons_append, sigTokens_cons, Scan_cons]
    simp only [letter_not_whitespace hc, hc, hpk, identChar_not_openBracket hd,
      identChar_not_colon hd, htail, if_true, Bool.false_eq_true, if_false, reduceCtorEq]
    rw [sig_last, hafter]
    simp

theorem scanNumberLoop_run (ds rest buf : List Char) (hds : ∀ x ∈ ds, isDigit x = true)
    (hr : NulFree rest) (hn : NoDigitStart rest) :
    scanNumberLoop (ds ++ rest) buf = (buf ++ ds, ⟨rest, none⟩) := by
  induction ds generalizing buf with
  | nil =>
    rw [List.nil_append, List.append_nil]
    cases rest with
    | nil => rfl
    | cons c r1 =>
      rw [scanNumberLoop, beq_eof_false hr.head, hn c r1 rfl]
      simp
  | cons d ds ih =>
    have hd := hds d (List.mem_cons_self _ _)
    rw [List.cons_append, scanNumberLoop, beq_eof_false (digit_ne_eof hd), hd]
    simp only [Bool.false_eq_true, if_false, Bool.not_true]
    rw [ih _ (fun x hx => hds x (List.mem_cons_of_mem _ hx))]
    simp

/-- A digit run in front of a text that does not go on with a digit is one `NUM_VALUE` token. -/
theorem sigTokens_number (d rest : List Char) (hd : IsDigits d) (hr : NulFree rest)
    (hn : NoDigitStart rest) : sigTokens (d ++ rest) = (NUM_VALUE, d) :: sigTokens rest := by
  obtain ⟨hne, hall⟩ := hd
  cases d with
  | nil => exact absurd rfl hne
  | cons c ds =>
    have hc := hall c (List.mem_cons_self _ _)
    rw [List.cons_append, sigTokens_cons, Scan_cons]
    simp only [digit_not_whitespace hc, digit_not_letter hc, hc, if_true, Bool.false_eq_true,
      if_false, reduceCtorEq,
      scanNumberLoop_run ds rest [c] (fun x hx => hall x (List.mem_cons_of_mem _ hx)) hr hn]
    rw [sig_last]
    simp

/-! ## The tokens of a well-formed statement -/

theorem NulFree.append {a b : List Char} (ha : NulFree a) (hb : NulFree b) : NulFree (a ++ b) := by
  intro x hx
  rcases List.mem_append.1 hx with hx | hx
  · exact ha x hx
  · exact hb x hx

theorem NulFree.cons {c : Char} {r : List Char} (hc : c ≠ eof) (hr : NulFree r) :
    NulFree (c :: r) := by
  intro x hx
  rcases List.mem_cons.1 hx with rfl | hx
  · exact hc
  · exact hr x hx

theorem nulFree_nil : NulFree [] := fun _ hx => by cases hx

theorem blank_nulFree {w : List Char} (h : IsBlank w) : NulFree w :=
  fun x hx => whitespace_ne_eof (h x hx)

theorem key_nulFree {k : List Char} (h : IsKey k) : NulFree k := by
  obtain ⟨c, cs, rfl, hc, hcs⟩ := h
  exact NulFree.cons (letter_ne_eof hc) (fun x hx => identChar_ne_eof (hcs x hx))

theorem body_nulFree {b : List Char} (h : IsBody b) : NulFree b :=
  fun x hx => (h x hx).2

theorem digits_nulFree {d : List Char} (h : IsDigits d) : NulFree d :=
  fun x hx => digit_ne_eof (h.2 x hx)

theorem quoted_nulFree {b : List Char} (h : IsContent b) : NulFree (quoted b) :=
  NulFree.append (NulFree.append (NulFree.cons (by decide) nulFree_nil) h.1)
    (NulFree.cons (by decide) nulFree_nil)

theorem pair_text_nulFree {tr la : Bool} {p : Pair} (h : p.WellFormed tr la) :
    NulFree p.text := by
  obtain ⟨h1, h2, h3, _, h5, h6, h7⟩ := h
  have hv : NulFree p.val.text := by
    cases hval : p.val with
    | template b =>
      rw [hval] at h7
      exact quoted_nulFree h7.1
    | number d =>
      rw [hval] at h7
      exact digits_nulFree h7
  unfold Pair.text
  exact NulFree.append (NulFree.append (NulFree.append (NulFree.append (NulFree.append
    (NulFree.append (blank_nulFree h1) (key_nulFree h2)) (blank_nulFree h3)) (NulFree.cons (by decide) nulFree_nil))
    (blank_nulFree h5)) hv) (blank_nulFree h6)

theorem pairsText_nulFree (tr : Bool) (ps : List Pair) (h : pairsWellFormed tr ps) :
    NulFree (pairsText tr ps) := by
  induction ps with
  | nil => exact nulFree_nil
  | cons p ps ih =>
    unfold pairsText
    refine NulFree.append (NulFree.append (pair_text_nulFree h.1) ?_) (ih h.2)
    split
    · exact nulFree_nil
    · exact NulFree.cons (by decide) nulFree_nil

theorem NoDigitStart.blank {w r : List Char} (hw : IsBlank w) (hr : NoDigitStart r) :
    NoDigitStart (w ++ r) := by
  cases w with
  | nil => exact hr
  | cons c w =>
    intro x r1 hx
    rw [List.cons_append] at hx
    have hxc : c = x := (List.cons.inj hx).1
    have hcw := hw c (List.mem_cons_self _ _)
    rw [hxc] at hcw
    cases hd : isDigit x
    · rfl
    · have := digit_not_whitespace hd
      rw [hcw] at this
      cases this

theorem NoDigitStart.of_head {c : Char} {r : List Char} (hc : isDigit c = false) :
    NoDigitStart (c :: r) := by
  intro x r1 hx
  cases hx
  exact hc

/-- The tokens of a well-formed pair list and of the closing brace after it. -/
theorem sigTokens_pairs (tr : Bool) (ps : List Pair) (w3 rest : List Char)
    (h : pairsWellFormed tr ps) (hw : IsBlank w3) (hr : NulFree rest) :
    sigTokens (pairsText tr ps ++ (w3 ++ '}' :: rest)) =
      textToks tr ps ++ (CLOSE_BRACE, ['}']) :: sigTokens rest := by
  have hclose : NulFree ('}' :: rest) := NulFree.cons (by decide) hr
  have hend : NulFree (w3 ++ '}' :: rest) := NulFree.append (blank_nulFree hw) hclose
  induction ps with
  | nil =>
    show sigTokens ([] ++ (w3 ++ '}' :: rest)) = _
    rw [List.nil_append, sigTokens_blank w3 _ hw hclose, sigTokens_closeBrace]
    rfl
  | cons p ps ih =>
    obtain ⟨⟨h1, h2, h3, h4, h5, h6, h7⟩, hps⟩ := h
    have hR : NulFree (pairsText tr ps ++ (w3 ++ '}' :: rest)) :=
      NulFree.append (pairsText_nulFree tr ps hps) hend
    have ihR := ih hps
    -- the text after the value
    generalize hcm : (if ps.isEmpty && !tr then ([] : List Char) else [',']) = cm
    have hshape : pairsText tr (p :: ps) ++ (w3 ++ '}' :: rest) =
        p.pre ++ (p.key ++ (p.mid ++ ':' :: (p.gap ++ (p.val.text ++ (p.post ++
          (cm ++ (pairsText tr ps ++ (w3 ++ '}' :: rest)))))))) := by
      rw [pairsText, hcm, Pair.text]
      simp only [List.append_assoc, List.singleton_append, List.cons_append, List.nil_append]
    have hcmnf : NulFree (cm ++ (pairsText tr ps ++ (w3 ++ '}' :: rest))) := by
      refine NulFree.append ?_ hR
      rw [← hcm]
      split
      · exact nulFree_nil
      · exact NulFree.cons (by decide) nulFree_nil
    have hpost : NulFree (p.post ++ (cm ++ (pairsText tr ps ++ (w3 ++ '}' :: rest)))) :=
      NulFree.append (blank_nulFree h6) hcmnf
    have hvnf : NulFree p.val.text := by
      cases hval : p.val with
      | template b => rw [hval] at h7; exact quoted_nulFree h7.1
      | number d => rw [hval] at h7; exact digits_nulFree h7
    have hval : NulFree (p.val.text ++ (p.post ++
        (cm ++ (pairsText tr ps ++ (w3 ++ '}' :: rest))))) := NulFree.append hvnf hpost
    have hgap : NulFree (p.gap ++ (p.val.text ++ (p.post ++
        (cm ++ (pairsText tr ps ++ (w3 ++ '}' :: rest)))))) := NulFree.append (blank_nulFree h5) hval
    have hkey : NulFree (p.key ++ (p.mid ++ ':' :: (p.gap ++ (p.val.text ++ (p.post ++
        (cm ++ (pairsText tr ps ++ (w3 ++ '}' :: rest)))))))) :=
      NulFree.append (key_nulFree h2) (NulFree.append (blank_nulFree h3) (NulFree.cons (by decide) hgap))
    have hX : sigTokens (p.val.text ++ (p.post ++
        (cm ++ (pairsText tr ps ++ (w3 ++ '}' :: rest))))) =
        (p.val.tok, p.val.text) :: ((if (ps.isEmpty && !tr) = true then ([] : List Tok)
          else [(COMMA, [','])]) ++ (textToks tr ps ++ (CLOSE_BRACE, ['}']) :: sigTokens rest)) := by
      cases hv : p.val with
      | template b =>
        rw [hv] at h7
        obtain ⟨hb, hp0, hlast⟩ := h7
        have hcm1 : cm = [','] := by
          rw [← hcm]
          cases hemp : ps.isEmpty
          · rfl
          · rw [hlast hemp]; rfl
        have hcm2 : (if (ps.isEmpty && !tr) = true then ([] : List Tok) else [(COMMA, [','])]) =
            [(COMMA, [','])] := by
          cases hemp : ps.isEmpty
          · rfl
          · rw [hlast hemp]; rfl
        rw [hp0, hcm1, hcm2]
        simp only [Value.text, Value.tok]
        rw [List.nil_append, List.singleton_append, sigTokens_template b _ hb, ihR]
        rfl
      | number d =>
        rw [hv] at h7
        simp only [Value.text, Value.tok]
        by_cases hemp : (ps.isEmpty && !tr) = true
        · -- the last pair, no comma after it
          have hcm1 : cm = [] := by rw [← hcm, if_pos hemp]
          have hps0 : ps = [] := by
            simp only [Bool.and_eq_true, List.isEmpty_iff] at hemp
            exact hemp.1
          subst hps0
          rw [hcm1, if_pos hemp]
          have hnd : NoDigitStart
              (p.post ++ ([] ++ (pairsText tr [] ++ (w3 ++ '}' :: rest)))) := by
            refine NoDigitStart.blank h6 ?_
            show NoDigitStart (w3 ++ '}' :: rest)
            exact NoDigitStart.blank hw (NoDigitStart.of_head (by decide))
          rw [hcm1] at hpost
          rw [sigTokens_number d _ h7 hpost hnd, sigTokens_blank _ _ h6 (by
            show NulFree (w3 ++ '}' :: rest); exact hend)]
          rw [List.nil_append, ihR]
          rfl
        · have hcm1 : cm = [','] := by rw [← hcm, if_neg hemp]
          rw [hcm1, if_neg hemp]
          rw [hcm1] at hpost hcmnf
          have hnd : NoDigitStart (p.post ++ ([','] ++
              (pairsText tr ps ++ (w3 ++ '}' :: rest)))) :=
            NoDigitStart.blank h6 (NoDigitStart.of_head (by decide))
          rw [sigTokens_number d _ h7 hpost hnd, sigTokens_blank _ _ h6 hcmnf,
            List.singleton_append, sigTokens_comma, ihR]
          rfl
    rw [hshape, sigTokens_blank _ _ h1 hkey, sigTokens_key _ _ _ h2 h3 h4 hgap,
      sigTokens_blank _ _ h5 hval, hX, textToks]
    simp only [List.append_assoc, List.cons_append, List.nil_append]

theorem Value.tok_isValue (v : Value) : v.tok = TEMPLATE ∨ v.tok = NUM_VALUE := by
  cases v
  · exact Or.inl rfl
  · exact Or.inr rfl

/-- The tokens of a pair list in the text, followed by the closing tokens, are accepted. -/
theorem run_key_textToks (tr : Bool) (ps : List Pair) (stmt : FunctionStatement)
    (el gl : List Char) (rest : List Tok) :
    run .key stmt (textToks tr ps ++ (CLOSE_BRACE, el) :: (CLOSE_BRACKET, gl) :: rest) =
      (some ⟨stmt.Template,
        VarMap.setAll stmt.Vars (ps.map fun p => (p.key, p.val.text))⟩, none) := by
  induction ps generalizing stmt with
  | nil => rfl
  | cons p ps ih =>
    rw [textToks, List.map_cons, setAll_cons]
    simp only [List.cons_append, List.nil_append, List.append_assoc, run_cons, runStep_key_ident,
      runStep_colon, runStep_value _ _ _ _ _ p.val.tok_isValue]
    by_cases hemp : (ps.isEmpty && !tr) = true
    · have hps0 : ps = [] := by
        simp only [Bool.and_eq_true, List.isEmpty_iff] at hemp
        exact hemp.1
      subst hps0
      rw [if_pos hemp]
      rfl
    · rw [if_neg hemp]
      simp only [List.cons_append, List.nil_append, run_cons, runStep_sep_comma]
      exact ih _

theorem Statement.text_eq (x : Statement) (tail : List Char) :
    x.text ++ tail =
      'f' :: '(' :: (x.w1 ++ (quoted x.body ++ ',' :: (x.w2 ++ '{' ::
        (pairsText x.trailing x.pairs ++ (x.w3 ++ '}' :: (x.w4 ++ ')' :: tail)))))) := by
  unfold Statement.text
  simp only [List.append_assoc, List.singleton_append, List.cons_append, List.nil_append]

theorem statement_text_nulFree (x : Statement) (tail : List Char) (h : x.WellFormed)
    (ht : NulFree tail) : NulFree (x.text ++ tail) := by
  obtain ⟨h1, h2, h3, h4, h5, h6⟩ := h
  rw [Statement.text_eq]
  exact NulFree.cons (by decide) (NulFree.cons (by decide) (NulFree.append (blank_nulFree h1)
    (NulFree.append (quoted_nulFree h2) (NulFree.cons (by decide) (NulFree.append (blank_nulFree h3)
    (NulFree.cons (by decide) (NulFree.append (pairsText_nulFree _ _ h4)
    (NulFree.append (blank_nulFree h5) (NulFree.cons (by decide) (NulFree.append (blank_nulFree h6)
    (NulFree.cons (by decide) ht)))))))))))

/-- The tokens of a well-formed statement. -/
theorem sigTokens_statement (x : Statement) (tail : List Char) (h : x.WellFormed)
    (ht : NulFree tail) :
    sigTokens (x.text ++ tail) =
      (FUNCTION, ['f']) :: (OPEN_BRACKET, ['(']) :: (TEMPLATE, quoted x.body) ::
        (COMMA, [',']) :: (OPEN_BRACE, ['{']) ::
        (textToks x.trailing x.pairs ++
          (CLOSE_BRACE, ['}']) :: (CLOSE_BRACKET, [')']) :: sigTokens tail) := by
  have hall := statement_text_nulFree x tail h ht
  obtain ⟨h1, h2, h3, h4, h5, h6⟩ := h
  rw [Statement.text_eq] at hall ⊢
  have n1 := hall.tail.tail
  have n2 : NulFree (quoted x.body ++ ',' :: (x.w2 ++ '{' ::
      (pairsText x.trailing x.pairs ++ (x.w3 ++ '}' :: (x.w4 ++ ')' :: tail))))) := n1.of_append
  have n3 : NulFree (x.w2 ++ '{' ::
      (pairsText x.trailing x.pairs ++ (x.w3 ++ '}' :: (x.w4 ++ ')' :: tail)))) :=
    (n2.of_append).tail
  have n4 : NulFree ('{' ::
      (pairsText x.trailing x.pairs ++ (x.w3 ++ '}' :: (x.w4 ++ ')' :: tail)))) := n3.of_append
  have n5 : NulFree (x.w4 ++ ')' :: tail) :=
    NulFree.append (blank_nulFree h6) (NulFree.cons (by decide) ht)
  rw [sigTokens_function 'f' _ (by decide), sigTokens_blank _ _ h1 n2,
    sigTokens_template _ _ h2, sigTokens_blank _ _ h3 n4, sigTokens_openBrace,
    sigTokens_pairs _ _ _ _ h4 h5 n5, sigTokens_blank _ _ h6 (NulFree.cons (by decide) ht),
    sigTokens_closeBracket]

/-- `Parse` on a well-formed statement, whatever NUL-free text follows it. -/
theorem parseText_statement (x : Statement) (tail : List Char) (h : x.WellFormed)
    (ht : NulFree tail) :
    parseText (x.text ++ tail) =
      some (some ⟨quoted x.body, VarMap.setAll [] x.kvs⟩, none) := by
  rw [parseText_grammar _ (statement_text_nulFree x tail h ht), sigTokens_statement x tail h ht]
  unfold grammar
  simp only [run_cons, runStep_function, runStep_openBracket, runStep_template, runStep_comma,
    runStep_openBrace, ne_eq, not_true_eq_false, if_false]
  rw [run_key_textToks]
  rfl

/-! ## Lookup in the map built by `Parse` -/

theorem get_set (m : VarMap) (k v k1 : List Char) :
    (m.set k v).get k1 = if k = k1 then some v else m.get k1 := by
  induction m with
  | nil => simp [VarMap.set, VarMap.get]
  | cons e m ih =>
    obtain ⟨k0, v0⟩ := e
    by_cases h0 : k0 = k
    · subst h0
      simp only [VarMap.set, if_true, VarMap.get]
      by_cases h1 : k0 = k1 <;> simp [h1]
    · simp only [VarMap.set, h0, if_false, VarMap.get, ih]
      by_cases h1 : k0 = k1
      · have : ¬k = k1 := fun e => h0 (h1.trans e.symm)
        simp [h1, this]
      · simp [h1]

theorem lastValue_cons (kv : List Char × List Char) (kvs : List (List Char × List Char))
    (k : List Char) :
    lastValue (kv :: kvs) k =
      match lastValue kvs k with
      | some v => some v
      | none => if kv.1 = k then some kv.2 else none := by
  unfold lastValue
  rw [List.reverse_cons, List.find?_append]
  cases h : List.find? (fun kv => decide (kv.1 = k)) kvs.reverse with
  | none =>
    by_cases hk : kv.1 = k <;> simp [hk]
  | some w => simp

/-- The map built by assigning pairs in order sends a key to the value of its
last occurrence. -/
theorem get_setAll (m : VarMap) (kvs : List (List Char × List Char)) (k : List Char) :
    (VarMap.setAll m kvs).get k =
      match lastValue kvs k with
      | some v => some v
      | none => m.get k := by
  induction kvs generalizing m with
  | nil => rfl
  | cons kv kvs ih =>
    rw [setAll_cons, ih, lastValue_cons, get_set]
    cases lastValue kvs k with
    | none =>
      by_cases hk : kv.1 = k <;> simp [hk]
    | some v => rfl

theorem get_setAll_nil (kvs : List (List Char × List Char)) (k : List Char) :
    (VarMap.setAll [] kvs).get k = lastValue kvs k := by
  rw [get_setAll]
  cases lastValue kvs k <;> rfl

/-! ## Errors of `Parse` -/

theorem pairRound_label (p : Parser) (stmt : FunctionStatement) (e : ParseError)
    (h : pairRound p stmt = .fail e) : e.expected ∈ errorLabels := by
  unfold pairRound at h
  generalize p.scanIgnoreWhitespace = x1 at h
  obtain ⟨⟨t1, l1⟩, q1⟩ := x1
  dsimp only at h
  generalize q1.scanIgnoreWhitespace = x2 at h
  obtain ⟨⟨t2, l2⟩, q2⟩ := x2
  dsimp only at h
  generalize q2.scanIgnoreWhitespace = x3 at h
  obtain ⟨⟨t3, l3⟩, q3⟩ := x3
  dsimp only at h
  generalize q3.scanIgnoreWhitespace = x4 at h
  obtain ⟨⟨t4, l4⟩, q4⟩ := x4
  dsimp only at h
  split_ifs at h <;> cases h <;> simp [errorLabels]

theorem pairLoop_label (fuel : Nat) (p : Parser) (stmt : FunctionStatement) (e : ParseError)
    (h : pairLoop fuel p stmt = some (.fail e)) : e.expected ∈ errorLabels := by
  induction fuel generalizing p stmt with
  | zero => cases h
  | succ fuel ih =>
    cases hrd : pairRound p stmt with
    | fail e1 =>
      rw [pairLoop_fail _ _ _ _ hrd] at h
      cases h
      exact pairRound_label p stmt e hrd
    | brk p1 stmt1 =>
      rw [pairLoop_brk _ _ _ _ _ hrd] at h
      cases h
    | next p1 stmt1 =>
      rw [pairLoop_next _ _ _ _ _ hrd] at h
      exact ih p1 stmt1 h

theorem closeTail_shape (p : Parser) (stmt : FunctionStatement) :
    ResultShape (closeTail p stmt) := by
  unfold closeTail
  split_ifs
  · exact Or.inr ⟨_, rfl, by simp [errorLabels]⟩
  · exact Or.inr ⟨_, rfl, by simp [errorLabels]⟩
  · exact Or.inl ⟨_, rfl⟩

theorem loopTail_shape (fuel : Nat) (p : Parser) (stmt : FunctionStatement) (res : ParseResult)
    (h : loopTail fuel p stmt = some res) : ResultShape res := by
  unfold loopTail at h
  have hl := pairLoop_label fuel p stmt
  generalize pairLoop fuel p stmt = r at h hl
  rcases r with _ | (e | ⟨q, s⟩)
  · cases h
  · cases h
    exact Or.inr ⟨e, rfl, hl e rfl⟩
  · cases h
    exact closeTail_shape q s

theorem ParseFuel_shape (fuel : Nat) (p : Parser) (res : ParseResult)
    (h : p.ParseFuel fuel = some res) : ResultShape res := by
  rw [ParseFuel_eq] at h
  split_ifs at h
  · cases h; exact Or.inr ⟨_, rfl, by simp [errorLabels]⟩
  · cases h; exact Or.inr ⟨_, rfl, by simp [errorLabels]⟩
  · cases h; exact Or.inr ⟨_, rfl, by simp [errorLabels]⟩
  · cases h; exact Or.inr ⟨_, rfl, by simp [errorLabels]⟩
  · cases h; exact Or.inr ⟨_, rfl, by simp [errorLabels]⟩
  · exact loopTail_shape _ _ _ _ h

theorem parseText_shape (input : List Char) (res : ParseResult)
    (h : parseText input = some res) : ResultShape res := by
  unfold parseText Parser.Parse at h
  exact ParseFuel_shape _ _ _ h

/-- An error of the walk is the first rejected token, with the label of its position. -/
theorem run_error (ts : List Tok) (st : GState) (stmt : FunctionStatement) (e : ParseError)
    (h : run st stmt ts = (none, some e)) :
    ∃ pre t post st1 stmt1, ts ++ [(EOF, [])] = pre ++ t :: post ∧
      reach st stmt pre = some (st1, stmt1) ∧ st1.step stmt1 t = .reject ∧
      e.found = t.2 ∧ e.expected = st1.label := by
  induction ts generalizing st stmt with
  | nil =>
    rw [run_nil] at h
    cases h
    exact ⟨[], (EOF, []), [], st, stmt, rfl, rfl, step_EOF _ _ _, rfl, rfl⟩
  | cons t ts ih =>
    rw [run_cons] at h
    unfold runStep at h
    cases hs : st.step stmt t with
    | reject =>
      rw [hs] at h
      cases h
      exact ⟨[], t, ts ++ [(EOF, [])], st, stmt, by simp, rfl, hs, rfl, rfl⟩
    | goto st1 stmt1 =>
      rw [hs] at h
      obtain ⟨pre, t1, post, st2, stmt2, h1, h2, h3, h4, h5⟩ := ih _ _ h
      refine ⟨t :: pre, t1, post, st2, stmt2, ?_, ?_, h3, h4, h5⟩
      · rw [List.cons_append, h1, List.cons_append]
      · show (match st.step stmt t with
          | .goto st1 stmt1 => reach st1 stmt1 pre
          | _ => none) = _
        rw [hs]
        exact h2
    | accept stmt1 =>
      rw [hs] at h
      cases h

theorem isBlank_nil : IsBlank [] := fun _ hx => by cases hx

/-! ## The claims -/

/-- C1 (counterexample): three inputs that follow the grammar of the claim, on
which `Parse` fails.  In `f('x', \x7b a: 'one' \x7d)` the quoted last value `'one'` is
not followed by a comma, so the template runs to the end of the input and the
closing brace is never found.  In `f('a',1', \x7b\x7d)` the quoted template `'a',1'`
has a quote directly followed by a comma inside, where the template token ends.
In `f('a` NUL `1', \x7b\x7d)` the quoted template has a NUL inside, where the
template token ends. -/
theorem C1_counterexample :
    parseText "f('x', \x7b a: 'one' \x7d)".toList = some (none, some ⟨[], "CLOSE_BRACE"⟩) ∧
      parseText "f('a',1', \x7b\x7d)".toList = some (none, some ⟨['1'], "OPEN_BRACE"⟩) ∧
      parseText ("f('a".toList ++ [eof] ++ "1', \x7b\x7d)".toList) =
        some (none, some ⟨['1'], "COMMA"⟩) := by
  decide

/-- C1 (amended): for every statement `f(` blanks `'body'` `,` blanks `\x7b` pairs
blanks `\x7d` blanks `)` in which every quoted string is directly followed by a
comma (so a quoted last value has the trailing comma) and has inside no NUL and
no single quote directly followed by a comma (any other single quote inside is
content), every key is a letter followed by letters, digits or underscores, a
one-letter key is directly followed by its colon, and every other value is a
non-empty digit run, `Parse` succeeds, `Template` is the text from the opening
to the closing quote, and `Vars` holds exactly the declared keys, each with the
raw text of the value of its last occurrence. -/
theorem C1_parse_well_formed (x : Statement) (h : x.WellFormed) :
    ∃ stmt, parseText x.text = some (some stmt, none) ∧ stmt.Template = quoted x.body ∧
      ∀ k, stmt.Vars.get k = lastValue x.kvs k := by
  have := parseText_statement x [] h nulFree_nil
  rw [List.append_nil] at this
  exact ⟨_, this, rfl, get_setAll_nil x.kvs⟩

/-- C1 (witness): the amended claim on
`f( 'x', \x7b a: 'one',` newline `b_2 :42 , \x7d )`, and on
`f('it's', \x7ba: 'b'c', d: 12\x7d)`, which has single quotes inside its template and
inside a value. -/
theorem C1_witness :
    (sampleStatement.WellFormed ∧
      ∃ stmt, parseText sampleStatement.text = some (some stmt, none) ∧
        stmt.Template = quoted sampleStatement.body ∧
        ∀ k, stmt.Vars.get k = lastValue sampleStatement.kvs k) ∧
    (quoteStatement.WellFormed ∧
      quoteStatement.text = "f('it's', \x7ba: 'b'c', d: 12\x7d)".toList ∧
      parseText quoteStatement.text =
        some (some ⟨"'it's'".toList,
          [("a".toList, "'b'c'".toList), ("d".toList, "12".toList)]⟩, none) ∧
      ∃ stmt, parseText quoteStatement.text = some (some stmt, none) ∧
        stmt.Template = quoted quoteStatement.body ∧
        ∀ k, stmt.Vars.get k = lastValue quoteStatement.kvs k) :=
  ⟨⟨by decide, C1_parse_well_formed sampleStatement (by decide)⟩,
    ⟨by decide, by decide, by decide, C1_parse_well_formed quoteStatement (by decide)⟩⟩

/-- C2: for bodies `t` and `v` without quote and NUL, a key `k` and blank runs
`w1` to `w4`, `Parse` on `f('t',` w1 `\x7b` w2 k `:` w3 `'v',` w4 `\x7d);` succeeds
with `Template = 't'` and `Vars` the one-entry map from `k` to `'v'`; on the
input of `TestHelloWorld` the template is `'hello \x7b\x7b .foo \x7d\x7d'` and
`Vars["bar"]` is `'foo'`. -/
theorem C2_parse_single_pair (t v k w1 w2 w3 w4 : List Char) (ht : IsBody t) (hv : IsBody v)
    (hk : IsKey k) (h1 : IsBlank w1) (h2 : IsBlank w2) (h3 : IsBlank w3) (h4 : IsBlank w4) :
    parseText ("f(".toList ++ quoted t ++ ",".toList ++ w1 ++ "\x7b".toList ++ w2 ++ k ++
        ":".toList ++ w3 ++ quoted v ++ ",".toList ++ w4 ++ "\x7d);".toList) =
      some (some ⟨quoted t, [(k, quoted v)]⟩, none) ∧
    parseText helloWorld =
      some (some ⟨"'hello \x7b\x7b .foo \x7d\x7d'".toList,
        [("bar".toList, "'foo'".toList)]⟩, none) := by
  refine ⟨?_, by decide⟩
  have hwf : (Statement.mk [] t w1 [⟨w2, k, [], w3, .template v, []⟩] true w4 []).WellFormed :=
    ⟨isBlank_nil, ht.content, h1,
      ⟨⟨h2, hk, isBlank_nil, fun _ => rfl, h3, isBlank_nil, hv.content, rfl, fun _ => rfl⟩, trivial⟩,
      h4, isBlank_nil⟩
  have := parseText_statement _ [';'] hwf (by decide)
  simp only [Statement.text, pairsText, Pair.text, Value.text, Statement.kvs] at this
  have e : "f(".toList = ['f', '('] := rfl
  have e1 : ",".toList = [','] := rfl
  have e2 : "\x7b".toList = ['{'] := rfl
  have e3 : ":".toList = [':'] := rfl
  have e4 : "\x7d);".toList = ['}', ')', ';'] := rfl
  rw [e, e1, e2, e3, e4]
  simpa using this

/-- C2 (witness): the claim at `f('hi',\x7bk:'v',\x7d);`, all blank runs empty. -/
theorem C2_witness :
    parseText ("f(".toList ++ quoted "hi".toList ++ ",".toList ++ [] ++ "\x7b".toList ++ [] ++
        "k".toList ++ ":".toList ++ [] ++ quoted "v".toList ++ ",".toList ++ [] ++
        "\x7d);".toList) =
      some (some ⟨quoted "hi".toList, [("k".toList, quoted "v".toList)]⟩, none) ∧
    parseText helloWorld =
      some (some ⟨"'hello \x7b\x7b .foo \x7d\x7d'".toList,
        [("bar".toList, "'foo'".toList)]⟩, none) :=
  C2_parse_single_pair "hi".toList "v".toList "k".toList [] [] [] [] (by decide) (by decide)
    (by decide) (by decide) (by decide) (by decide) (by decide)

/-- C3 (the code against its test): on the statement that `Parse` returns for the
input of `TestHelloWorld`, `Execute` returns the empty string and a nil error,
not the string `hello foo` that the test requires. -/
theorem C3_execute_returns_empty :
    ∃ stmt, parseText helloWorld = some (some stmt, none) ∧ stmt.Execute = ([], none) ∧
      stmt.Execute.1 ≠ "hello foo".toList :=
  ⟨⟨"'hello \x7b\x7b .foo \x7d\x7d'".toList, [("bar".toList, "'foo'".toList)]⟩,
    by decide, rfl, by decide⟩

/-- C4: on a NUL-free input `Parse` returns; it succeeds exactly when the tokens
of the input, `WS` dropped, start with
`FUNCTION OPEN_BRACKET TEMPLATE COMMA OPEN_BRACE (IDENT COLON v COMMA)* (IDENT COLON v)? CLOSE_BRACE CLOSE_BRACKET`
with every `v` a `TEMPLATE` or `NUM_VALUE`; and then `Template` is the literal of
the `TEMPLATE` token and `Vars` is got by assigning, in order, to each `IDENT`
literal the literal of its value. -/
theorem C4_parse_iff_sentence (input : List Char) (h : NulFree input) :
    (∃ res, parseText input = some res) ∧
    ((∃ stmt, parseText input = some (some stmt, none)) ↔
      ∃ fl ol tl cl bl ps last el gl rest, valuesOK ps last ∧
        sigTokens input = sentence fl ol tl cl bl ps last el gl ++ rest) ∧
    (∀ fl ol tl cl bl ps last el gl rest, valuesOK ps last →
      sigTokens input = sentence fl ol tl cl bl ps last el gl ++ rest →
      parseText input = some (some ⟨tl, VarMap.setAll [] (pairsKVs ps last)⟩, none)) := by
  have hg := parseText_grammar input h
  have fwd : ∀ fl ol tl cl bl ps last el gl rest, valuesOK ps last →
      sigTokens input = sentence fl ol tl cl bl ps last el gl ++ rest →
      parseText input = some (some ⟨tl, VarMap.setAll [] (pairsKVs ps last)⟩, none) := by
    intro fl ol tl cl bl ps last el gl rest hv hs
    rw [hg, hs, grammar_sentence fl ol tl cl bl ps last el gl rest hv]
  refine ⟨⟨_, hg⟩, ⟨?_, ?_⟩, fwd⟩
  · rintro ⟨stmt, hs⟩
    rw [hg] at hs
    obtain ⟨fl, ol, tl, cl, bl, ps, last, el, gl, rest, hv, hts, _⟩ :=
      grammar_inv _ stmt (Option.some.inj hs)
    exact ⟨fl, ol, tl, cl, bl, ps, last, el, gl, rest, hv, hts⟩
  · rintro ⟨fl, ol, tl, cl, bl, ps, last, el, gl, rest, hv, hts⟩
    exact ⟨_, fwd fl ol tl cl bl ps last el gl rest hv hts⟩

/-- C4 (witness): the claim on the input of `TestHelloWorld`. -/
theorem C4_witness :
    NulFree helloWorld ∧ (∃ res, parseText helloWorld = some res) ∧
    ((∃ stmt, parseText helloWorld = some (some stmt, none)) ↔
      ∃ fl ol tl cl bl ps last el gl rest, valuesOK ps last ∧
        sigTokens helloWorld = sentence fl ol tl cl bl ps last el gl ++ rest) ∧
    (∀ fl ol tl cl bl ps last el gl rest, valuesOK ps last →
      sigTokens helloWorld = sentence fl ol tl cl bl ps last el gl ++ rest →
      parseText helloWorld = some (some ⟨tl, VarMap.setAll [] (pairsKVs ps last)⟩, none)) :=
  ⟨by decide, C4_parse_iff_sentence helloWorld (by decide)⟩

/-- C5 (counterexample): on `f('x', \x7b a: 'one', a: 'two' \x7d);` `Parse` fails: the
last template `'two'` is not followed by a comma and runs to the end of the
input, so the closing brace is missing. -/
theorem C5_counterexample :
    parseText "f('x', \x7b a: 'one', a: 'two' \x7d);".toList =
      some (none, some ⟨[], "CLOSE_BRACE"⟩) := by
  decide

/-- C5 (amended): duplicate keys are not an error and the last occurrence wins,
the last quoted value being directly followed by a comma: on
`f('x', \x7b a: 'one', a: 'two', \x7d);` `Parse` succeeds and `Vars["a"]` is `'two'`. -/
theorem C5_duplicate_key_last_wins :
    ∃ stmt, parseText "f('x', \x7b a: 'one', a: 'two', \x7d);".toList = some (some stmt, none) ∧
      stmt.Vars.get "a".toList = some "'two'".toList ∧ stmt.Vars.length = 1 :=
  ⟨⟨"'x'".toList, [("a".toList, "'two'".toList)]⟩, by decide, by decide, rfl⟩

theorem blank_space : IsBlank [' '] := by decide

theorem body_x : IsBody "x".toList := by decide

theorem quoted_x : quoted "x".toList = "'x'".toList := by decide

theorem numberPairs_text (ps : List (List Char × List Char)) (hne : ps ≠ []) :
    pairsText false (ps.map numberPair) = ' ' :: numberPairs ps := by
  induction ps with
  | nil => exact absurd rfl hne
  | cons p ps ih =>
    cases ps with
    | nil =>
      simp [pairsText, Pair.text, Value.text, numberPair, numberPairs]
    | cons q qs =>
      have := ih (by simp)
      rw [List.map_cons, pairsText, this]
      simp [Pair.text, Value.text, numberPair, numberPairs]

theorem numberPairs_wf (ps : List (List Char × List Char)) (hk : ∀ p ∈ ps, IsKey p.1)
    (hd : ∀ p ∈ ps, IsDigits p.2) : pairsWellFormed false (ps.map numberPair) := by
  induction ps with
  | nil => trivial
  | cons p ps ih =>
    refine ⟨⟨blank_space, hk p (List.mem_cons_self _ _), isBlank_nil, fun _ => rfl, blank_space,
      isBlank_nil, hd p (List.mem_cons_self _ _)⟩, ?_⟩
    exact ih (fun q hq => hk q (List.mem_cons_of_mem _ hq))
      (fun q hq => hd q (List.mem_cons_of_mem _ hq))

theorem numberPairs_kvs (ps : List (List Char × List Char)) :
    (ps.map numberPair).map (fun p => (p.key, p.val.text)) = ps := by
  induction ps with
  | nil => rfl
  | cons p ps ih =>
    rw [List.map_cons, List.map_cons, ih]
    rfl

/-- C6: for a non-empty list of keys and non-empty digit runs, `Parse` on
`f('x', \x7b k_1: d_1, ..., k_n: d_n \x7d);` succeeds with `Template = 'x'` and
`Vars` sending each key to the digit run of its last occurrence; on
`f('x', \x7b a: 1, b: 2 \x7d);` it yields `Vars = \x7ba: "1", b: "2"\x7d`. -/
theorem C6_parse_number_pairs (ps : List (List Char × List Char)) (hne : ps ≠ [])
    (hk : ∀ p ∈ ps, IsKey p.1) (hd : ∀ p ∈ ps, IsDigits p.2) :
    (∃ stmt, parseText ("f('x', \x7b ".toList ++ numberPairs ps ++ " \x7d);".toList) =
        some (some stmt, none) ∧
      stmt.Template = "'x'".toList ∧ ∀ k, stmt.Vars.get k = lastValue ps k) ∧
    parseText "f('x', \x7b a: 1, b: 2 \x7d);".toList =
      some (some ⟨"'x'".toList, [("a".toList, "1".toList), ("b".toList, "2".toList)]⟩, none) := by
  refine ⟨?_, by decide⟩
  have hwf : (Statement.mk [] "x".toList [' '] (ps.map numberPair) false [' '] []).WellFormed :=
    ⟨isBlank_nil, body_x.content, blank_space, numberPairs_wf ps hk hd, blank_space, isBlank_nil⟩
  have := parseText_statement _ [';'] hwf (by decide)
  simp only [Statement.text, Statement.kvs, numberPairs_text ps hne, numberPairs_kvs] at this
  have e1 : "f('x', \x7b ".toList ++ numberPairs ps ++ " \x7d);".toList =
      ['f', '('] ++ [] ++ quoted "x".toList ++ [','] ++ [' '] ++ ['{'] ++ ' ' :: numberPairs ps ++
        [' '] ++ ['}'] ++ [] ++ [')'] ++ [';'] := by
    have a : "f('x', \x7b ".toList =
        ['f', '('] ++ [] ++ quoted "x".toList ++ [','] ++ [' '] ++ ['{'] ++ [' '] := by decide
    have b : " \x7d);".toList = [' '] ++ ['}'] ++ [] ++ [')'] ++ [';'] := by decide
    rw [a, b]
    simp only [List.append_assoc, List.singleton_append, List.cons_append, List.nil_append]
  rw [e1, this]
  exact ⟨_, rfl, quoted_x, get_setAll_nil ps⟩

/-- C6 (witness): the claim for the pairs `a: 1, b: 2, a: 30`. -/
theorem C6_witness :
    (∃ stmt, parseText ("f('x', \x7b ".toList ++
        numberPairs [("a".toList, "1".toList), ("b".toList, "2".toList),
          ("a".toList, "30".toList)] ++ " \x7d);".toList) = some (some stmt, none) ∧
      stmt.Template = "'x'".toList ∧
      ∀ k, stmt.Vars.get k =
        lastValue [("a".toList, "1".toList), ("b".toList, "2".toList),
          ("a".toList, "30".toList)] k) ∧
    parseText "f('x', \x7b a: 1, b: 2 \x7d);".toList =
      some (some ⟨"'x'".toList, [("a".toList, "1".toList), ("b".toList, "2".toList)]⟩, none) :=
  C6_parse_number_pairs
    [("a".toList, "1".toList), ("b".toList, "2".toList), ("a".toList, "30".toList)]
    (by decide) (by decide) (by decide)

theorem Value.WellFormed.not_last {tr tr1 : Bool} {post : List Char} {v : Value}
    (h : v.WellFormed tr false post) : v.WellFormed tr1 false post := by
  cases v with
  | template b => exact ⟨h.1, h.2.1, fun hf => by cases hf⟩
  | number d => exact h

/-- Without the comma after it, a pair list that ends in a number stays well-formed. -/
theorem pairsWellFormed_drop_comma (ps : List Pair) (hne : ps ≠ [])
    (h : pairsWellFormed true ps) (hlast : ∃ d, (ps.getLast hne).val = .number d) :
    pairsWellFormed false ps := by
  induction ps with
  | nil => exact absurd rfl hne
  | cons p ps ih =>
    obtain ⟨⟨h1, h2, h3, h4, h5, h6, h7⟩, hps⟩ := h
    cases ps with
    | nil =>
      obtain ⟨d, hd⟩ := hlast
      simp only [List.getLast_singleton] at hd
      refine ⟨⟨h1, h2, h3, h4, h5, h6, ?_⟩, trivial⟩
      rw [hd] at h7 ⊢
      exact h7
    | cons q qs =>
      refine ⟨⟨h1, h2, h3, h4, h5, h6, Value.WellFormed.not_last h7⟩, ?_⟩
      refine ih (by simp) hps ?_
      obtain ⟨d, hd⟩ := hlast
      refine ⟨d, ?_⟩
      rw [List.getLast_cons (by simp)] at hd
      exact hd

/-- C7 (counterexample): with the comma after the quoted last value `Parse`
succeeds on `f('x', \x7bb: 'v',\x7d)`; without it, on `f('x', \x7bb: 'v'\x7d)`, it fails. -/
theorem C7_counterexample :
    parseText "f('x', \x7bb: 'v',\x7d)".toList =
        some (some ⟨"'x'".toList, [("b".toList, "'v'".toList)]⟩, none) ∧
      parseText "f('x', \x7bb: 'v'\x7d)".toList = some (none, some ⟨[], "CLOSE_BRACE"⟩) := by
  decide

/-- C7 (amended): the comma after the last pair is optional when the last value
is a digit run: for every well-formed statement with a non-empty pair list that
ends in a digit run, `Parse` succeeds with and without the comma after the last
pair and returns the same `Template` and the same `Vars`. -/
theorem C7_trailing_comma_optional (w1 body w2 : List Char) (pairs : List Pair)
    (w3 w4 : List Char) (hne : pairs ≠ [])
    (h : (Statement.mk w1 body w2 pairs true w3 w4).WellFormed)
    (hlast : ∃ d, (pairs.getLast hne).val = .number d) :
    ∃ stmt, parseText (Statement.mk w1 body w2 pairs true w3 w4).text = some (some stmt, none) ∧
      parseText (Statement.mk w1 body w2 pairs false w3 w4).text = some (some stmt, none) := by
  have h0 : (Statement.mk w1 body w2 pairs false w3 w4).WellFormed :=
    ⟨h.1, h.2.1, h.2.2.1, pairsWellFormed_drop_comma pairs hne h.2.2.2.1 hlast, h.2.2.2.2.1,
      h.2.2.2.2.2⟩
  have a := parseText_statement _ [] h nulFree_nil
  have b := parseText_statement _ [] h0 nulFree_nil
  rw [List.append_nil] at a b
  exact ⟨_, a, b⟩

/-- C7 (witness): the amended claim on `f( 'x', \x7b a: 'one',` newline `b_2 :42 , \x7d )`
and on the same text without the comma after `42`. -/
theorem C7_witness :
    ∃ stmt, parseText (Statement.mk sampleStatement.w1 sampleStatement.body sampleStatement.w2
        sampleStatement.pairs true sampleStatement.w3 sampleStatement.w4).text =
          some (some stmt, none) ∧
      parseText (Statement.mk sampleStatement.w1 sampleStatement.body sampleStatement.w2
        sampleStatement.pairs false sampleStatement.w3 sampleStatement.w4).text =
          some (some stmt, none) :=
  C7_trailing_comma_optional sampleStatement.w1 sampleStatement.body sampleStatement.w2
    sampleStatement.pairs sampleStatement.w3 sampleStatement.w4 (by decide) (by decide)
    ⟨"42".toList, by decide⟩

/-- C8: for a quoted template `T` whose body has no quote and no NUL, `Parse` on
`f(T, \x7b\x7d);` succeeds with `Template = T` and no key in `Vars`; so on `f('x', \x7b\x7d);`. -/
theorem C8_parse_empty_block (b : List Char) (hb : IsBody b) :
    parseText ("f(".toList ++ quoted b ++ ", \x7b\x7d);".toList) =
        some (some ⟨quoted b, []⟩, none) ∧
      parseText "f('x', \x7b\x7d);".toList = some (some ⟨"'x'".toList, []⟩, none) := by
  refine ⟨?_, by decide⟩
  have hwf : (Statement.mk [] b [' '] [] false [] []).WellFormed :=
    ⟨isBlank_nil, hb.content, blank_space, trivial, isBlank_nil, isBlank_nil⟩
  have := parseText_statement _ [';'] hwf (by decide)
  simp only [Statement.text, Statement.kvs, pairsText] at this
  have e : "f(".toList = ['f', '('] := rfl
  have e1 : ", \x7b\x7d);".toList = [',', ' ', '{', '}', ')', ';'] := rfl
  rw [e, e1]
  simpa using this

/-- C8 (witness): the claim for the body `it is`. -/
theorem C8_witness :
    parseText ("f(".toList ++ quoted "it is".toList ++ ", \x7b\x7d);".toList) =
        some (some ⟨quoted "it is".toList, []⟩, none) ∧
      parseText "f('x', \x7b\x7d);".toList = some (some ⟨"'x'".toList, []⟩, none) :=
  C8_parse_empty_block "it is".toList (by decide)

/-- C9 (counterexample): on the input `f(`, a space, a NUL and a space the error
is `found " ", expected TEMPLATE`: the scanner returns two `WS` tokens in a row
(the first one swallows the NUL), so the literal in the message is that of a
`WS` token and not that of the first token that is not whitespace (here `EOF`). -/
theorem C9_counterexample :
    parseText ['f', '(', ' ', eof, ' '] = some (none, some ⟨[' '], "TEMPLATE"⟩) ∧
      tokens ['f', '(', ' ', eof, ' '] =
        [(FUNCTION, ['f']), (OPEN_BRACKET, ['(']), (WS, [' ']), (WS, [' '])] := by
  decide

/-- C9 (amended): `Parse` returns on every input; when it fails the statement is
nil and the error is `found <q>, expected <X>` with `<X>` one of FUNCTION,
OPEN_BRACKET, TEMPLATE, COMMA, OPEN_BRACE, `key IDENT`, COLON, LIT_VALUE,
CLOSE_BRACE, CLOSE_BRACKET; when the error is nil the statement is not nil; and
on a NUL-free input `<q>` is the literal of the first token, `WS` dropped and
`EOF` at the end, that the grammar does not allow at its position, and `<X>` is
the label of that position. -/
theorem C9_parse_error (input : List Char) :
    (∃ res, parseText input = some res) ∧
    (∀ st e, parseText input = some (st, some e) →
      st = none ∧ e.expected ∈ errorLabels ∧
      ∀ q, e.Error q = "found ".toList ++ q e.found ++ ", expected ".toList ++ e.expected.toList) ∧
    (∀ st, parseText input = some (st, none) → st ≠ none) ∧
    (NulFree input → parseText input = some (grammar (sigTokens input)) ∧
      ∀ e, parseText input = some (none, some e) →
        ∃ pre t post st1 stmt1, sigTokens input ++ [(EOF, [])] = pre ++ t :: post ∧
          reach .function ⟨[], []⟩ pre = some (st1, stmt1) ∧ st1.step stmt1 t = .reject ∧
          e.found = t.2 ∧ e.expected = st1.label) := by
  refine ⟨Parse_total input, ?_, ?_, ?_⟩
  · intro st e h
    rcases parseText_shape input _ h with ⟨stmt, hs⟩ | ⟨e1, hs, hl⟩
    · cases hs
    · cases hs
      exact ⟨rfl, hl, fun _ => rfl⟩
  · intro st h
    rcases parseText_shape input _ h with ⟨stmt, hs⟩ | ⟨e1, hs, hl⟩
    · cases hs
      exact fun hn => by cases hn
    · cases hs
  · intro hnf
    have hg := parseText_grammar input hnf
    refine ⟨hg, fun e he => ?_⟩
    rw [hg] at he
    exact run_error _ _ _ e (Option.some.inj he)

/-- C10 (counterexample): on `f('abc`, a NUL, `, \x7b\x7d)` `Parse` succeeds with the
template `'abc`, which does not end with a quote: the NUL ends the template scan. -/
theorem C10_counterexample :
    parseText (['f', '(', quoteCh, 'a', 'b', 'c', eof] ++ ", \x7b\x7d)".toList) =
        some (some ⟨[quoteCh, 'a', 'b', 'c'], []⟩, none) ∧
      [quoteCh, 'a', 'b', 'c'].getLast? ≠ some quoteCh := by
  decide

/-- C10 (amended): if `Parse` succeeds on a NUL-free input, then `Template` has
length at least 2 and begins and ends with a single quote, and every value in
`Vars` is a non-empty string of ASCII digits or a string of length at least 2
that begins and ends with a single quote. -/
theorem C10_parsed_literals (input : List Char) (stmt : FunctionStatement) (h : NulFree input)
    (hp : parseText input = some (some stmt, none)) :
    IsQuoted stmt.Template ∧ ∀ k v, stmt.Vars.get k = some v → IsDigits v ∨ IsQuoted v := by
  rw [parseText_grammar input h] at hp
  have := run_ok (sigTokens input) .function ⟨[], []⟩ stmt (sigTokens_ok input h)
    ⟨fun hf => (by cases hf), fun _ hkv => (by cases hkv)⟩ (Option.some.inj hp)
  exact ⟨this.1, fun k v hv => this.2 (k, v) (get_mem _ _ _ hv)⟩

/-- C10 (witness): the amended claim on the input of `TestHelloWorld`. -/
theorem C10_witness :
    NulFree helloWorld ∧
      parseText helloWorld =
        some (some ⟨"'hello \x7b\x7b .foo \x7d\x7d'".toList,
          [("bar".toList, "'foo'".toList)]⟩, none) ∧
      IsQuoted "'hello \x7b\x7b .foo \x7d\x7d'".toList ∧
      ∀ k v, VarMap.get [("bar".toList, "'foo'".toList)] k = some v → IsDigits v ∨ IsQuoted v :=
  ⟨by decide, by decide,
    C10_parsed_literals helloWorld
      ⟨"'hello \x7b\x7b .foo \x7d\x7d'".toList, [("bar".toList, "'foo'".toList)]⟩
      (by decide) (by decide)⟩

/-- C11: for a body `b` without NUL and without a quote directly followed by a
comma, and any text `r`, `Scan` on `'b',r` returns the `TEMPLATE` token `'b'` and
leaves `,r` unread, so the quotes inside `b` are kept as content; the text
`'it''s',` is scanned as the one `TEMPLATE` token `'it''s'`. -/
theorem C11_scan_template_inner_quotes (b r : List Char) (l : Option Char) (hn : NulFree b)
    (hq : ∀ pre post, b ≠ pre ++ quoteCh :: ',' :: post) :
    Scanner.Scan ⟨quoted b ++ ',' :: r, l⟩ = (TEMPLATE, quoted b, ⟨',' :: r, none⟩) ∧
      Scanner.Scan (NewScanner "'it''s',".toList) =
        (TEMPLATE, "'it''s'".toList, ⟨[','], none⟩) := by
  refine ⟨?_, by decide⟩
  have h0 : quoted b ++ ',' :: r = quoteCh :: (b ++ quoteCh :: ',' :: r) := by
    simp [quoted]
  rw [h0, Scan_cons]
  have hqq : isQuote quoteCh = true := rfl
  simp only [quote_not_whitespace, quote_not_letter, quote_not_digit, hqq, if_true,
    Bool.false_eq_true, if_false, scanTemplateLoop_inner b r [quoteCh] hn hq]
  simp [quoted]

/-- C11 (witness): the claim for the body `it's` and the rest ` \x7b`. -/
theorem C11_witness :
    Scanner.Scan ⟨quoted [ 'i', 't', quoteCh, 's'] ++ ',' :: [' ', '{'], none⟩ =
        (TEMPLATE, quoted ['i', 't', quoteCh, 's'], ⟨',' :: [' ', '{'], none⟩) ∧
      Scanner.Scan (NewScanner "'it''s',".toList) =
        (TEMPLATE, "'it''s'".toList, ⟨[','], none⟩) :=
  C11_scan_template_inner_quotes ['i', 't', quoteCh, 's'] [' ', '{'] none (by decide) (by
    intro pre post e
    have h1 : ['i', 't', quoteCh, 's'].length = (pre ++ quoteCh :: ',' :: post).length := by
      rw [← e]
    rcases pre with _ | ⟨a, _ | ⟨b, _ | ⟨c, _ | ⟨d, pre⟩⟩⟩⟩
    · cases e
    · cases e
    · simp only [List.cons_append, List.nil_append, List.cons.injEq] at e
      exact absurd e.2.2.2.1 (by decide)
    · simp only [List.cons_append, List.nil_append, List.cons.injEq] at e
      exact absurd e.2.2.2.2 (by simp)
    · simp at h1)

/-- C12 (the code against the claim): on `a \x7d` the letter is followed by a space,
which is neither `(` nor `:`; `Scan` returns the `IDENT` literal `a ` with the
space in it, not the longest run `a` of letters, digits and underscores, and it
leaves only `\x7d` unread.  The pushback after the lookahead has no effect, so
`scanIdent` takes the rune after the letter as it is.  When that rune is a
letter, as in `ab \x7d`, the literal is the run `ab`. -/
theorem C12_ident_takes_next_rune :
    Scanner.Scan (NewScanner "a \x7d".toList) = (IDENT, "a ".toList, ⟨"\x7d".toList, none⟩) ∧
      Scanner.Scan (NewScanner "ab \x7d".toList) = (IDENT, "ab".toList, ⟨" \x7d".toList, none⟩) := by
  decide

/-- C13: for a letter `c` and any text `r`, `Scan` on `c(r` returns `(FUNCTION, c)` and
leaves `(r` unread, and `Scan` on `c:r` returns `(IDENT, c)` and leaves `:r` unread;
so every letter directly in front of `(` is taken as the function keyword. -/
theorem C13_scan_letter_lookahead (c : Char) (r : List Char) (l : Option Char)
    (hc : isLetter c = true) :
    Scanner.Scan ⟨c :: '(' :: r, l⟩ = (FUNCTION, [c], ⟨'(' :: r, none⟩) ∧
      Scanner.Scan ⟨c :: ':' :: r, l⟩ = (IDENT, [c], ⟨':' :: r, none⟩) := by
  constructor
  · rw [Scan_cons]
    have h1 : isOpenBracket (peekRune ('(' :: r)) = true := rfl
    simp only [letter_not_whitespace hc, hc, h1, if_true, Bool.false_eq_true, if_false]
  · rw [Scan_cons]
    have h1 : isOpenBracket (peekRune (':' :: r)) = false := rfl
    have h2 : isColon (peekRune (':' :: r)) = true := rfl
    simp only [letter_not_whitespace hc, hc, h1, h2, if_true, Bool.false_eq_true, if_false]

/-- C13 (witness): the claim for the letter `g` and the rest `'x'`. -/
theorem C13_witness :
    Scanner.Scan ⟨'g' :: '(' :: "'x'".toList, none⟩ =
        (FUNCTION, ['g'], ⟨'(' :: "'x'".toList, none⟩) ∧
      Scanner.Scan ⟨'g' :: ':' :: "'x'".toList, none⟩ =
        (IDENT, ['g'], ⟨':' :: "'x'".toList, none⟩) :=
  C13_scan_letter_lookahead 'g' "'x'".toList none (by decide)

/-- C14 (counterexample): the NUL rune is none of the runes that the claim
excludes, and on an input that starts with it `Scan` returns `(EOF, "")`, not
`ILLEGAL`, while the input is not used up. -/
theorem C14_counterexample :
    Scanner.Scan (NewScanner [eof, 'a']) = (EOF, [], ⟨['a'], some eof⟩) ∧
      isWhitespace eof = false ∧ isLetter eof = false ∧ isDigit eof = false ∧
      eof ≠ quoteCh ∧ eof ∉ ['(', ')', '{', '}', ':', ',', ';'] := by
  decide

theorem Scan_EOF_iff (s : Scanner) :
    (s.Scan).1 = EOF ↔ s.r = [] ∨ ∃ r, s.r = eof :: r := by
  obtain ⟨r, l⟩ := s
  cases r with
  | nil => simp [Scan_nil]
  | cons c r =>
    apply Scan_cons_elim (fun x => x.1 = EOF ↔ c :: r = [] ∨ ∃ r1, c :: r = eof :: r1)
    · intro h
      have := whitespace_ne_eof h
      simp [this]
    · intro h _
      simp [letter_ne_eof h]
    · intro h _ _
      simp [letter_ne_eof h]
    · intro h _ _
      simp [letter_ne_eof h]
    · intro h
      simp [digit_ne_eof h]
    · intro h
      subst h
      have : quoteCh ≠ eof := by decide
      simp [this]
    · intro h
      simp [h]
    · intro t ht hc _
      simp [ht.2.1, hc]

theorem Scan_EOF_lit (s : Scanner) (h : (s.Scan).1 = EOF) : (s.Scan).2.1 = [] := by
  rcases (Scan_EOF_iff s).1 h with hr | ⟨r, hr⟩
  · rw [Scan_of_nil s hr]
  · obtain ⟨r0, l⟩ := s
    simp only at hr
    subst hr
    rfl

/-- C14 (amended): for every input whose first rune `c` is not NUL, a space, tab,
newline, letter, digit, single quote or one of `( ) \x7b \x7d : , ;`, `Scan` returns
`(ILLEGAL, c)` and reads exactly `c`; and `Scan` returns `EOF`, with the empty
literal, only when the input is used up or starts with a NUL. -/
theorem C14_scan_illegal (c : Char) (r : List Char) (l : Option Char) (he : c ≠ eof)
    (hw : isWhitespace c = false) (hl : isLetter c = false) (hd : isDigit c = false)
    (hq : c ≠ quoteCh) (hp : c ∉ ['(', ')', '{', '}', ':', ',', ';']) :
    Scanner.Scan ⟨c :: r, l⟩ = (ILLEGAL, [c], ⟨r, some c⟩) ∧
      ∀ s : Scanner, ((s.Scan).1 = EOF ↔ s.r = [] ∨ ∃ r1, s.r = eof :: r1) ∧
        ((s.Scan).1 = EOF → (s.Scan).2.1 = []) := by
  refine ⟨?_, fun s => ⟨Scan_EOF_iff s, Scan_EOF_lit s⟩⟩
  rw [Scan_cons]
  have hq1 : isQuote c = false := by
    cases h : isQuote c
    · rfl
    · exact absurd ((isQuote_iff c).1 h) hq
  simp only [List.mem_cons, List.mem_singleton, List.not_mem_nil, or_false, not_or] at hp
  obtain ⟨p1, p2, p3, p4, p5, p6, p7⟩ := hp
  simp [hw, hl, hd, hq1, he, hq, p1, p2, p3, p4, p5, p6, p7]

/-- C14 (witness): the amended claim for the rune `#` in front of `x`. -/
theorem C14_witness :
    Scanner.Scan ⟨'#' :: ['x'], none⟩ = (ILLEGAL, ['#'], ⟨['x'], some '#'⟩) ∧
      ∀ s : Scanner, ((s.Scan).1 = EOF ↔ s.r = [] ∨ ∃ r1, s.r = eof :: r1) ∧
        ((s.Scan).1 = EOF → (s.Scan).2.1 = []) :=
  C14_scan_illegal '#' ['x'] none (by decide) (by decide) (by decide) (by decide) (by decide)
    (by decide)

/-! ## Neighbours in the token list -/

/-- A relation that holds between two tokens scanned one after the other
holds along the token list. -/
theorem tokens_chain (R : Tok → Tok → Prop)
    (hR : ∀ s : Scanner, NulFree s.r → (s.Scan).1 ≠ EOF → ((s.Scan).2.2.Scan).1 ≠ EOF →
      R ((s.Scan).1, (s.Scan).2.1) (((s.Scan).2.2.Scan).1, ((s.Scan).2.2.Scan).2.1))
    (s : Scanner) (h : NulFree s.r) : List.Chain' R s.tokens := by
  suffices hs : ∀ n (s : Scanner), s.r.length = n → NulFree s.r → List.Chain' R s.tokens from
    hs _ s rfl h
  intro n
  induction n using Nat.strong_induction_on with
  | _ n ih =>
    intro s hn hnf
    rw [tokens_unfold]
    by_cases he : (s.Scan).1 = EOF
    · rw [if_pos he]; exact List.chain'_nil
    · rw [if_neg he]
      have hlt := Scan_length_lt s he
      have hnf1 := Scan_nulFree s hnf
      have ih1 := ih _ (by rw [← hn]; exact hlt) (s.Scan).2.2 rfl hnf1
      rw [tokens_unfold (s.Scan).2.2] at ih1 ⊢
      by_cases he1 : ((s.Scan).2.2.Scan).1 = EOF
      · rw [if_pos he1]; exact List.chain'_singleton _
      · rw [if_neg he1] at ih1 ⊢
        exact List.Chain'.cons (hR s hnf he he1) ih1

theorem scanTemplateLoop_stop (r buf : List Char) (h : NulFree r) :
    (scanTemplateLoop r buf).2.r = [] ∨ ∃ r1, (scanTemplateLoop r buf).2.r = ',' :: r1 := by
  induction r generalizing buf with
  | nil => exact Or.inl rfl
  | cons d r ih =>
    rw [scanTemplateLoop_cons, beq_eof_false h.head]
    simp only [Bool.false_eq_true, if_false]
    by_cases hq : isQuote d = true
    · rw [if_pos hq, peek_eq]
      by_cases hp : (peekRune r != ',') = true
      · rw [if_pos hp]; exact ih _ h.tail
      · rw [if_neg hp]
        right
        cases r with
        | nil =>
          exfalso
          exact hp (by decide)
        | cons c r1 =>
          have : firstByte c = ',' := by simpa [peekRune] using hp
          rw [(firstByte_eq_comma c).1 this]
          exact ⟨r1, rfl⟩
    · rw [if_neg hq]; exact ih _ h.tail

/-- After a `TEMPLATE` token of a NUL-free input comes a comma or the end. -/
theorem Scan_after_TEMPLATE (s : Scanner) (h : NulFree s.r) (ht : (s.Scan).1 = TEMPLATE) :
    ((s.Scan).2.2.Scan).1 = COMMA ∨ ((s.Scan).2.2.Scan).1 = EOF := by
  have key : (s.Scan).2.2.r = [] ∨ ∃ r1, (s.Scan).2.2.r = ',' :: r1 := by
    obtain ⟨r, l⟩ := s
    cases r with
    | nil => exact Or.inl rfl
    | cons c r =>
      revert ht
      apply Scan_cons_elim (fun x => x.1 = TEMPLATE →
        (x.2.2.r = [] ∨ ∃ r1, x.2.2.r = ',' :: r1))
      · intro _ e; cases e
      · intro _ _ e; cases e
      · intro _ _ _ e; cases e
      · intro _ _ _ e; cases e
      · intro _ e; cases e
      · intro _ _; exact scanTemplateLoop_stop r [c] h.tail
      · intro _ e; cases e
      · intro t ht _ _ e; exact absurd e ht.2.2.2.2.2
  generalize (s.Scan).2.2 = s1 at key
  obtain ⟨r1, l1⟩ := s1
  rcases key with hr | ⟨r2, hr⟩
  · simp only at hr
    subst hr
    exact Or.inr rfl
  · simp only at hr
    subst hr
    left
    rw [Scan_last, Scan_comma]

/-- C20: on a NUL-free input the token that `Scan` returns directly after a
`TEMPLATE` token is `COMMA` or `EOF`, so in the token list every `TEMPLATE` token
that is not the last one is followed by a `COMMA`. -/
theorem C20_after_template (s : Scanner) (h : NulFree s.r) :
    ((s.Scan).1 = TEMPLATE →
      ((s.Scan).2.2.Scan).1 = COMMA ∨ ((s.Scan).2.2.Scan).1 = EOF) ∧
    List.Chain' (fun a b : Tok => a.1 = TEMPLATE → b.1 = COMMA) s.tokens := by
  refine ⟨Scan_after_TEMPLATE s h, tokens_chain _ ?_ s h⟩
  intro s1 h1 _ he1 ht
  rcases Scan_after_TEMPLATE s1 h1 ht with hc | hc
  · exact hc
  · exact absurd hc he1

/-- C20 (witness): the claim for the scanner at the start of the input of `TestHelloWorld`. -/
theorem C20_witness :
    NulFree (NewScanner helloWorld).r ∧
    (((NewScanner helloWorld).Scan).1 = TEMPLATE →
      (((NewScanner helloWorld).Scan).2.2.Scan).1 = COMMA ∨
        (((NewScanner helloWorld).Scan).2.2.Scan).1 = EOF) ∧
    List.Chain' (fun a b : Tok => a.1 = TEMPLATE → b.1 = COMMA) (NewScanner helloWorld).tokens :=
  ⟨by decide, C20_after_template (NewScanner helloWorld) (by decide)⟩

/-! ## Literals and the text read -/

theorem scanWhitespaceLoop_text (r buf : List Char) (h : NulFree r) :
    (scanWhitespaceLoop r buf).1 ++ (scanWhitespaceLoop r buf).2.r = buf ++ r := by
  induction r generalizing buf with
  | nil => rfl
  | cons d r ih =>
    rw [scanWhitespaceLoop, beq_eof_false h.head]
    simp only [Bool.false_eq_true, if_false]
    by_cases hw : isWhitespace d = true
    · simp only [hw, Bool.not_true, Bool.false_eq_true, if_false]
      rw [ih _ h.tail]; simp
    · simp [hw]

theorem scanWhitespaceLoop_blank (r buf : List Char) (h : NulFree r) (hb : IsBlank buf) :
    IsBlank (scanWhitespaceLoop r buf).1 := by
  induction r generalizing buf with
  | nil => exact hb
  | cons d r ih =>
    rw [scanWhitespaceLoop, beq_eof_false h.head]
    simp only [Bool.false_eq_true, if_false]
    by_cases hw : isWhitespace d = true
    · simp only [hw, Bool.not_true, Bool.false_eq_true, if_false]
      refine ih _ h.tail ?_
      intro x hx
      rcases List.mem_append.1 hx with hx | hx
      · exact hb x hx
      · rw [List.mem_singleton.1 hx]; exact hw
    · simp only [hw]
      exact hb

theorem scanIdentLoop_text (r buf : List Char) (h : NulFree r) :
    (scanIdentLoop r buf).1 ++ (scanIdentLoop r buf).2.r = buf ++ r := by
  induction r generalizing buf with
  | nil => rfl
  | cons d r ih =>
    rw [scanIdentLoop, beq_eof_false h.head, identChar_stop]
    simp only [Bool.false_eq_true, if_false]
    by_cases hw : isIdentChar d = true
    · simp only [hw, Bool.not_true, Bool.false_eq_true, if_false]
      rw [ih _ h.tail]; simp
    · simp [hw]

theorem scanNumberLoop_text (r buf : List Char) (h : NulFree r) :
    (scanNumberLoop r buf).1 ++ (scanNumberLoop r buf).2.r = buf ++ r := by
  induction r generalizing buf with
  | nil => rfl
  | cons d r ih =>
    rw [scanNumberLoop, beq_eof_false h.head]
    simp only [Bool.false_eq_true, if_false]
    by_cases hw : isDigit d = true
    · simp only [hw, Bool.not_true, Bool.false_eq_true, if_false]
      rw [ih _ h.tail]; simp
    · simp [hw]

theorem scanTemplateLoop_text (r buf : List Char) (h : NulFree r) :
    (scanTemplateLoop r buf).1 ++ (scanTemplateLoop r buf).2.r = buf ++ r := by
  induction r generalizing buf with
  | nil => rfl
  | cons d r ih =>
    have step : (scanTemplateLoop r (buf ++ [d])).1 ++ (scanTemplateLoop r (buf ++ [d])).2.r =
        buf ++ d :: r := by
      rw [ih _ h.tail]; simp
    rw [scanTemplateLoop_cons, beq_eof_false h.head]
    simp only [Bool.false_eq_true, if_false]
    by_cases hq : isQuote d = true
    · rw [if_pos hq, peek_eq]
      split
      · exact step
      · simp
    · rw [if_neg hq]
      exact step

/-- On a NUL-free input the literal of a token is the text that `Scan` has read,
unless the scan starts on a letter that is the last rune of the input. -/
theorem Scan_text (s : Scanner) (h : NulFree s.r) :
    (s.Scan).2.1 ++ (s.Scan).2.2.r = s.r ∨
      ∃ c, s.r = [c] ∧ isLetter c = true ∧ s.Scan = (IDENT, [c, eof], ⟨[], none⟩) := by
  obtain ⟨r, l⟩ := s
  cases r with
  | nil => exact Or.inl rfl
  | cons c r =>
    have hr : NulFree r := h.tail
    apply Scan_cons_elim (fun x => x.2.1 ++ x.2.2.r = c :: r ∨
      ∃ c1, c :: r = [c1] ∧ isLetter c1 = true ∧ x = (IDENT, [c1, eof], ⟨[], none⟩))
    · intro _
      exact Or.inl (scanWhitespaceLoop_text r [c] hr)
    · intro _ _; exact Or.inl rfl
    · intro _ _ _; exact Or.inl rfl
    · intro hl _ _
      cases r with
      | nil => exact Or.inr ⟨c, rfl, hl, rfl⟩
      | cons d r2 =>
        left
        show [c] ++ (scanIdentLoop r2 [d]).1 ++ (scanIdentLoop r2 [d]).2.r = c :: d :: r2
        rw [List.append_assoc, scanIdentLoop_text r2 [d] hr.tail]
        rfl
    · intro _
      exact Or.inl (scanNumberLoop_text r [c] hr)
    · intro _
      exact Or.inl (scanTemplateLoop_text r [c] hr)
    · intro he; exact absurd he h.head
    · intro t _ _ _; exact Or.inl rfl

/-- The literals of the tokens of a NUL-free input that does not end in a letter
make up the input. -/
theorem tokens_text (s : Scanner) (h : NulFree s.r)
    (hl : ∀ pre c, s.r = pre ++ [c] → isLetter c = false) :
    s.tokens.flatMap Prod.snd = s.r := by
  suffices hs : ∀ n (s : Scanner), s.r.length = n → NulFree s.r →
      (∀ pre c, s.r = pre ++ [c] → isLetter c = false) → s.tokens.flatMap Prod.snd = s.r from
    hs _ s rfl h hl
  intro n
  induction n using Nat.strong_induction_on with
  | _ n ih =>
    intro s hn hnf hlast
    rw [tokens_unfold]
    by_cases he : (s.Scan).1 = EOF
    · rw [if_pos he, (Scan_facts s hnf).1 he]; rfl
    · rw [if_neg he]
      have hlt := Scan_length_lt s he
      rcases Scan_text s hnf with ht | ⟨c, hc, hlc, _⟩
      · have ih1 := ih _ (by rw [← hn]; exact hlt) (s.Scan).2.2 rfl (Scan_nulFree s hnf) (by
          intro pre c hpc
          refine hlast ((s.Scan).2.1 ++ pre) c ?_
          rw [← ht, hpc, List.append_assoc])
        rw [List.flatMap_cons, ih1]
        exact ht
      · have := hlast [] c (by rw [hc]; rfl)
        rw [hlc] at this
        cases this

/-- C16 (counterexample): on `1`, NUL, `;` the first call of `Scan` reads the digit
and the NUL and returns the literal `1`; the literals of the tokens make up `1;`,
not the input. -/
theorem C16_counterexample :
    Scanner.Scan (NewScanner ['1', eof, ';']) = (NUM_VALUE, ['1'], ⟨[';'], some eof⟩) ∧
      (tokens ['1', eof, ';']).flatMap Prod.snd = ['1', ';'] := by
  decide

/-- C16 (amended): on a NUL-free input the literal that a call of `Scan` returns
is the text that the call has read, when the call leaves some input unread or
does not start on a letter; so for every NUL-free input that does not end in a
letter the literals of the tokens returned up to the first `EOF` make up the input. -/
theorem C16_literals_are_the_text (input : List Char) (h : NulFree input) :
    (∀ s : Scanner, NulFree s.r →
      ((s.Scan).2.2.r ≠ [] ∨ ∀ c r, s.r = c :: r → isLetter c = false) →
      (s.Scan).2.1 ++ (s.Scan).2.2.r = s.r) ∧
    ((∀ pre c, input = pre ++ [c] → isLetter c = false) →
      (tokens input).flatMap Prod.snd = input) := by
  refine ⟨?_, fun hl => tokens_text (NewScanner input) h hl⟩
  intro s hs hcase
  rcases Scan_text s hs with ht | ⟨c, hc, hlc, hsc⟩
  · exact ht
  · rcases hcase with h1 | h1
    · rw [hsc] at h1
      exact absurd rfl h1
    · have := h1 c [] hc
      rw [hlc] at this
      cases this

/-- C16 (witness): the amended claim on the input of `TestHelloWorld`. -/
theorem C16_witness :
    NulFree helloWorld ∧
    (∀ s : Scanner, NulFree s.r →
      ((s.Scan).2.2.r ≠ [] ∨ ∀ c r, s.r = c :: r → isLetter c = false) →
      (s.Scan).2.1 ++ (s.Scan).2.2.r = s.r) ∧
    ((∀ pre c, helloWorld = pre ++ [c] → isLetter c = false) →
      (tokens helloWorld).flatMap Prod.snd = helloWorld) :=
  ⟨by decide, C16_literals_are_the_text helloWorld (by decide)⟩

/-- The literal of a `WS` token of a NUL-free input is a run of blanks. -/
theorem Scan_WS_blank (s : Scanner) (h : NulFree s.r) (hw : (s.Scan).1 = WS) :
    IsBlank (s.Scan).2.1 := by
  obtain ⟨r, l⟩ := s
  cases r with
  | nil => rw [Scan_nil] at hw; cases hw
  | cons c r =>
    revert hw
    apply Scan_cons_elim (fun x => x.1 = WS → IsBlank x.2.1)
    · intro hc _
      refine scanWhitespaceLoop_blank r [c] h.tail ?_
      intro x hx
      rw [List.mem_singleton.1 hx]; exact hc
    · intro _ _ e; cases e
    · intro _ _ _ e; cases e
    · intro _ _ _ e; cases e
    · intro _ e; cases e
    · intro _ e; cases e
    · intro _ e; cases e
    · intro t ht _ _ e; exact absurd e ht.1

/-- C17 (counterexample): on a space, a NUL and a space `Scan` returns two `WS`
tokens in a row (the first one reads the NUL), and `scanIgnoreWhitespace`
returns the second one. -/
theorem C17_counterexample :
    tokens [' ', eof, ' '] = [(WS, [' ']), (WS, [' '])] ∧
      ((NewParser [' ', eof, ' ']).scanIgnoreWhitespace).1 = (WS, [' ']) := by
  decide

/-- C17 (amended): on a NUL-free input `Scan` never returns two `WS` tokens in
succession: the literal of a `WS` token is the whole run of spaces, tabs and
newlines in front of the rest of the input, which starts with no blank; so
`scanIgnoreWhitespace`, with nothing pushed back, never returns a `WS` token. -/
theorem C17_no_two_WS (s : Scanner) (h : NulFree s.r) :
    ((s.Scan).1 = WS →
      ((s.Scan).2.2.Scan).1 ≠ WS ∧ IsBlank (s.Scan).2.1 ∧
      (s.Scan).2.1 ++ (s.Scan).2.2.r = s.r ∧
      ∀ c r1, (s.Scan).2.2.r = c :: r1 → isWhitespace c = false) ∧
    List.Chain' (fun a b : Tok => ¬(a.1 = WS ∧ b.1 = WS)) s.tokens ∧
    ∀ tok lit, ((Parser.mk s tok lit 0).scanIgnoreWhitespace).1.1 ≠ WS := by
  refine ⟨fun hw => ⟨Scan_after_WS s h hw, Scan_WS_blank s h hw, ?_, (Scan_facts s h).2.1 hw⟩,
    tokens_chain _ ?_ s h, fun tok lit => ?_⟩
  · rcases Scan_text s h with ht | ⟨c, _, _, hsc⟩
    · exact ht
    · rw [hsc] at hw; cases hw
  · intro s1 h1 _ _ hww
    exact Scan_after_WS s1 h1 hww.1 hww.2
  · exact (scanIW_good ⟨s, tok, lit, 0⟩ ⟨h, fun h0 => absurd rfl h0⟩).2.2.2.2.1

/-- C17 (witness): the amended claim for the scanner on two spaces and `\x7d`. -/
theorem C17_witness :
    NulFree (NewScanner [' ', ' ', '}']).r ∧
    (((NewScanner [' ', ' ', '}']).Scan).1 = WS →
      (((NewScanner [' ', ' ', '}']).Scan).2.2.Scan).1 ≠ WS ∧
      IsBlank ((NewScanner [' ', ' ', '}']).Scan).2.1 ∧
      ((NewScanner [' ', ' ', '}']).Scan).2.1 ++ ((NewScanner [' ', ' ', '}']).Scan).2.2.r =
        (NewScanner [' ', ' ', '}']).r ∧
      ∀ c r1, ((NewScanner [' ', ' ', '}']).Scan).2.2.r = c :: r1 → isWhitespace c = false) ∧
    List.Chain' (fun a b : Tok => ¬(a.1 = WS ∧ b.1 = WS)) (NewScanner [' ', ' ', '}']).tokens ∧
    ∀ tok lit, ((Parser.mk (NewScanner [' ', ' ', '}']) tok lit 0).scanIgnoreWhitespace).1.1 ≠ WS :=
  ⟨by decide, C17_no_two_WS (NewScanner [' ', ' ', '}']) (by decide)⟩

/-! ## Progress -/

/-- A call of `Scan` on an input that is not used up reads at least one rune. -/
theorem Scan_progress (s : Scanner) (h : s.r ≠ []) : (s.Scan).2.2.r.length < s.r.length := by
  by_cases he : (s.Scan).1 = EOF
  · rcases (Scan_EOF_iff s).1 he with hr | ⟨r, hr⟩
    · exact absurd hr h
    · obtain ⟨r0, l⟩ := s
      simp only at hr
      subst hr
      show r.length < (eof :: r).length
      simp
  · exact Scan_length_lt s he

/-- At the end of the input, with nothing pushed back, a round of the loop fails. -/
theorem pairRound_at_end (p : Parser) (stmt : FunctionStatement) (hn : p.n = 0)
    (hr : p.s.r = []) : pairRound p stmt = .fail ⟨[], "key IDENT"⟩ := by
  have hx : p.scanIgnoreWhitespace = ((EOF, []), ⟨⟨[], none⟩, EOF, [], p.n⟩) := by
    rw [scanIgnoreWhitespace_eq, scan_zero p hn, Scan_of_nil p.s hr]
    simp
  unfold pairRound
  rw [hx]
  simp

/-- C19: `Parse` returns on every input, and `Scan` is a total function; a call
of `Scan` on an input that is not used up reads at least one rune; a round of
the key/value loop starts with nothing pushed back, so its first token comes
from the scanner, and a round after which the loop goes on has read at least
one rune; at the end of the input the round fails, so the loop does not go on. -/
theorem C19_termination :
    (∀ input, ∃ res, parseText input = some res) ∧
    (∀ s : Scanner, s.r ≠ [] → (s.Scan).2.2.r.length < s.r.length) ∧
    (∀ p : Parser, (p.scanIgnoreWhitespace).2.n = 0) ∧
    (∀ p : Parser, p.n = 0 →
      (p.scan).1 = ((p.s.Scan).1, (p.s.Scan).2.1) ∧ (p.scan).2.s = (p.s.Scan).2.2) ∧
    (∀ p stmt p1 stmt1, p.n = 0 → pairRound p stmt = .next p1 stmt1 →
      p1.n = 0 ∧ p1.s.r.length < p.s.r.length) ∧
    (∀ p stmt, p.n = 0 → p.s.r = [] → ∃ e, pairRound p stmt = .fail e) ∧
    (∀ fuel p stmt, p.n = 0 → p.s.r.length < fuel → ∃ res, pairLoop fuel p stmt = some res) := by
  refine ⟨Parse_total, Scan_progress, scanIW_n, ?_, ?_, ?_, ?_⟩
  · intro p hn
    rw [scan_zero p hn]
    exact ⟨rfl, rfl⟩
  · intro p stmt p1 stmt1 hn h
    exact pairRound_next p stmt p1 stmt1 h hn
  · intro p stmt hn hr
    exact ⟨_, pairRound_at_end p stmt hn hr⟩
  · intro fuel p stmt hn hf
    exact pairLoop_total fuel p stmt hn hf

/-! ## Text after the end of what a scan has read -/

theorem peekRune_append (r t : List Char) (h : r ≠ []) : peekRune (r ++ t) = peekRune r := by
  cases r with
  | nil => exact absurd rfl h
  | cons c r => rfl

theorem scanWhitespaceLoop_eof (d : Char) (r buf : List Char) (he : (d == eof) = true) :
    scanWhitespaceLoop (d :: r) buf = (buf, ⟨r, some d⟩) := by
  rw [scanWhitespaceLoop, if_pos he]

theorem scanWhitespaceLoop_stop (d : Char) (r buf : List Char) (he : (d == eof) = false)
    (hc : isWhitespace d = false) : scanWhitespaceLoop (d :: r) buf = (buf, ⟨d :: r, none⟩) := by
  rw [scanWhitespaceLoop]
  simp [he, hc]

theorem scanWhitespaceLoop_go (d : Char) (r buf : List Char) (he : (d == eof) = false)
    (hc : isWhitespace d = true) : scanWhitespaceLoop (d :: r) buf = scanWhitespaceLoop r (buf ++ [d]) := by
  rw [scanWhitespaceLoop]
  simp [he, hc]

theorem scanWhitespaceLoop_append (r t buf : List Char) (h : (scanWhitespaceLoop r buf).2.r ≠ []) :
    scanWhitespaceLoop (r ++ t) buf =
      ((scanWhitespaceLoop r buf).1, ⟨(scanWhitespaceLoop r buf).2.r ++ t, (scanWhitespaceLoop r buf).2.last⟩) := by
  induction r generalizing buf with
  | nil => exact absurd rfl h
  | cons d r ih =>
    rw [List.cons_append]
    cases he : (d == eof) with
    | true => rw [scanWhitespaceLoop_eof _ _ _ he, scanWhitespaceLoop_eof _ _ _ he]
    | false =>
      cases hc : isWhitespace d with
      | false =>
        rw [scanWhitespaceLoop_stop _ _ _ he hc, scanWhitespaceLoop_stop _ _ _ he hc]
        rfl
      | true =>
        rw [scanWhitespaceLoop_go _ _ _ he hc] at h ⊢
        rw [scanWhitespaceLoop_go _ _ _ he hc]
        exact ih _ h

theorem scanIdentLoop_eof (d : Char) (r buf : List Char) (he : (d == eof) = true) :
    scanIdentLoop (d :: r) buf = (buf, ⟨r, some d⟩) := by
  rw [scanIdentLoop, if_pos he]

theorem scanIdentLoop_stop (d : Char) (r buf : List Char) (he : (d == eof) = false)
    (hc : isIdentChar d = false) : scanIdentLoop (d :: r) buf = (buf, ⟨d :: r, none⟩) := by
  rw [scanIdentLoop]
  simp [he, hc, identChar_stop]

theorem scanIdentLoop_go (d : Char) (r buf : List Char) (he : (d == eof) = false)
    (hc : isIdentChar d = true) : scanIdentLoop (d :: r) buf = scanIdentLoop r (buf ++ [d]) := by
  rw [scanIdentLoop]
  simp [he, hc, identChar_stop]

theorem scanIdentLoop_append (r t buf : List Char) (h : (scanIdentLoop r buf).2.r ≠ []) :
    scanIdentLoop (r ++ t) buf =
      ((scanIdentLoop r buf).1, ⟨(scanIdentLoop r buf).2.r ++ t, (scanIdentLoop r buf).2.last⟩) := by
  induction r generalizing buf with
  | nil => exact absurd rfl h
  | cons d r ih =>
    rw [List.cons_append]
    cases he : (d == eof) with
    | true => rw [scanIdentLoop_eof _ _ _ he, scanIdentLoop_eof _ _ _ he]
    | false =>
      cases hc : isIdentChar d with
      | false =>
        rw [scanIdentLoop_stop _ _ _ he hc, scanIdentLoop_stop _ _ _ he hc]
        rfl
      | true =>
        rw [scanIdentLoop_go _ _ _ he hc] at h ⊢
        rw [scanIdentLoop_go _ _ _ he hc]
        exact ih _ h

theorem scanNumberLoop_eof (d : Char) (r buf : List Char) (he : (d == eof) = true) :
    scanNumberLoop (d :: r) buf = (buf, ⟨r, some d⟩) := by
  rw [scanNumberLoop, if_pos he]

theorem scanNumberLoop_stop (d : Char) (r buf : List Char) (he : (d == eof) = false)
    (hc : isDigit d = false) : scanNumberLoop (d :: r) buf = (buf, ⟨d :: r, none⟩) := by
  rw [scanNumberLoop]
  simp [he, hc]

theorem scanNumberLoop_go (d : Char) (r buf : List Char) (he : (d == eof) = false)
    (hc : isDigit d = true) : scanNumberLoop (d :: r) buf = scanNumberLoop r (buf ++ [d]) := by
  rw [scanNumberLoop]
  simp [he, hc]

theorem scanNumberLoop_append (r t buf : List Char) (h : (scanNumberLoop r buf).2.r ≠ []) :
    scanNumberLoop (r ++ t) buf =
      ((scanNumberLoop r buf).1, ⟨(scanNumberLoop r buf).2.r ++ t, (scanNumberLoop r buf).2.last⟩) := by
  induction r generalizing buf with
  | nil => exact absurd rfl h
  | cons d r ih =>
    rw [List.cons_append]
    cases he : (d == eof) with
    | true => rw [scanNumberLoop_eof _ _ _ he, scanNumberLoop_eof _ _ _ he]
    | false =>
      cases hc : isDigit d with
      | false =>
        rw [scanNumberLoop_stop _ _ _ he hc, scanNumberLoop_stop _ _ _ he hc]
        rfl
      | true =>
        rw [scanNumberLoop_go _ _ _ he hc] at h ⊢
        rw [scanNumberLoop_go _ _ _ he hc]
        exact ih _ h

theorem scanTemplateLoop_append (r t buf : List Char)
    (h : (scanTemplateLoop r buf).2.r ≠ []) :
    scanTemplateLoop (r ++ t) buf =
      ((scanTemplateLoop r buf).1,
        ⟨(scanTemplateLoop r buf).2.r ++ t, (scanTemplateLoop r buf).2.last⟩) := by
  induction r generalizing buf with
  | nil => exact absurd rfl h
  | cons d r ih =>
    rw [List.cons_append]
    rw [scanTemplateLoop_cons] at h ⊢
    rw [scanTemplateLoop_cons d r]
    cases he : (d == eof) with
    | true => simp only [if_true]
    | false =>
      rw [he] at h
      simp only [Bool.false_eq_true, if_false] at h ⊢
      cases hq : isQuote d with
      | true =>
        rw [hq] at h
        simp only [if_true, peek_eq] at h ⊢
        cases r with
        | nil =>
          exfalso
          have hp : (peekRune [] != ',') = true := by decide
          rw [if_pos hp] at h
          exact h rfl
        | cons c r1 =>
          rw [peekRune_append (c :: r1) t (by simp)]
          cases hp : (peekRune (c :: r1) != ',') with
          | true =>
            rw [hp] at h
            simp only [if_true] at h ⊢
            exact ih _ h
          | false =>
            simp only [Bool.false_eq_true, if_false]
      | false =>
        rw [hq] at h
        simp only [Bool.false_eq_true, if_false] at h ⊢
        exact ih _ h

theorem identTail_append (r t : List Char) (h : (identTail r).2.r ≠ []) :
    identTail (r ++ t) = ((identTail r).1, ⟨(identTail r).2.r ++ t, (identTail r).2.last⟩) := by
  cases r with
  | nil => exact absurd rfl h
  | cons d r => exact scanIdentLoop_append r t [d] h

theorem peekRune_nil_lookahead : isOpenBracket (peekRune []) = false ∧ isColon (peekRune []) = false := by
  decide

/-- A scan that leaves some input unread, or returns `CLOSE_BRACKET`, does not
depend on the text after that input. -/
theorem Scan_append (r t : List Char) (l : Option Char)
    (h : (Scanner.Scan ⟨r, l⟩).2.2.r ≠ [] ∨ (Scanner.Scan ⟨r, l⟩).1 = CLOSE_BRACKET) :
    Scanner.Scan ⟨r ++ t, l⟩ =
      ((Scanner.Scan ⟨r, l⟩).1, (Scanner.Scan ⟨r, l⟩).2.1,
        ⟨(Scanner.Scan ⟨r, l⟩).2.2.r ++ t, (Scanner.Scan ⟨r, l⟩).2.2.last⟩) := by
  cases r with
  | nil =>
    rcases h with h | h
    · exact absurd rfl h
    · cases h
  | cons c r =>
    rw [Scan_cons] at h
    rw [List.cons_append, Scan_cons, Scan_cons c r l]
    by_cases hw : isWhitespace c = true
    · rw [if_pos hw] at h
      rw [if_pos hw, if_pos hw]
      have h1 : (scanWhitespaceLoop r [c]).2.r ≠ [] := by
        rcases h with h | h
        · exact h
        · cases h
      rw [scanWhitespaceLoop_append r t [c] h1]
    rw [if_neg hw] at h
    rw [if_neg hw, if_neg hw]
    by_cases hl : isLetter c = true
    · rw [if_pos hl] at h
      rw [if_pos hl, if_pos hl]
      cases r with
      | nil =>
        exfalso
        have e1 : ¬ isOpenBracket (peekRune []) = true := by decide
        have e2 : ¬ isColon (peekRune []) = true := by decide
        rw [if_neg e1, if_neg e2] at h
        rcases h with h | h
        · exact h rfl
        · cases h
      | cons d r1 =>
        rw [peekRune_append (d :: r1) t (by simp)]
        by_cases h1 : isOpenBracket (peekRune (d :: r1)) = true
        · rw [if_pos h1, if_pos h1]
        rw [if_neg h1] at h
        rw [if_neg h1, if_neg h1]
        by_cases h2 : isColon (peekRune (d :: r1)) = true
        · rw [if_pos h2, if_pos h2]
        rw [if_neg h2] at h
        rw [if_neg h2, if_neg h2]
        have h3 : (identTail (d :: r1)).2.r ≠ [] := by
          rcases h with h | h
          · exact h
          · cases h
        rw [identTail_append (d :: r1) t h3]
    rw [if_neg hl] at h
    rw [if_neg hl, if_neg hl]
    by_cases hd : isDigit c = true
    · rw [if_pos hd] at h
      rw [if_pos hd, if_pos hd]
      have h1 : (scanNumberLoop r [c]).2.r ≠ [] := by
        rcases h with h | h
        · exact h
        · cases h
      rw [scanNumberLoop_append r t [c] h1]
    rw [if_neg hd] at h
    rw [if_neg hd, if_neg hd]
    by_cases hq : isQuote c = true
    · rw [if_pos hq] at h
      rw [if_pos hq, if_pos hq]
      have h1 : (scanTemplateLoop r [c]).2.r ≠ [] := by
        rcases h with h | h
        · exact h
        · cases h
      rw [scanTemplateLoop_append r t [c] h1]
    rw [if_neg hq, if_neg hq]
    by_cases k0 : (c == eof) = true
    · rw [if_pos k0, if_pos k0]
    rw [if_neg k0, if_neg k0]
    by_cases k1 : (c == '(') = true
    · rw [if_pos k1, if_pos k1]
    rw [if_neg k1, if_neg k1]
    by_cases k2 : (c == ')') = true
    · rw [if_pos k2, if_pos k2]
    rw [if_neg k2, if_neg k2]
    by_cases k3 : (c == '{') = true
    · rw [if_pos k3, if_pos k3]
    rw [if_neg k3, if_neg k3]
    by_cases k4 : (c == '}') = true
    · rw [if_pos k4, if_pos k4]
    rw [if_neg k4, if_neg k4]
    by_cases k5 : (c == quoteCh) = true
    · rw [if_pos k5, if_pos k5]
    rw [if_neg k5, if_neg k5]
    by_cases k6 : (c == ':') = true
    · rw [if_pos k6, if_pos k6]
    rw [if_neg k6, if_neg k6]
    by_cases k7 : (c == ',') = true
    · rw [if_pos k7, if_pos k7]
    rw [if_neg k7, if_neg k7]
    by_cases k8 : (c == ';') = true
    · rw [if_pos k8, if_pos k8]
    rw [if_neg k8, if_neg k8]

/-! ## Text after the end of what `Parse` has read -/

theorem ext_unscan (p : Parser) (t : List Char) : (p.ext t).unscan = (p.unscan).ext t := rfl

theorem scan_ext (p : Parser) (t : List Char)
    (h : p.n ≠ 0 ∨ (p.scan).2.s.r ≠ [] ∨ (p.scan).1.1 = CLOSE_BRACKET) :
    (p.ext t).scan = ((p.scan).1, (p.scan).2.ext t) := by
  by_cases hn : p.n = 0
  · have hn1 : (p.ext t).n = 0 := hn
    have h1 : (p.scan).2.s.r ≠ [] ∨ (p.scan).1.1 = CLOSE_BRACKET := by
      rcases h with h | h
      · exact absurd hn h
      · exact h
    rw [scan_zero p hn] at h1 ⊢
    rw [scan_zero _ hn1]
    have hs : (p.ext t).s = ⟨p.s.r ++ t, p.s.last⟩ := rfl
    have hp : p.s = ⟨p.s.r, p.s.last⟩ := rfl
    rw [hp] at h1
    rw [hs, Scan_append p.s.r t p.s.last h1]
    rfl
  · have hn1 : (p.ext t).n ≠ 0 := hn
    rw [scan_pushed p hn, scan_pushed _ hn1]
    rfl

theorem scanIW_ext (p : Parser) (t : List Char)
    (h : (p.n ≠ 0 ∧ p.tok ≠ WS) ∨ (p.scanIgnoreWhitespace).2.s.r ≠ [] ∨
      (p.scanIgnoreWhitespace).1.1 = CLOSE_BRACKET) :
    (p.ext t).scanIgnoreWhitespace =
      ((p.scanIgnoreWhitespace).1, (p.scanIgnoreWhitespace).2.ext t) := by
  rw [scanIgnoreWhitespace_eq] at h ⊢
  rw [scanIgnoreWhitespace_eq p]
  by_cases hw : (p.scan).1.1 = WS
  · rw [if_pos hw] at h ⊢
    -- the first call returns `WS`: it is a call of `Scan`, or the token pushed back
    have h2 : (p.scan).2.scan.2.s.r ≠ [] ∨ (p.scan).2.scan.1.1 = CLOSE_BRACKET := by
      rcases h with ⟨hn, ht⟩ | h
      · rw [scan_pushed p hn] at hw
        exact absurd hw ht
      · exact h
    have h2' : (p.scan).2.s.r ≠ [] := by
      have hle := scan_length_le (p.scan).2
      rcases h2 with h2 | h2
      · intro e
        rw [e] at hle
        exact h2 (List.length_eq_zero.1 (Nat.le_zero.1 hle))
      · intro e
        rw [scan_zero _ (scan_n p), Scan_of_nil _ e] at h2
        cases h2
    have e1 := scan_ext p t (by
      by_cases hn : p.n = 0
      · exact Or.inr (Or.inl h2')
      · exact Or.inl hn)
    rw [e1]
    simp only [hw, if_true]
    exact scan_ext _ t (Or.inr h2)
  · rw [if_neg hw] at h ⊢
    have e1 := scan_ext p t (by
      rcases h with ⟨hn, _⟩ | h
      · exact Or.inl hn
      · exact Or.inr h)
    rw [e1]
    simp only [hw, if_false]

/-- Before a token other than `EOF` is read from the scanner the input is not used up. -/
theorem scanIW_live (p : Parser) (hn : p.n = 0) (h : (p.scanIgnoreWhitespace).1.1 ≠ EOF) :
    p.s.r ≠ [] := by
  intro e
  have hx : p.scanIgnoreWhitespace = ((EOF, []), ⟨⟨[], none⟩, EOF, [], p.n⟩) := by
    rw [scanIgnoreWhitespace_eq, scan_zero p hn, Scan_of_nil p.s e]
    simp
  rw [hx] at h
  exact h rfl

theorem scanIW_live_before (p : Parser) (h : (p.scanIgnoreWhitespace).2.s.r ≠ []) :
    p.s.r ≠ [] := by
  intro e
  have := scanIW_length_le p
  rw [e] at this
  exact h (List.length_eq_zero.1 (Nat.le_zero.1 this))

/-- The body of the loop of `Parse`, written with the results of its calls. -/
theorem pairRound_eq (p : Parser) (stmt : FunctionStatement) :
    pairRound p stmt =
      if (p.scanIgnoreWhitespace).1.1 = CLOSE_BRACE then
        .brk (p.scanIgnoreWhitespace).2.unscan stmt
      else if (p.scanIgnoreWhitespace).1.1 ≠ IDENT then
        .fail ⟨(p.scanIgnoreWhitespace).1.2, "key IDENT"⟩
      else if ((p.scanIgnoreWhitespace).2.scanIgnoreWhitespace).1.1 ≠ COLON then
        .fail ⟨((p.scanIgnoreWhitespace).2.scanIgnoreWhitespace).1.2, "COLON"⟩
      else if (((p.scanIgnoreWhitespace).2.scanIgnoreWhitespace).2.scanIgnoreWhitespace).1.1
            ≠ TEMPLATE ∧
          (((p.scanIgnoreWhitespace).2.scanIgnoreWhitespace).2.scanIgnoreWhitespace).1.1
            ≠ NUM_VALUE then
        .fail ⟨(((p.scanIgnoreWhitespace).2.scanIgnoreWhitespace).2.scanIgnoreWhitespace).1.2,
          "LIT_VALUE"⟩
      else if ((((p.scanIgnoreWhitespace).2.scanIgnoreWhitespace).2.scanIgnoreWhitespace).2.scanIgnoreWhitespace).1.1
          ≠ COMMA then
        .brk ((((p.scanIgnoreWhitespace).2.scanIgnoreWhitespace).2.scanIgnoreWhitespace).2.scanIgnoreWhitespace).2.unscan
          ⟨stmt.Template, VarMap.set stmt.Vars (p.scanIgnoreWhitespace).1.2
            (((p.scanIgnoreWhitespace).2.scanIgnoreWhitespace).2.scanIgnoreWhitespace).1.2⟩
      else
        .next ((((p.scanIgnoreWhitespace).2.scanIgnoreWhitespace).2.scanIgnoreWhitespace).2.scanIgnoreWhitespace).2
          ⟨stmt.Template, VarMap.set stmt.Vars (p.scanIgnoreWhitespace).1.2
            (((p.scanIgnoreWhitespace).2.scanIgnoreWhitespace).2.scanIgnoreWhitespace).1.2⟩ := by
  unfold pairRound
  generalize p.scanIgnoreWhitespace = x1
  obtain ⟨⟨t1, l1⟩, p1⟩ := x1
  dsimp only

theorem unscan_s (p : Parser) : p.unscan.s = p.s := rfl

theorem ext_live (p : Parser) (t : List Char) : (p.ext t).s.r = p.s.r ++ t := rfl

/-- A round of the loop that leaves input unread does not depend on the text
after that input. -/
theorem pairRound_ext (p : Parser) (t : List Char) (stmt : FunctionStatement) (q : Parser)
    (s : FunctionStatement) (hq : q.s.r ≠ []) :
    (pairRound p stmt = .next q s → pairRound (p.ext t) stmt = .next (q.ext t) s) ∧
    (pairRound p stmt = .brk q s → pairRound (p.ext t) stmt = .brk (q.ext t) s) := by
  rw [pairRound_eq p stmt, pairRound_eq (p.ext t) stmt]
  by_cases c1 : (p.scanIgnoreWhitespace).1.1 = CLOSE_BRACE
  · rw [if_pos c1]
    refine ⟨fun h => False.elim (Round.noConfusion h), fun h => ?_⟩
    obtain ⟨h1, h2⟩ := Round.brk.inj h
    have l1 : (p.scanIgnoreWhitespace).2.s.r ≠ [] := by rw [← h1, unscan_s] at hq; exact hq
    rw [scanIW_ext p t (Or.inr (Or.inl l1))]
    dsimp only
    rw [if_pos c1, ext_unscan, h1, h2]
  rw [if_neg c1]
  by_cases c2 : (p.scanIgnoreWhitespace).1.1 ≠ IDENT
  · rw [if_pos c2]
    exact ⟨fun h => False.elim (Round.noConfusion h), fun h => False.elim (Round.noConfusion h)⟩
  rw [if_neg c2]
  by_cases c3 : ((p.scanIgnoreWhitespace).2.scanIgnoreWhitespace).1.1 ≠ COLON
  · rw [if_pos c3]
    exact ⟨fun h => False.elim (Round.noConfusion h), fun h => False.elim (Round.noConfusion h)⟩
  rw [if_neg c3]
  by_cases c4 :
      (((p.scanIgnoreWhitespace).2.scanIgnoreWhitespace).2.scanIgnoreWhitespace).1.1 ≠ TEMPLATE ∧
      (((p.scanIgnoreWhitespace).2.scanIgnoreWhitespace).2.scanIgnoreWhitespace).1.1 ≠ NUM_VALUE
  · rw [if_pos c4]
    exact ⟨fun h => False.elim (Round.noConfusion h), fun h => False.elim (Round.noConfusion h)⟩
  rw [if_neg c4]
  have key : ((((p.scanIgnoreWhitespace).2.scanIgnoreWhitespace).2.scanIgnoreWhitespace).2.scanIgnoreWhitespace).2.s.r ≠ [] →
      (p.ext t).scanIgnoreWhitespace = ((p.scanIgnoreWhitespace).1, (p.scanIgnoreWhitespace).2.ext t) ∧
      ((p.scanIgnoreWhitespace).2.ext t).scanIgnoreWhitespace =
        (((p.scanIgnoreWhitespace).2.scanIgnoreWhitespace).1,
          ((p.scanIgnoreWhitespace).2.scanIgnoreWhitespace).2.ext t) ∧
      (((p.scanIgnoreWhitespace).2.scanIgnoreWhitespace).2.ext t).scanIgnoreWhitespace =
        ((((p.scanIgnoreWhitespace).2.scanIgnoreWhitespace).2.scanIgnoreWhitespace).1,
          (((p.scanIgnoreWhitespace).2.scanIgnoreWhitespace).2.scanIgnoreWhitespace).2.ext t) ∧
      ((((p.scanIgnoreWhitespace).2.scanIgnoreWhitespace).2.scanIgnoreWhitespace).2.ext t).scanIgnoreWhitespace =
        (((((p.scanIgnoreWhitespace).2.scanIgnoreWhitespace).2.scanIgnoreWhitespace).2.scanIgnoreWhitespace).1,
          ((((p.scanIgnoreWhitespace).2.scanIgnoreWhitespace).2.scanIgnoreWhitespace).2.scanIgnoreWhitespace).2.ext t) := by
    intro l4
    have l3 := scanIW_live_before _ l4
    have l2 := scanIW_live_before _ l3
    have l1 := scanIW_live_before _ l2
    exact ⟨scanIW_ext _ t (Or.inr (Or.inl l1)), scanIW_ext _ t (Or.inr (Or.inl l2)),
      scanIW_ext _ t (Or.inr (Or.inl l3)), scanIW_ext _ t (Or.inr (Or.inl l4))⟩
  by_cases c5 : ((((p.scanIgnoreWhitespace).2.scanIgnoreWhitespace).2.scanIgnoreWhitespace).2.scanIgnoreWhitespace).1.1 ≠ COMMA
  · rw [if_pos c5]
    refine ⟨fun h => False.elim (Round.noConfusion h), fun h => ?_⟩
    obtain ⟨h1, h2⟩ := Round.brk.inj h
    obtain ⟨e1, e2, e3, e4⟩ := key (by rw [← h1, unscan_s] at hq; exact hq)
    rw [e1]
    dsimp only
    rw [e2]
    dsimp only
    rw [e3]
    dsimp only
    rw [e4]
    dsimp only
    rw [if_neg c1, if_neg c2, if_neg c3, if_neg c4, if_pos c5, ext_unscan, h1, h2]
  · rw [if_neg c5]
    refine ⟨fun h => ?_, fun h => False.elim (Round.noConfusion h)⟩
    obtain ⟨h1, h2⟩ := Round.next.inj h
    obtain ⟨e1, e2, e3, e4⟩ := key (by rw [← h1] at hq; exact hq)
    rw [e1]
    dsimp only
    rw [e2]
    dsimp only
    rw [e3]
    dsimp only
    rw [e4]
    dsimp only
    rw [if_neg c1, if_neg c2, if_neg c3, if_neg c4, if_neg c5, h1, h2]

theorem pairRound_length (p : Parser) (stmt : FunctionStatement) (q : Parser)
    (s : FunctionStatement) (h : pairRound p stmt = .next q s ∨ pairRound p stmt = .brk q s) :
    q.s.r.length ≤ p.s.r.length := by
  have a1 := scanIW_length_le p
  have a2 := scanIW_length_le (p.scanIgnoreWhitespace).2
  have a3 := scanIW_length_le ((p.scanIgnoreWhitespace).2.scanIgnoreWhitespace).2
  have a4 := scanIW_length_le
    (((p.scanIgnoreWhitespace).2.scanIgnoreWhitespace).2.scanIgnoreWhitespace).2
  rw [pairRound_eq p stmt] at h
  by_cases c1 : (p.scanIgnoreWhitespace).1.1 = CLOSE_BRACE
  · rw [if_pos c1] at h
    rcases h with h | h
    · exact False.elim (Round.noConfusion h)
    · obtain ⟨h1, _⟩ := Round.brk.inj h
      rw [← h1, unscan_s]
      exact a1
  rw [if_neg c1] at h
  by_cases c2 : (p.scanIgnoreWhitespace).1.1 ≠ IDENT
  · rw [if_pos c2] at h
    rcases h with h | h <;> exact False.elim (Round.noConfusion h)
  rw [if_neg c2] at h
  by_cases c3 : ((p.scanIgnoreWhitespace).2.scanIgnoreWhitespace).1.1 ≠ COLON
  · rw [if_pos c3] at h
    rcases h with h | h <;> exact False.elim (Round.noConfusion h)
  rw [if_neg c3] at h
  by_cases c4 :
      (((p.scanIgnoreWhitespace).2.scanIgnoreWhitespace).2.scanIgnoreWhitespace).1.1 ≠ TEMPLATE ∧
      (((p.scanIgnoreWhitespace).2.scanIgnoreWhitespace).2.scanIgnoreWhitespace).1.1 ≠ NUM_VALUE
  · rw [if_pos c4] at h
    rcases h with h | h <;> exact False.elim (Round.noConfusion h)
  rw [if_neg c4] at h
  by_cases c5 : ((((p.scanIgnoreWhitespace).2.scanIgnoreWhitespace).2.scanIgnoreWhitespace).2.scanIgnoreWhitespace).1.1 ≠ COMMA
  · rw [if_pos c5] at h
    rcases h with h | h
    · exact False.elim (Round.noConfusion h)
    · obtain ⟨h1, _⟩ := Round.brk.inj h
      rw [← h1, unscan_s]
      exact le_trans a4 (le_trans a3 (le_trans a2 a1))
  · rw [if_neg c5] at h
    rcases h with h | h
    · obtain ⟨h1, _⟩ := Round.next.inj h
      rw [← h1]
      exact le_trans a4 (le_trans a3 (le_trans a2 a1))
    · exact False.elim (Round.noConfusion h)

theorem live_of_length (a b : List Char) (h : a.length ≤ b.length) (ha : a ≠ []) : b ≠ [] := by
  intro e
  rw [e] at h
  exact ha (List.length_eq_zero.1 (Nat.le_zero.1 h))

/-- A run of the loop that leaves input unread does not depend on the text
after that input, and more fuel does not change it. -/
theorem pairLoop_ext (fuel k : Nat) (p : Parser) (t : List Char) (stmt : FunctionStatement)
    (q : Parser) (s : FunctionStatement) (hq : q.s.r ≠ [])
    (h : pairLoop fuel p stmt = some (.brk q s)) :
    pairLoop (fuel + k) (p.ext t) stmt = some (.brk (q.ext t) s) ∧ p.s.r ≠ [] := by
  induction fuel generalizing p stmt with
  | zero => cases h
  | succ fuel ih =>
    rw [Nat.add_right_comm fuel 1 k]
    cases hrd : pairRound p stmt with
    | fail e =>
      rw [pairLoop_fail _ _ _ _ hrd] at h
      cases h
    | brk p1 s1 =>
      rw [pairLoop_brk _ _ _ _ _ hrd] at h
      have e : p1 = q ∧ s1 = s := by
        have := Option.some.inj h
        exact LoopExit.brk.inj this
      rw [e.1, e.2] at hrd
      exact ⟨pairLoop_brk _ _ _ _ _ ((pairRound_ext p t stmt q s hq).2 hrd),
        live_of_length _ _ (pairRound_length p stmt q s (Or.inr hrd)) hq⟩
    | next p1 s1 =>
      rw [pairLoop_next _ _ _ _ _ hrd] at h
      obtain ⟨h1, h2⟩ := ih p1 s1 h
      refine ⟨?_, live_of_length _ _ (pairRound_length p stmt p1 s1 (Or.inl hrd)) h2⟩
      rw [pairLoop_next _ _ _ _ _ ((pairRound_ext p t stmt p1 s1 h2).1 hrd)]
      exact h1

/-- The end of `Parse` after its loop, when it succeeds, does not depend on the
text after the closing bracket. -/
theorem closeTail_ext (q : Parser) (t : List Char) (s stmt : FunctionStatement)
    (h : closeTail q s = (some stmt, none)) :
    closeTail (q.ext t) s = (some stmt, none) ∧ q.s.r ≠ [] := by
  unfold closeTail at h ⊢
  by_cases c1 : (q.scanIgnoreWhitespace).1.1 ≠ CLOSE_BRACE
  · rw [if_pos c1] at h
    cases h
  rw [if_neg c1] at h
  by_cases c2 : ((q.scanIgnoreWhitespace).2.scanIgnoreWhitespace).1.1 ≠ CLOSE_BRACKET
  · rw [if_pos c2] at h
    cases h
  rw [if_neg c2] at h
  have hcb : ((q.scanIgnoreWhitespace).2.scanIgnoreWhitespace).1.1 = CLOSE_BRACKET :=
    not_not.1 c2
  have l1 : (q.scanIgnoreWhitespace).2.s.r ≠ [] :=
    scanIW_live _ (scanIW_n q) (by rw [hcb]; decide)
  have l0 : q.s.r ≠ [] := scanIW_live_before q l1
  refine ⟨?_, l0⟩
  rw [scanIW_ext q t (Or.inr (Or.inl l1))]
  dsimp only
  rw [scanIW_ext _ t (Or.inr (Or.inr hcb))]
  dsimp only
  rw [if_neg c1, if_neg c2]
  exact h

theorem loopTail_ext (fuel k : Nat) (p : Parser) (t : List Char) (s stmt : FunctionStatement)
    (h : loopTail fuel p s = some (some stmt, none)) :
    loopTail (fuel + k) (p.ext t) s = some (some stmt, none) ∧ p.s.r ≠ [] := by
  unfold loopTail at h ⊢
  cases hl : pairLoop fuel p s with
  | none =>
    rw [hl] at h
    cases h
  | some x =>
    cases x with
    | fail e =>
      rw [hl] at h
      cases h
    | brk q s1 =>
      rw [hl] at h
      have hc : closeTail q s1 = (some stmt, none) := Option.some.inj h
      obtain ⟨c1, c2⟩ := closeTail_ext q t s1 stmt hc
      obtain ⟨e1, e2⟩ := pairLoop_ext fuel k p t s q s1 c2 hl
      rw [e1]
      exact ⟨congrArg some c1, e2⟩

/-- A successful `Parse` does not depend on the text after the closing bracket,
nor on extra fuel. -/
theorem ParseFuel_ext (fuel k : Nat) (p : Parser) (t : List Char) (stmt : FunctionStatement)
    (h : p.ParseFuel fuel = some (some stmt, none)) :
    (p.ext t).ParseFuel (fuel + k) = some (some stmt, none) := by
  rw [ParseFuel_eq] at h ⊢
  by_cases c1 : (p.scanIgnoreWhitespace).1.1 ≠ FUNCTION
  · rw [if_pos c1] at h
    cases h
  rw [if_neg c1] at h
  by_cases c2 : ((p.scanIgnoreWhitespace).2.scanIgnoreWhitespace).1.1 ≠ OPEN_BRACKET
  · rw [if_pos c2] at h
    cases h
  rw [if_neg c2] at h
  by_cases c3 :
      (((p.scanIgnoreWhitespace).2.scanIgnoreWhitespace).2.scanIgnoreWhitespace).1.1 ≠ TEMPLATE
  · rw [if_pos c3] at h
    cases h
  rw [if_neg c3] at h
  by_cases c4 : ((((p.scanIgnoreWhitespace).2.scanIgnoreWhitespace).2.scanIgnoreWhitespace).2.scanIgnoreWhitespace).1.1 ≠ COMMA
  · rw [if_pos c4] at h
    cases h
  rw [if_neg c4] at h
  by_cases c5 : (((((p.scanIgnoreWhitespace).2.scanIgnoreWhitespace).2.scanIgnoreWhitespace).2.scanIgnoreWhitespace).2.scanIgnoreWhitespace).1.1 ≠ OPEN_BRACE
  · rw [if_pos c5] at h
    cases h
  rw [if_neg c5] at h
  obtain ⟨e, l5⟩ := loopTail_ext fuel k _ t _ stmt h
  have l4 := scanIW_live_before _ l5
  have l3 := scanIW_live_before _ l4
  have l2 := scanIW_live_before _ l3
  have l1 := scanIW_live_before _ l2
  rw [scanIW_ext p t (Or.inr (Or.inl l1))]
  dsimp only
  rw [scanIW_ext _ t (Or.inr (Or.inl l2))]
  dsimp only
  rw [scanIW_ext _ t (Or.inr (Or.inl l3))]
  dsimp only
  rw [scanIW_ext _ t (Or.inr (Or.inl l4))]
  dsimp only
  rw [scanIW_ext _ t (Or.inr (Or.inl l5))]
  dsimp only
  rw [if_neg c1, if_neg c2, if_neg c3, if_neg c4, if_neg c5]
  exact e

theorem NewParser_ext (p t : List Char) : NewParser (p ++ t) = (NewParser p).ext t := rfl

/-- C15: the result of a successful `Parse` depends only on the input up to the
closing bracket: when `Parse` succeeds on the text `p` with the statement
`stmt`, it succeeds on `p` followed by any text `t` with the same statement,
that is the same `Template` and the same `Vars`; so a statement parses the same
with and without a `;` after it. -/
theorem C15_parse_ignores_the_rest (p t : List Char) (stmt : FunctionStatement)
    (h : parseText p = some (some stmt, none)) :
    parseText (p ++ t) = some (some stmt, none) ∧
      parseText (p ++ [';']) = parseText p := by
  have key : ∀ u : List Char, parseText (p ++ u) = some (some stmt, none) := by
    intro u
    unfold parseText Parser.Parse at h ⊢
    rw [NewParser_ext]
    have hl : ((NewParser p).ext u).s.r.length + 1 = ((NewParser p).s.r.length + 1) + u.length := by
      rw [ext_live, List.length_append]
      omega
    rw [hl]
    exact ParseFuel_ext _ _ _ u stmt h
  exact ⟨key t, by rw [key [';'], h]⟩

theorem C15_witness :
    parseText "f('x',\x7b a:1\x7d)".toList = some (some ⟨"'x'".toList, [("a".toList, "1".toList)]⟩, none) ∧
    (parseText ("f('x',\x7b a:1\x7d)".toList ++ ");;x".toList) =
        some (some ⟨"'x'".toList, [("a".toList, "1".toList)]⟩, none) ∧
      parseText ("f('x',\x7b a:1\x7d)".toList ++ [';']) = parseText "f('x',\x7b a:1\x7d)".toList) :=
  ⟨by decide, C15_parse_ignores_the_rest _ _ _ (by decide)⟩

/-! ## The calls of `scan` and `unscan` in a run of `Parse` -/

theorem tscan_p (x : Traced) : (x.scan).1 = (x.p.scan).1 ∧ (x.scan).2.p = (x.p.scan).2 :=
  ⟨rfl, rfl⟩

theorem tscan_log (x : Traced) : (x.scan).2.log = x.log ++ [Call.scan x.p.n 0] := by
  show x.log ++ [Call.scan x.p.n (x.p.scan).2.n] = _
  rw [scan_n]

theorem tscanIW_eq (x : Traced) :
    x.scanIgnoreWhitespace = if (x.scan).1.1 = WS then (x.scan).2.scan else x.scan := rfl

/-- The recorded `scanIgnoreWhitespace` returns what `scanIgnoreWhitespace` returns. -/
theorem tscanIW_p (x : Traced) :
    (x.scanIgnoreWhitespace).1 = (x.p.scanIgnoreWhitespace).1 ∧
      (x.scanIgnoreWhitespace).2.p = (x.p.scanIgnoreWhitespace).2 := by
  rw [tscanIW_eq, scanIgnoreWhitespace_eq]
  have h1 : (x.scan).1.1 = (x.p.scan).1.1 := rfl
  by_cases hw : (x.p.scan).1.1 = WS
  · rw [if_pos (h1.trans hw), if_pos hw]
    exact ⟨rfl, rfl⟩
  · rw [if_neg (fun h => hw (h1.symm.trans h)), if_neg hw]
    exact ⟨rfl, rfl⟩

/-- The calls recorded by `scanIgnoreWhitespace`: a `scan` that brings the count
to 0, and at most one more. -/
theorem tscanIW_log (x : Traced) :
    (x.scanIgnoreWhitespace).2.log = x.log ++ [Call.scan x.p.n 0] ∨
      (x.scanIgnoreWhitespace).2.log = x.log ++ [Call.scan x.p.n 0, Call.scan 0 0] := by
  rw [tscanIW_eq]
  by_cases hw : (x.scan).1.1 = WS
  · rw [if_pos hw]
    right
    rw [tscan_log, tscan_log]
    have : (x.scan).2.p.n = 0 := scan_n x.p
    rw [this, List.append_assoc]
    rfl
  · rw [if_neg hw]
    left
    exact tscan_log x

theorem tscanIW_n (x : Traced) : (x.scanIgnoreWhitespace).2.p.n = 0 := by
  rw [(tscanIW_p x).2]
  exact scanIW_n x.p

theorem tscanIW_fresh (x : Traced) (h : x.Fresh) :
    (x.scanIgnoreWhitespace).2.Fresh ∧ (x.scanIgnoreWhitespace).2.log ≠ [] := by
  obtain ⟨hn, hl⟩ := h
  refine ⟨⟨tscanIW_n x, ?_⟩, ?_⟩
  · rcases tscanIW_log x with e | e
    · rw [e, hn]
      intro c hc
      rcases List.mem_append.1 hc with hc | hc
      · exact hl c hc
      · simpa using hc
    · rw [e, hn]
      intro c hc
      rcases List.mem_append.1 hc with hc | hc
      · exact hl c hc
      · have h2 : c = Call.scan 0 0 ∨ c = Call.scan 0 0 := by simpa using hc
        exact h2.elim id id
  · rcases tscanIW_log x with e | e <;> rw [e] <;> simp

theorem tunscan_pushed (x : Traced) (h : x.Fresh) (hl : x.log ≠ []) : x.unscan.Pushed := by
  refine ⟨rfl, x.log, ?_, hl, h.2⟩
  show x.log ++ [Call.unscan x.p.n 1] = _
  rw [h.1]

theorem tscanIW_pushed (x : Traced) (h : x.Pushed) : (x.scanIgnoreWhitespace).2.Resumed := by
  obtain ⟨hn, a, e, ha, hs⟩ := h
  refine ⟨tscanIW_n x, a, ?_⟩
  rcases tscanIW_log x with e1 | e1
  · refine ⟨[], ?_, ha, hs, fun c hc => by cases hc⟩
    rw [e1, e, hn]
    simp
  · refine ⟨[Call.scan 0 0], ?_, ha, hs, fun c hc => by simpa using hc⟩
    rw [e1, e, hn]
    simp

theorem tscanIW_resumed (x : Traced) (h : x.Resumed) : (x.scanIgnoreWhitespace).2.Resumed := by
  obtain ⟨hn, a, b, e, ha, hs, hb⟩ := h
  refine ⟨tscanIW_n x, a, ?_⟩
  rcases tscanIW_log x with e1 | e1
  · refine ⟨b ++ [Call.scan 0 0], ?_, ha, hs, ?_⟩
    · rw [e1, e, hn]
      simp
    · intro c hc
      rcases List.mem_append.1 hc with h1 | h1
      · exact hb c h1
      · simpa using h1
  · refine ⟨b ++ [Call.scan 0 0, Call.scan 0 0], ?_, ha, hs, ?_⟩
    · rw [e1, e, hn]
      simp
    · intro c hc
      rcases List.mem_append.1 hc with h1 | h1
      · exact hb c h1
      · have h2 : c = Call.scan 0 0 ∨ c = Call.scan 0 0 := by simpa using h1
        exact h2.elim id id

theorem resumed_shape (x : Traced) (h : x.Resumed) : LogShape x.log :=
  Or.inr h.2

theorem fresh_shape (x : Traced) (h : x.Fresh) (hl : x.log ≠ []) : LogShape x.log :=
  Or.inl ⟨hl, h.2⟩

/-- A round of the recorded loop, begun before any `unscan`, ends before any
`unscan` or directly after the only one. -/
theorem tracedRound_inv (x : Traced) (stmt : FunctionStatement) (h : x.Fresh) :
    (tracedRound x stmt).Inv := by
  unfold tracedRound
  have f1 := tscanIW_fresh x h
  generalize x.scanIgnoreWhitespace = y1 at f1
  obtain ⟨⟨t1, l1⟩, x1⟩ := y1
  dsimp only at f1 ⊢
  by_cases c1 : t1 = CLOSE_BRACE
  · rw [if_pos c1]
    exact tunscan_pushed x1 f1.1 f1.2
  rw [if_neg c1]
  by_cases c2 : t1 ≠ IDENT
  · rw [if_pos c2]
    exact ⟨f1.2, f1.1.2⟩
  rw [if_neg c2]
  have f2 := tscanIW_fresh x1 f1.1
  generalize x1.scanIgnoreWhitespace = y2 at f2
  obtain ⟨⟨t2, l2⟩, x2⟩ := y2
  dsimp only at f2 ⊢
  by_cases c3 : t2 ≠ COLON
  · rw [if_pos c3]
    exact ⟨f2.2, f2.1.2⟩
  rw [if_neg c3]
  have f3 := tscanIW_fresh x2 f2.1
  generalize x2.scanIgnoreWhitespace = y3 at f3
  obtain ⟨⟨t3, l3⟩, x3⟩ := y3
  dsimp only at f3 ⊢
  by_cases c4 : t3 ≠ TEMPLATE ∧ t3 ≠ NUM_VALUE
  · rw [if_pos c4]
    exact ⟨f3.2, f3.1.2⟩
  rw [if_neg c4]
  have f4 := tscanIW_fresh x3 f3.1
  generalize x3.scanIgnoreWhitespace = y4 at f4
  obtain ⟨⟨t4, l4⟩, x4⟩ := y4
  dsimp only at f4 ⊢
  by_cases c5 : t4 ≠ COMMA
  · rw [if_pos c5]
    exact tunscan_pushed x4 f4.1 f4.2
  · rw [if_neg c5]
    exact f4.1

/-- A recorded round is the round of `pairRound` on the same parser. -/
theorem tracedRound_erase (x : Traced) (stmt : FunctionStatement) :
    (tracedRound x stmt).erase = pairRound x.p stmt := by
  unfold tracedRound pairRound
  have e1 := tscanIW_p x
  generalize x.scanIgnoreWhitespace = y1 at e1
  generalize x.p.scanIgnoreWhitespace = z1 at e1
  obtain ⟨⟨t1, l1⟩, x1⟩ := y1
  obtain ⟨tl1, p1⟩ := z1
  dsimp only at e1 ⊢
  obtain ⟨e1a, e1b⟩ := e1
  subst e1a
  subst e1b
  dsimp only
  by_cases c1 : t1 = CLOSE_BRACE
  · rw [if_pos c1, if_pos c1]
    rfl
  rw [if_neg c1, if_neg c1]
  by_cases c2 : t1 ≠ IDENT
  · rw [if_pos c2, if_pos c2]
    rfl
  rw [if_neg c2, if_neg c2]
  have e2 := tscanIW_p x1
  generalize x1.scanIgnoreWhitespace = y2 at e2
  generalize x1.p.scanIgnoreWhitespace = z2 at e2
  obtain ⟨⟨t2, l2⟩, x2⟩ := y2
  obtain ⟨tl2, p2⟩ := z2
  dsimp only at e2 ⊢
  obtain ⟨e2a, e2b⟩ := e2
  subst e2a
  subst e2b
  dsimp only
  by_cases c3 : t2 ≠ COLON
  · rw [if_pos c3, if_pos c3]
    rfl
  rw [if_neg c3, if_neg c3]
  have e3 := tscanIW_p x2
  generalize x2.scanIgnoreWhitespace = y3 at e3
  generalize x2.p.scanIgnoreWhitespace = z3 at e3
  obtain ⟨⟨t3, l3⟩, x3⟩ := y3
  obtain ⟨tl3, p3⟩ := z3
  dsimp only at e3 ⊢
  obtain ⟨e3a, e3b⟩ := e3
  subst e3a
  subst e3b
  dsimp only
  by_cases c4 : t3 ≠ TEMPLATE ∧ t3 ≠ NUM_VALUE
  · rw [if_pos c4, if_pos c4]
    rfl
  rw [if_neg c4, if_neg c4]
  have e4 := tscanIW_p x3
  generalize x3.scanIgnoreWhitespace = y4 at e4
  generalize x3.p.scanIgnoreWhitespace = z4 at e4
  obtain ⟨⟨t4, l4⟩, x4⟩ := y4
  obtain ⟨tl4, p4⟩ := z4
  dsimp only at e4 ⊢
  obtain ⟨e4a, e4b⟩ := e4
  subst e4a
  subst e4b
  dsimp only
  by_cases c5 : t4 ≠ COMMA
  · rw [if_pos c5, if_pos c5]
    rfl
  · rw [if_neg c5, if_neg c5]
    rfl

theorem tracedLoop_fail (fuel : Nat) (x : Traced) (stmt : FunctionStatement) (e : ParseError)
    (log : List Call) (h : tracedRound x stmt = .fail e log) :
    tracedLoop (fuel + 1) x stmt = some (.fail e log) := by
  rw [tracedLoop, h]

theorem tracedLoop_brk (fuel : Nat) (x : Traced) (stmt : FunctionStatement) (x1 : Traced)
    (stmt1 : FunctionStatement) (h : tracedRound x stmt = .brk x1 stmt1) :
    tracedLoop (fuel + 1) x stmt = some (.brk x1 stmt1) := by
  rw [tracedLoop, h]

theorem tracedLoop_next (fuel : Nat) (x : Traced) (stmt : FunctionStatement) (x1 : Traced)
    (stmt1 : FunctionStatement) (h : tracedRound x stmt = .next x1 stmt1) :
    tracedLoop (fuel + 1) x stmt = tracedLoop fuel x1 stmt1 := by
  rw [tracedLoop, h]

/-- The recorded loop is the loop of `Parse` on the same parser. -/
theorem tracedLoop_erase (fuel : Nat) (x : Traced) (stmt : FunctionStatement) :
    (tracedLoop fuel x stmt).map TracedExit.erase = pairLoop fuel x.p stmt := by
  induction fuel generalizing x stmt with
  | zero => rfl
  | succ fuel ih =>
    have he := tracedRound_erase x stmt
    cases hrd : tracedRound x stmt with
    | fail e log =>
      rw [hrd] at he
      rw [tracedLoop_fail _ _ _ _ _ hrd, pairLoop_fail _ _ _ _ he.symm]
      rfl
    | brk x1 s1 =>
      rw [hrd] at he
      rw [tracedLoop_brk _ _ _ _ _ hrd, pairLoop_brk _ _ _ _ _ he.symm]
      rfl
    | next x1 s1 =>
      rw [hrd] at he
      rw [tracedLoop_next _ _ _ _ _ hrd, pairLoop_next _ _ _ _ _ he.symm]
      exact ih x1 s1

/-- The recorded loop, begun before any `unscan`, is left before any `unscan`
or directly after the only one. -/
theorem tracedLoop_inv (fuel : Nat) (x : Traced) (stmt : FunctionStatement) (h : x.Fresh)
    (res : TracedExit) (hres : tracedLoop fuel x stmt = some res) : res.Inv := by
  induction fuel generalizing x stmt with
  | zero => cases hres
  | succ fuel ih =>
    have hi := tracedRound_inv x stmt h
    cases hrd : tracedRound x stmt with
    | fail e log =>
      rw [hrd] at hi
      rw [tracedLoop_fail _ _ _ _ _ hrd] at hres
      cases hres
      exact hi
    | brk x1 s1 =>
      rw [hrd] at hi
      rw [tracedLoop_brk _ _ _ _ _ hrd] at hres
      cases hres
      exact hi
    | next x1 s1 =>
      rw [hrd] at hi
      rw [tracedLoop_next _ _ _ _ _ hrd] at hres
      exact ih x1 s1 hi hres

/-- The end of the recorded `Parse` is the end of `Parse` on the same parser. -/
theorem tracedClose_erase (x : Traced) (stmt : FunctionStatement) :
    (tracedClose x stmt).1 = closeTail x.p stmt := by
  unfold tracedClose closeTail
  have e1 := tscanIW_p x
  generalize x.scanIgnoreWhitespace = y1 at e1
  generalize x.p.scanIgnoreWhitespace = z1 at e1
  obtain ⟨⟨t1, l1⟩, x1⟩ := y1
  obtain ⟨tl1, p1⟩ := z1
  dsimp only at e1 ⊢
  obtain ⟨e1a, e1b⟩ := e1
  subst e1a
  subst e1b
  dsimp only
  by_cases c1 : t1 ≠ CLOSE_BRACE
  · rw [if_pos c1, if_pos c1]
  rw [if_neg c1, if_neg c1]
  have e2 := tscanIW_p x1
  generalize x1.scanIgnoreWhitespace = y2 at e2
  generalize x1.p.scanIgnoreWhitespace = z2 at e2
  obtain ⟨⟨t2, l2⟩, x2⟩ := y2
  obtain ⟨tl2, p2⟩ := z2
  dsimp only at e2 ⊢
  obtain ⟨e2a, e2b⟩ := e2
  subst e2a
  subst e2b
  dsimp only
  by_cases c2 : t2 ≠ CLOSE_BRACKET
  · rw [if_pos c2, if_pos c2]
  · rw [if_neg c2, if_neg c2]

/-- After the only `unscan`, the end of `Parse` calls `scan` before it returns. -/
theorem tracedClose_shape (x : Traced) (stmt : FunctionStatement) (h : x.Pushed) :
    LogShape (tracedClose x stmt).2 := by
  unfold tracedClose
  have f1 := tscanIW_pushed x h
  generalize x.scanIgnoreWhitespace = y1 at f1
  obtain ⟨⟨t1, l1⟩, x1⟩ := y1
  dsimp only at f1 ⊢
  by_cases c1 : t1 ≠ CLOSE_BRACE
  · rw [if_pos c1]
    exact resumed_shape x1 f1
  rw [if_neg c1]
  have f2 := tscanIW_resumed x1 f1
  generalize x1.scanIgnoreWhitespace = y2 at f2
  obtain ⟨⟨t2, l2⟩, x2⟩ := y2
  dsimp only at f2 ⊢
  by_cases c2 : t2 ≠ CLOSE_BRACKET
  · rw [if_pos c2]
    exact resumed_shape x2 f2
  · rw [if_neg c2]
    exact resumed_shape x2 f2

/-- The recorded `Parse` returns what `Parse` returns. -/
theorem tracedParseFuel_erase (fuel : Nat) (x : Traced) :
    (x.ParseFuel fuel).map Prod.fst = x.p.ParseFuel fuel := by
  rw [ParseFuel_eq]
  unfold Traced.ParseFuel
  have e1 := tscanIW_p x
  generalize x.scanIgnoreWhitespace = y1 at e1
  generalize x.p.scanIgnoreWhitespace = z1 at e1
  obtain ⟨⟨t1, l1⟩, x1⟩ := y1
  obtain ⟨tl1, p1⟩ := z1
  dsimp only at e1 ⊢
  obtain ⟨e1a, e1b⟩ := e1
  subst e1a
  subst e1b
  dsimp only
  by_cases c1 : t1 ≠ FUNCTION
  · rw [if_pos c1, if_pos c1]
    rfl
  rw [if_neg c1, if_neg c1]
  have e2 := tscanIW_p x1
  generalize x1.scanIgnoreWhitespace = y2 at e2
  generalize x1.p.scanIgnoreWhitespace = z2 at e2
  obtain ⟨⟨t2, l2⟩, x2⟩ := y2
  obtain ⟨tl2, p2⟩ := z2
  dsimp only at e2 ⊢
  obtain ⟨e2a, e2b⟩ := e2
  subst e2a
  subst e2b
  dsimp only
  by_cases c2 : t2 ≠ OPEN_BRACKET
  · rw [if_pos c2, if_pos c2]
    rfl
  rw [if_neg c2, if_neg c2]
  have e3 := tscanIW_p x2
  generalize x2.scanIgnoreWhitespace = y3 at e3
  generalize x2.p.scanIgnoreWhitespace = z3 at e3
  obtain ⟨⟨t3, l3⟩, x3⟩ := y3
  obtain ⟨tl3, p3⟩ := z3
  dsimp only at e3 ⊢
  obtain ⟨e3a, e3b⟩ := e3
  subst e3a
  subst e3b
  dsimp only
  by_cases c3 : t3 ≠ TEMPLATE
  · rw [if_pos c3, if_pos c3]
    rfl
  rw [if_neg c3, if_neg c3]
  have e4 := tscanIW_p x3
  generalize x3.scanIgnoreWhitespace = y4 at e4
  generalize x3.p.scanIgnoreWhitespace = z4 at e4
  obtain ⟨⟨t4, l4⟩, x4⟩ := y4
  obtain ⟨tl4, p4⟩ := z4
  dsimp only at e4 ⊢
  obtain ⟨e4a, e4b⟩ := e4
  subst e4a
  subst e4b
  dsimp only
  by_cases c4 : t4 ≠ COMMA
  · rw [if_pos c4, if_pos c4]
    rfl
  rw [if_neg c4, if_neg c4]
  have e5 := tscanIW_p x4
  generalize x4.scanIgnoreWhitespace = y5 at e5
  generalize x4.p.scanIgnoreWhitespace = z5 at e5
  obtain ⟨⟨t5, l5⟩, x5⟩ := y5
  obtain ⟨tl5, p5⟩ := z5
  dsimp only at e5 ⊢
  obtain ⟨e5a, e5b⟩ := e5
  subst e5a
  subst e5b
  dsimp only
  by_cases c5 : t5 ≠ OPEN_BRACE
  · rw [if_pos c5, if_pos c5]
    rfl
  rw [if_neg c5, if_neg c5]
  unfold loopTail
  rw [← tracedLoop_erase]
  cases tracedLoop fuel x5 ⟨l3, []⟩ with
  | none => rfl
  | some r =>
    cases r with
    | fail e log => rfl
    | brk q s => exact congrArg some (tracedClose_erase q s)

/-- The calls recorded by `Parse`, begun before any `unscan`. -/
theorem tracedParseFuel_shape (fuel : Nat) (x : Traced) (h : x.Fresh) (res : ParseResult)
    (log : List Call) (hres : x.ParseFuel fuel = some (res, log)) : LogShape log := by
  unfold Traced.ParseFuel at hres
  have f1 := tscanIW_fresh x h
  generalize x.scanIgnoreWhitespace = y1 at f1 hres
  obtain ⟨⟨t1, l1⟩, x1⟩ := y1
  dsimp only at f1 hres
  by_cases c1 : t1 ≠ FUNCTION
  · rw [if_pos c1] at hres
    cases hres
    exact fresh_shape x1 f1.1 f1.2
  rw [if_neg c1] at hres
  have f2 := tscanIW_fresh x1 f1.1
  generalize x1.scanIgnoreWhitespace = y2 at f2 hres
  obtain ⟨⟨t2, l2⟩, x2⟩ := y2
  dsimp only at f2 hres
  by_cases c2 : t2 ≠ OPEN_BRACKET
  · rw [if_pos c2] at hres
    cases hres
    exact fresh_shape x2 f2.1 f2.2
  rw [if_neg c2] at hres
  have f3 := tscanIW_fresh x2 f2.1
  generalize x2.scanIgnoreWhitespace = y3 at f3 hres
  obtain ⟨⟨t3, l3⟩, x3⟩ := y3
  dsimp only at f3 hres
  by_cases c3 : t3 ≠ TEMPLATE
  · rw [if_pos c3] at hres
    cases hres
    exact fresh_shape x3 f3.1 f3.2
  rw [if_neg c3] at hres
  have f4 := tscanIW_fresh x3 f3.1
  generalize x3.scanIgnoreWhitespace = y4 at f4 hres
  obtain ⟨⟨t4, l4⟩, x4⟩ := y4
  dsimp only at f4 hres
  by_cases c4 : t4 ≠ COMMA
  · rw [if_pos c4] at hres
    cases hres
    exact fresh_shape x4 f4.1 f4.2
  rw [if_neg c4] at hres
  have f5 := tscanIW_fresh x4 f4.1
  generalize x4.scanIgnoreWhitespace = y5 at f5 hres
  obtain ⟨⟨t5, l5⟩, x5⟩ := y5
  dsimp only at f5 hres
  by_cases c5 : t5 ≠ OPEN_BRACE
  · rw [if_pos c5] at hres
    cases hres
    exact fresh_shape x5 f5.1 f5.2
  rw [if_neg c5] at hres
  have hi := tracedLoop_inv fuel x5 ⟨l3, []⟩ f5.1
  generalize tracedLoop fuel x5 ⟨l3, []⟩ = r at hi hres
  rcases r with _ | (⟨e, lg⟩ | ⟨q, s⟩)
  · cases hres
  · have := hi _ rfl
    cases hres
    exact Or.inl this
  · have hp : q.Pushed := hi _ rfl
    have hs := tracedClose_shape q s hp
    have e : tracedClose q s = (res, log) := Option.some.inj hres
    rw [e] at hs
    exact hs

theorem scans_no_unscan (l : List Call) (h : ∀ c ∈ l, c = Call.scan 0 0) (m n : Nat) :
    Call.unscan m n ∉ l := by
  intro hm
  cases h _ hm

theorem scans_filter (l : List Call) (h : ∀ c ∈ l, c = Call.scan 0 0) :
    l.filter Call.isUnscan = [] := by
  rw [List.filter_eq_nil_iff]
  intro c hc
  rw [h c hc]
  decide

theorem scans_last (l : List Call) (h : ∀ c ∈ l, c = Call.scan 0 0) (hl : l ≠ []) :
    ∃ a1 k j, l = a1 ++ [Call.scan k j] := by
  refine ⟨l.dropLast, 0, 0, ?_⟩
  have e := (List.dropLast_append_getLast hl).symm
  rw [h _ (List.getLast_mem hl)] at e
  exact e

/-- The records of a run of `Parse` keep the pushback discipline. -/
theorem shape_disciplined (log : List Call) (h : LogShape log) : Disciplined log := by
  rcases h with ⟨_, hs⟩ | ⟨A, B, e, hA, hsA, hsB⟩
  · refine ⟨?_, ?_, ?_⟩
    · intro c hc
      rw [hs c hc]
      exact ⟨Or.inl rfl, Or.inl rfl⟩
    · rw [scans_filter log hs]
      exact Nat.zero_le 1
    · intro a b m n e
      exfalso
      apply scans_no_unscan log hs m n
      rw [e]
      simp
  · refine ⟨?_, ?_, ?_⟩
    · intro c hc
      rw [e] at hc
      rcases List.mem_append.1 hc with h1 | h1
      · rcases List.mem_append.1 h1 with h2 | h2
        · rw [hsA c h2]
          exact ⟨Or.inl rfl, Or.inl rfl⟩
        · have h3 : c = Call.unscan 0 1 ∨ c = Call.scan 1 0 := by simpa using h2
          rcases h3 with h3 | h3
          · rw [h3]
            exact ⟨Or.inl rfl, Or.inr rfl⟩
          · rw [h3]
            exact ⟨Or.inr rfl, Or.inl rfl⟩
      · rw [hsB c h1]
        exact ⟨Or.inl rfl, Or.inl rfl⟩
    · rw [e, List.filter_append, List.filter_append, scans_filter A hsA, scans_filter B hsB]
      exact le_refl 1
    · intro a b m n e1
      rw [e, List.append_assoc] at e1
      have e2 : A ++ (Call.unscan 0 1 :: Call.scan 1 0 :: B) = a ++ Call.unscan m n :: b := e1
      rcases List.append_eq_append_iff.1 e2 with ⟨a1, ha, hb⟩ | ⟨c1, ha, hb⟩
      · cases a1 with
        | nil =>
          rw [List.nil_append] at hb
          rw [List.append_nil] at ha
          obtain ⟨h1, h2⟩ := List.cons.inj hb
          cases h1
          rw [ha]
          exact ⟨rfl, scans_last A hsA hA, 1, 0, B, h2.symm⟩
        | cons y a2 =>
          exfalso
          rw [List.cons_append] at hb
          have h2 : Call.scan 1 0 :: B = a2 ++ Call.unscan m n :: b := (List.cons.inj hb).2
          have h3 : Call.unscan m n ∈ Call.scan 1 0 :: B := by
            rw [h2]
            simp
          rcases List.mem_cons.1 h3 with h4 | h4
          · cases h4
          · exact scans_no_unscan B hsB m n h4
      · cases c1 with
        | nil =>
          rw [List.nil_append] at hb
          rw [List.append_nil] at ha
          obtain ⟨h1, h2⟩ := List.cons.inj hb
          cases h1
          rw [← ha]
          exact ⟨rfl, scans_last A hsA hA, 1, 0, B, h2⟩
        | cons y c2 =>
          exfalso
          apply scans_no_unscan A hsA m n
          rw [ha]
          rw [List.cons_append] at hb
          have : Call.unscan m n = y := (List.cons.inj hb).1
          rw [this]
          simp

theorem parseTextTraced_erase (input : List Char) :
    (parseTextTraced input).map Prod.fst = parseText input := by
  unfold parseTextTraced parseText Traced.Parse Parser.Parse
  exact tracedParseFuel_erase _ _

/-- C18: in every run of `Parse` on a new parser, on every input, `Parse`
returns, and in the record of its calls of `scan` and `unscan` the count of the
pushback buffer is 0 or 1 before and after every call, `unscan` is called at
most once, each call of `unscan` is made with the count 0 directly after a call
of `scan`, and is followed by a call of `scan` before `Parse` returns, so no two
calls of `unscan` come without a `scan` between them; on the text
`f('x',{})` the record is six calls of `scan`, the `unscan`, and two
calls of `scan`. -/
theorem C18_pushback_discipline :
    (∀ input : List Char, ∃ res log, parseTextTraced input = some (res, log) ∧
      parseText input = some res ∧ Disciplined log) ∧
    parseTextTraced "f('x',\x7b\x7d)".toList =
      some ((some ⟨"'x'".toList, []⟩, none),
        List.replicate 6 (Call.scan 0 0) ++ [Call.unscan 0 1, Call.scan 1 0, Call.scan 0 0]) := by
  refine ⟨?_, by decide⟩
  intro input
  obtain ⟨res, hres⟩ := Parse_total input
  have he := parseTextTraced_erase input
  rw [hres] at he
  cases ht : parseTextTraced input with
  | none =>
    rw [ht] at he
    cases he
  | some rl =>
    obtain ⟨r1, log⟩ := rl
    rw [ht] at he
    have e1 : r1 = res := Option.some.inj he
    subst e1
    refine ⟨r1, log, rfl, hres, shape_disciplined log ?_⟩
    unfold parseTextTraced Traced.Parse at ht
    exact tracedParseFuel_shape _ _ ⟨rfl, fun c hc => by cases hc⟩ r1 log ht

end Lang
